import Mathlib

/-!
Verification of the `MultiGraph` container (`src/multigraphs.py`).

The Python class stores a weighted multigraph as a dict mapping each node to a
dict mapping each neighbour to the list of parallel edges.  We model nodes as
natural numbers (any hashable, totally ordered identifier works the same way),
dicts as association lists with unique keys, and every operation of the class
as a pure function.  Operations that can raise (`KeyError` / `ValueError`)
return the error together with the state at the moment the exception is
raised, so that atomicity statements are faithful to the imperative code.
-/

set_option maxHeartbeats 1000000

/-- An edge of the weighted multigraph: a source node, a target node and a
weight.  The Python `Edge` class is an external collaborator; its contract is
structural equality and an inversion operator. -/
structure Edge where
  source : Nat
  target : Nat
  weight : Int
deriving DecidableEq

/-- Edge inversion (`~edge` in Python): swap source and target, keep the
weight. -/
def Edge.inv (ed : Edge) : Edge :=
  { source := ed.target, target := ed.source, weight := ed.weight }

theorem Edge.inv_inv (ed : Edge) : ed.inv.inv = ed := rfl

theorem Edge.inv_injective : Function.Injective Edge.inv := by
  intro a b h
  cases a; cases b
  simp only [Edge.inv, Edge.mk.injEq] at h ⊢
  exact ⟨h.2.1, h.1, h.2.2⟩

/-! Association-list primitives modelling the Python dict operations used by
the class: lookup (`d[k]` / `k in d`), in-place value update (`d[k] = v`),
key deletion (`del d[k]`).  Keys are unique in a dict, so deletion removes the
first (only) matching entry. -/

/-- Dict lookup: the value stored at key `k`, if any. -/
def alook {α : Type} : List (Nat × α) → Nat → Option α
  | [], _ => none
  | p :: rest, k => if p.1 = k then some p.2 else alook rest k

/-- Dict value update at key `k` (no-op on absent keys). -/
def updKey {α : Type} : List (Nat × α) → Nat → (α → α) → List (Nat × α)
  | [], _, _ => []
  | p :: rest, k, f => (if p.1 = k then (p.1, f p.2) else p) :: updKey rest k f

/-- Dict key deletion (`del d[k]`): drop the first entry with key `k`. -/
def delKey {α : Type} : List (Nat × α) → Nat → List (Nat × α)
  | [], _ => []
  | p :: rest, k => if p.1 = k then rest else p :: delKey rest k

/-- Python `list.remove(x)`: delete the first element equal to `x`; `none`
models the `ValueError` raised when no element matches. -/
def removeFirst : List Edge → Edge → Option (List Edge)
  | [], _ => none
  | x :: xs, ed => if x = ed then some xs else (removeFirst xs ed).map (fun l => x :: l)

/-- The adjacency dict of one node: neighbour ↦ list of parallel edges. -/
abbrev Adj := List (Nat × List Edge)

/-- The multigraph: the directedness flag fixed at construction and the
node ↦ adjacency-dict mapping (the Python object inherits from `dict`).
The advisory capacity hint `n` carries no semantics and is omitted. -/
structure MultiGraph where
  directed : Bool
  adj : List (Nat × Adj)
deriving DecidableEq

/-- `v()`: the number of nodes (the multigraph order). -/
def MultiGraph.v (g : MultiGraph) : Nat := g.adj.length

/-- `is_directed()`. -/
def MultiGraph.is_directed (g : MultiGraph) : Bool := g.directed

/-- `has_node(node)`: `node in self`. -/
def MultiGraph.has_node (g : MultiGraph) (u : Nat) : Bool := (alook g.adj u).isSome

/-- `add_node(node)`: create an empty adjacency dict if the node is absent. -/
def MultiGraph.add_node (g : MultiGraph) (u : Nat) : MultiGraph :=
  if (alook g.adj u).isSome then g else { g with adj := g.adj ++ [(u, [])] }

/-- The adjacency bucket `self[u][w]`, if both lookups succeed. -/
def bucketAt (g : MultiGraph) (u w : Nat) : Option (List Edge) :=
  match alook g.adj u with
  | none => none
  | some a => alook a w

/-- `has_edge(edge)`: `edge.source in self and edge.target in self[edge.source]`. -/
def MultiGraph.has_edge (g : MultiGraph) (ed : Edge) : Bool :=
  match alook g.adj ed.source with
  | none => false
  | some a => (alook a ed.target).isSome

/-- The `loops` accumulator of `e()`: for each node, the length of its loop
bucket `self[node][node]` when present. -/
def loopEntries (g : MultiGraph) : Nat :=
  (g.adj.map (fun p => match alook p.2 p.1 with
    | some l => l.length
    | none => 0)).sum

/-- The `edges` accumulator of `e()`: the sum of all bucket lengths. -/
def totalEntries (g : MultiGraph) : Nat :=
  (g.adj.map (fun p => (p.2.map (fun q => q.2.length)).sum)).sum

/-- `e()`: the number of edges; directed graphs return the raw bucket-entry
sum, undirected graphs halve it after counting loop entries a second time
(integer division, as in Python 2). -/
def MultiGraph.e (g : MultiGraph) : Nat :=
  if g.directed then totalEntries g else (totalEntries g + loopEntries g) / 2

/-- Bucket creation inside `add_edge`: `if t not in a: a[t] = list()`. -/
def addB (a : Adj) (t : Nat) : Adj :=
  if (alook a t).isSome then a else a ++ [(t, [])]

/-- Parallel-edge append inside `add_edge`: `a[t].append(ed)`. -/
def appendB (a : Adj) (t : Nat) (ed : Edge) : Adj :=
  updKey a t (fun l => l ++ [ed])

/-- `add_edge(edge)`: create missing endpoint nodes, create the missing
bucket(s), append the edge, and mirror the inverted edge for undirected
non-loop edges. -/
def MultiGraph.add_edge (g : MultiGraph) (ed : Edge) : MultiGraph :=
  let g1 := (g.add_node ed.source).add_node ed.target
  let a2 := updKey g1.adj ed.source (fun a => addB a ed.target)
  let a3 := if g.directed then a2 else updKey a2 ed.target (fun a => addB a ed.source)
  let a4 := updKey a3 ed.source (fun a => appendB a ed.target ed)
  let a5 := if g.directed = false ∧ ed.source ≠ ed.target then
      updKey a4 ed.target (fun a => appendB a ed.source ed.inv)
    else a4
  { g1 with adj := a5 }

/-- The two Python exception kinds the class can raise. -/
inductive GErr where
  | keyError : GErr
  | valueError : GErr
deriving DecidableEq

/-- One half of `del_edge`: `self[s][t].remove(ed)` followed by
`if len(self[s][t]) == 0: del self[s][t]`.  Returns the error (missing key /
missing value) with the untouched map, or the updated map. -/
def delHalf (m : List (Nat × Adj)) (s t : Nat) (ed : Edge) :
    Option GErr × List (Nat × Adj) :=
  match alook m s with
  | none => (some GErr.keyError, m)
  | some a =>
    match alook a t with
    | none => (some GErr.keyError, m)
    | some l =>
      match removeFirst l ed with
      | none => (some GErr.valueError, m)
      | some l2 =>
        if l2 = [] then (none, updKey m s (fun a2 => delKey a2 t))
        else (none, updKey m s (fun a2 => updKey a2 t (fun _ => l2)))

/-- `del_edge(edge)`: remove one occurrence from the bucket, drop the bucket
when it empties, and mirror the removal for undirected non-loop edges.  The
returned state is the state at the moment an exception is raised, so a
failure of the mirror half would leave the first half's mutation visible. -/
def MultiGraph.del_edge (g : MultiGraph) (ed : Edge) : Option GErr × MultiGraph :=
  match delHalf g.adj ed.source ed.target ed with
  | (some er, m1) => (some er, { g with adj := m1 })
  | (none, m1) =>
    if g.directed = false ∧ ed.source ≠ ed.target then
      match delHalf m1 ed.target ed.source ed.inv with
      | (er2, m2) => (er2, { g with adj := m2 })
    else (none, { g with adj := m1 })

/-- `iteroutedges(source)`: every edge of every bucket of `self[source]`;
`none` models the `KeyError` on an absent node. -/
def MultiGraph.iteroutedges (g : MultiGraph) (s : Nat) : Option (List Edge) :=
  match alook g.adj s with
  | none => none
  | some a => some (a.flatMap (fun q => q.2))

/-- `iterinedges(source)`: directed graphs scan every node's bucket at
`source`; undirected graphs yield the inverted out-edges (`KeyError`, hence
`none`, on an absent node). -/
def MultiGraph.iterinedges (g : MultiGraph) (s : Nat) : Option (List Edge) :=
  if g.directed then
    some (g.adj.flatMap (fun p => match alook p.2 s with
      | some l => l
      | none => []))
  else
    match alook g.adj s with
    | none => none
    | some a => some (a.flatMap (fun q => q.2.map Edge.inv))

/-- `iteredges()`: flatten all buckets, skipping the bucket `self[s][t]` when
the graph is undirected and `s > t` (loops have `s = t` and are kept). -/
def MultiGraph.iteredges (g : MultiGraph) : List Edge :=
  g.adj.flatMap (fun p => p.2.flatMap (fun q =>
    if g.directed || decide (p.1 ≤ q.1) then q.2 else []))

/-- Sequential `del_edge` calls, stopping at the first raised exception
(used by `del_node`, which materializes the edge list before deleting). -/
def delEdges : MultiGraph → List Edge → Option GErr × MultiGraph
  | g, [] => (none, g)
  | g, ed :: rest =>
    match g.del_edge ed with
    | (some er, g2) => (some er, g2)
    | (none, g2) => delEdges g2 rest

/-- `del_node(node)`: delete every in-edge, then (directed only) every
out-edge, then the node itself.  The edge lists are materialized before the
deletions, exactly as in the source. -/
def MultiGraph.del_node (g : MultiGraph) (u : Nat) : Option GErr × MultiGraph :=
  match g.iterinedges u with
  | none => (some GErr.keyError, g)
  | some inE =>
    match delEdges g inE with
    | (some er, g2) => (some er, g2)
    | (none, g2) =>
      if g2.directed then
        match g2.iteroutedges u with
        | none => (some GErr.keyError, g2)
        | some outE =>
          match delEdges g2 outE with
          | (some er2, g3) => (some er2, g3)
          | (none, g3) => (none, { g3 with adj := delKey g3.adj u })
      else (none, { g2 with adj := delKey g2.adj u })

/-- `transpose()`: a fresh multigraph with the same directedness, every node
added, then `~edge` added for every yielded edge. -/
def MultiGraph.transpose (g : MultiGraph) : MultiGraph :=
  let g1 := g.adj.foldl (fun h p => h.add_node p.1)
    { directed := g.directed, adj := [] }
  g.iteredges.foldl (fun h ed => h.add_edge ed.inv) g1

/-- `degree(source)`: undirected only (`ValueError` otherwise, `KeyError` on
an absent node); the loop bucket's length is counted a second time. -/
def MultiGraph.degree (g : MultiGraph) (s : Nat) : Except GErr Nat :=
  if g.directed then Except.error GErr.valueError
  else
    match alook g.adj s with
    | none => Except.error GErr.keyError
    | some a =>
      let loops := match alook a s with
        | some l => l.length
        | none => 0
      let edges := (a.map (fun q => q.2.length)).sum
      Except.ok (edges + loops)

/-- `__eq__`: directedness, node count, node membership (left in right), edge
count, then `has_edge` in the right graph for every edge yielded by the left
graph; each check returns `False` early when it fails, in this order. -/
def MultiGraph.eq (g1 g2 : MultiGraph) : Bool :=
  if g1.is_directed != g2.is_directed then false
  else if g1.v != g2.v then false
  else if !(g1.adj.all (fun p => g2.has_node p.1)) then false
  else if g1.e != g2.e then false
  else g1.iteredges.all (fun ed => g2.has_edge ed)

/-- `add_multigraph(other)` (merge): add every node of `other`, then every
edge yielded by `other.iteredges()`, into this multigraph. -/
def MultiGraph.add_multigraph (g other : MultiGraph) : MultiGraph :=
  let g1 := other.adj.foldl (fun h p => h.add_node p.1) g
  other.iteredges.foldl (fun h ed => h.add_edge ed) g1

/-! Structural invariants of the representation (spec §3).  `WFo`/`WFi` state
dict-key uniqueness (automatic for Python dicts), `I1` is key presence,
`I2` non-empty buckets, `I6` records that a bucket `g[u][w]` only holds edges
with source `u` and target `w` (implicit in the spec's data model), and `I3`
is the undirected mirroring invariant.  Loop singularity (I4) and directed
independence (I5) are facts about the operations, not extra state. -/

/-- Outer dict keys are unique. -/
def WFo (g : MultiGraph) : Prop := (g.adj.map Prod.fst).Nodup

/-- Inner dict keys are unique. -/
def WFi (g : MultiGraph) : Prop := ∀ p ∈ g.adj, (p.2.map Prod.fst).Nodup

/-- I1: every bucket key (an edge target) is itself a node. -/
def I1 (g : MultiGraph) : Prop := ∀ p ∈ g.adj, ∀ q ∈ p.2, (alook g.adj q.1).isSome = true

/-- I2: every existing bucket is non-empty. -/
def I2 (g : MultiGraph) : Prop := ∀ p ∈ g.adj, ∀ q ∈ p.2, q.2 ≠ []

/-- Bucket consistency: the bucket `g[u][w]` holds edges from `u` to `w`. -/
def I6 (g : MultiGraph) : Prop :=
  ∀ p ∈ g.adj, ∀ q ∈ p.2, ∀ ed ∈ q.2, ed.source = p.1 ∧ ed.target = q.1

/-- I3: undirected mirroring — the bucket `g[w][u]` mirrors `g[u][w]`
entry by entry through edge inversion. -/
def I3 (g : MultiGraph) : Prop := g.directed = false → ∀ p ∈ g.adj, ∀ q ∈ p.2,
  p.1 ≠ q.1 → bucketAt g q.1 p.1 = some (q.2.map Edge.inv)

/-- All structural invariants together. -/
def GInv (g : MultiGraph) : Prop := WFo g ∧ WFi g ∧ I1 g ∧ I2 g ∧ I6 g ∧ I3 g

instance (g : MultiGraph) : Decidable (WFo g) := by unfold WFo; infer_instance
instance (g : MultiGraph) : Decidable (WFi g) := by unfold WFi; infer_instance
instance (g : MultiGraph) : Decidable (I1 g) := by unfold I1; infer_instance
instance (g : MultiGraph) : Decidable (I2 g) := by unfold I2; infer_instance
instance (g : MultiGraph) : Decidable (I6 g) := by unfold I6; infer_instance
instance (g : MultiGraph) : Decidable (I3 g) := by unfold I3; infer_instance
instance (g : MultiGraph) : Decidable (GInv g) := by unfold GInv; infer_instance

/-- The multigraphs reachable from an empty multigraph through the public
mutating operations (successful calls only; a raising call leaves the state
unchanged, see the atomicity theorem). -/
inductive Reachable : MultiGraph → Prop where
  | empty (d : Bool) : Reachable { directed := d, adj := [] }
  | addN {g : MultiGraph} (u : Nat) : Reachable g → Reachable (g.add_node u)
  | addE {g : MultiGraph} (ed : Edge) : Reachable g → Reachable (g.add_edge ed)
  | delE {g : MultiGraph} (ed : Edge) : Reachable g → (g.del_edge ed).1 = none →
      Reachable (g.del_edge ed).2
  | delN {g : MultiGraph} (u : Nat) : Reachable g → (g.del_node u).1 = none →
      Reachable (g.del_node u).2
  | merge {g : MultiGraph} (other : MultiGraph) : Reachable g →
      Reachable (g.add_multigraph other)

/-! Lemmas about the dict primitives. -/

theorem alook_append {α : Type} (m1 m2 : List (Nat × α)) (k : Nat) :
    alook (m1 ++ m2) k = match alook m1 k with
      | some v => some v
      | none => alook m2 k := by
  induction m1 with
  | nil => simp [alook]
  | cons p rest ih =>
    by_cases h : p.1 = k <;> simp [alook, h, ih]

theorem alook_eq_none_iff {α : Type} (m : List (Nat × α)) (k : Nat) :
    alook m k = none ↔ k ∉ m.map Prod.fst := by
  induction m with
  | nil => simp [alook]
  | cons p rest ih =>
    by_cases h : p.1 = k
    · subst h; simp [alook]
    · simp [alook, h, ih, Ne.symm h]

theorem alook_isSome_iff {α : Type} (m : List (Nat × α)) (k : Nat) :
    (alook m k).isSome = true ↔ k ∈ m.map Prod.fst := by
  induction m with
  | nil => simp [alook]
  | cons p rest ih =>
    by_cases h : p.1 = k
    · subst h; simp [alook]
    · simp [alook, h, ih, Ne.symm h]

theorem alook_mem {α : Type} {m : List (Nat × α)} {k : Nat} {v : α}
    (h : alook m k = some v) : (k, v) ∈ m := by
  induction m with
  | nil => simp [alook] at h
  | cons p rest ih =>
    by_cases h1 : p.1 = k
    · rw [show alook (p :: rest) k = some p.2 by simp [alook, h1]] at h
      injection h with h2
      subst h2; subst h1
      exact List.mem_cons_self _ _
    · rw [show alook (p :: rest) k = alook rest k by simp [alook, h1]] at h
      exact List.mem_cons_of_mem _ (ih h)

theorem mem_alook {α : Type} {m : List (Nat × α)} {k : Nat} {v : α}
    (hnd : (m.map Prod.fst).Nodup) (h : (k, v) ∈ m) : alook m k = some v := by
  induction m with
  | nil => simp at h
  | cons p rest ih =>
    simp only [List.map_cons, List.nodup_cons] at hnd
    rcases List.mem_cons.mp h with h1 | h1
    · rw [← h1]; simp [alook]
    · have hk : p.1 ≠ k := by
        intro he
        exact hnd.1 (he ▸ (List.mem_map.mpr ⟨(k, v), h1, rfl⟩))
      simp [alook, hk, ih hnd.2 h1]

theorem updKey_eq_map {α : Type} (m : List (Nat × α)) (k : Nat) (f : α → α) :
    updKey m k f = m.map (fun p => if p.1 = k then (p.1, f p.2) else p) := by
  induction m with
  | nil => rfl
  | cons p rest ih => simp [updKey, ih]

theorem keys_updKey {α : Type} (m : List (Nat × α)) (k : Nat) (f : α → α) :
    (updKey m k f).map Prod.fst = m.map Prod.fst := by
  rw [updKey_eq_map, List.map_map]
  apply List.map_congr_left
  intro p _
  by_cases h : p.1 = k <;> simp [h]

theorem updKey_of_not_mem {α : Type} {m : List (Nat × α)} {k : Nat} (f : α → α)
    (h : k ∉ m.map Prod.fst) : updKey m k f = m := by
  induction m with
  | nil => rfl
  | cons p rest ih =>
    simp only [List.map_cons, List.mem_cons, not_or] at h
    have hk : p.1 ≠ k := fun he => h.1 he.symm
    simp [updKey, hk, ih h.2]

theorem alook_updKey_self {α : Type} (m : List (Nat × α)) (k : Nat) (f : α → α) :
    alook (updKey m k f) k = (alook m k).map f := by
  induction m with
  | nil => simp [alook, updKey]
  | cons p rest ih =>
    by_cases h : p.1 = k <;> simp [alook, updKey, h, ih]

theorem alook_updKey_ne {α : Type} (m : List (Nat × α)) {k k2 : Nat} (f : α → α)
    (h : k ≠ k2) : alook (updKey m k f) k2 = alook m k2 := by
  induction m with
  | nil => simp [updKey]
  | cons p rest ih =>
    by_cases h1 : p.1 = k
    · subst h1
      simp [alook, updKey, h, ih]
    · by_cases h2 : p.1 = k2
      · subst h2
        simp [alook, updKey, h1, ih]
      · simp [alook, updKey, h1, h2, ih]

theorem delKey_cons_self {α : Type} (rest : List (Nat × α)) (k : Nat) (v : α) :
    delKey ((k, v) :: rest) k = rest := by
  simp [delKey]

theorem delKey_of_not_mem {α : Type} {m : List (Nat × α)} {k : Nat}
    (h : k ∉ m.map Prod.fst) : delKey m k = m := by
  induction m with
  | nil => rfl
  | cons p rest ih =>
    simp only [List.map_cons, List.mem_cons, not_or] at h
    have hk : p.1 ≠ k := fun he => h.1 he.symm
    simp [delKey, hk, ih h.2]

theorem delKey_sublist {α : Type} (m : List (Nat × α)) (k : Nat) :
    (delKey m k).Sublist m := by
  induction m with
  | nil => simp [delKey]
  | cons p rest ih =>
    by_cases h : p.1 = k
    · rw [show delKey (p :: rest) k = rest by simp [delKey, h]]
      exact List.sublist_cons_self p rest
    · rw [show delKey (p :: rest) k = p :: delKey rest k by simp [delKey, h]]
      exact List.Sublist.cons₂ p ih

theorem alook_delKey_ne {α : Type} (m : List (Nat × α)) {k k2 : Nat}
    (h : k ≠ k2) : alook (delKey m k) k2 = alook m k2 := by
  induction m with
  | nil => simp [delKey]
  | cons p rest ih =>
    by_cases h1 : p.1 = k
    · subst h1
      simp [alook, delKey, h]
    · by_cases h2 : p.1 = k2
      · subst h2
        simp [alook, delKey, h1]
      · simp [alook, delKey, h1, h2, ih]

theorem alook_delKey_self {α : Type} {m : List (Nat × α)} {k : Nat}
    (hnd : (m.map Prod.fst).Nodup) : alook (delKey m k) k = none := by
  induction m with
  | nil => simp [delKey, alook]
  | cons p rest ih =>
    simp only [List.map_cons, List.nodup_cons] at hnd
    by_cases h : p.1 = k
    · rw [show delKey (p :: rest) k = rest by simp [delKey, h]]
      rw [alook_eq_none_iff]
      exact h ▸ hnd.1
    · simp [alook, delKey, h, ih hnd.2]

theorem keys_delKey_nodup {α : Type} {m : List (Nat × α)} {k : Nat}
    (hnd : (m.map Prod.fst).Nodup) : ((delKey m k).map Prod.fst).Nodup :=
  List.Nodup.sublist (List.Sublist.map Prod.fst (delKey_sublist m k)) hnd

theorem mem_delKey {α : Type} {m : List (Nat × α)} {k : Nat} {p : Nat × α}
    (h : p ∈ delKey m k) : p ∈ m :=
  List.Sublist.mem h (delKey_sublist m k)

/-! Lemmas about `removeFirst` (Python `list.remove`). -/

theorem removeFirst_eq_none_iff (l : List Edge) (x : Edge) :
    removeFirst l x = none ↔ x ∉ l := by
  induction l with
  | nil => simp [removeFirst]
  | cons y ys ih =>
    by_cases h : y = x
    · subst h; simp [removeFirst]
    · rw [show removeFirst (y :: ys) x = (removeFirst ys x).map (fun l => y :: l) by
        simp [removeFirst, h]]
      cases hr : removeFirst ys x with
      | none =>
        have hx : x ∉ ys := ih.mp hr
        simp only [hr, Option.map_none', List.mem_cons, true_iff, not_or]
        exact ⟨fun he => h he.symm, hx⟩
      | some l3 =>
        have hx : x ∈ ys := by
          by_contra hxx
          rw [← ih, hr] at hxx
          simp at hxx
        simp [List.mem_cons, hx]

theorem removeFirst_cons_self (xs : List Edge) (x : Edge) :
    removeFirst (x :: xs) x = some xs := by
  simp [removeFirst]

theorem removeFirst_isSome_of_mem {l : List Edge} {x : Edge} (h : x ∈ l) :
    (removeFirst l x).isSome = true := by
  cases hr : removeFirst l x with
  | some l2 => rfl
  | none => exact absurd h ((removeFirst_eq_none_iff l x).mp hr)

theorem removeFirst_length {l l2 : List Edge} {x : Edge}
    (h : removeFirst l x = some l2) : l2.length + 1 = l.length := by
  induction l generalizing l2 with
  | nil => simp [removeFirst] at h
  | cons y ys ih =>
    by_cases h1 : y = x
    · subst h1
      rw [removeFirst_cons_self] at h
      injection h with h2
      subst h2
      simp
    · simp only [removeFirst, h1, if_neg, not_false_iff] at h
      cases hr : removeFirst ys x with
      | none => rw [hr] at h; simp at h
      | some l3 =>
        rw [hr] at h
        injection h with h2
        subst h2
        simp [ih hr]

theorem removeFirst_count {l l2 : List Edge} {x : Edge}
    (h : removeFirst l x = some l2) (c : Edge) :
    l2.count c + (if c = x then 1 else 0) = l.count c := by
  induction l generalizing l2 with
  | nil => simp [removeFirst] at h
  | cons y ys ih =>
    by_cases h1 : y = x
    · subst h1
      rw [removeFirst_cons_self] at h
      injection h with h2
      subst h2
      by_cases h2 : c = y <;> simp [List.count_cons, h2]
    · rw [show removeFirst (y :: ys) x = (removeFirst ys x).map (fun l => y :: l) by
        simp [removeFirst, h1]] at h
      cases hr : removeFirst ys x with
      | none => rw [hr] at h; simp at h
      | some l3 =>
        rw [hr] at h
        injection h with h2
        subst h2
        have hc2 := ih hr
        have hcy : ((y :: l3).count c) = l3.count c + (if c = y then 1 else 0) := by
          by_cases h2 : c = y <;> simp [List.count_cons, h2]
        have hcy2 : ((y :: ys).count c) = ys.count c + (if c = y then 1 else 0) := by
          by_cases h2 : c = y <;> simp [List.count_cons, h2]
        rw [hcy, hcy2, ← hc2]
        generalize (if c = y then 1 else 0) = A
        generalize (if c = x then 1 else 0) = B
        omega

theorem removeFirst_sublist {l l2 : List Edge} {x : Edge}
    (h : removeFirst l x = some l2) : l2.Sublist l := by
  induction l generalizing l2 with
  | nil => simp [removeFirst] at h
  | cons y ys ih =>
    by_cases h1 : y = x
    · subst h1
      rw [removeFirst_cons_self] at h
      injection h with h2
      subst h2
      exact List.sublist_cons_self _ _
    · simp only [removeFirst, h1, if_neg, not_false_iff] at h
      cases hr : removeFirst ys x with
      | none => rw [hr] at h; simp at h
      | some l3 =>
        rw [hr] at h
        injection h with h2
        subst h2
        exact List.Sublist.cons₂ y (ih hr)

theorem removeFirst_map_inv (l : List Edge) (x : Edge) :
    removeFirst (l.map Edge.inv) x.inv = (removeFirst l x).map (List.map Edge.inv) := by
  induction l with
  | nil => simp [removeFirst]
  | cons y ys ih =>
    by_cases h : y = x
    · subst h; simp [removeFirst]
    · have h2 : y.inv ≠ x.inv := fun he => h (Edge.inv_injective he)
      simp only [List.map_cons, removeFirst, h, h2, if_neg, not_false_iff, ih]
      cases removeFirst ys x <;> simp

/-! Lemmas about `add_node`. -/

theorem add_node_directed (g : MultiGraph) (u : Nat) :
    (g.add_node u).directed = g.directed := by
  unfold MultiGraph.add_node
  split <;> rfl

theorem add_node_of_has {g : MultiGraph} {u : Nat}
    (h : (alook g.adj u).isSome = true) : g.add_node u = g := by
  unfold MultiGraph.add_node
  rw [if_pos h]

theorem add_node_of_not {g : MultiGraph} {u : Nat}
    (h : alook g.adj u = none) : (g.add_node u).adj = g.adj ++ [(u, [])] := by
  unfold MultiGraph.add_node
  rw [if_neg (by simp [h]), ]

theorem alook_add_node_self (g : MultiGraph) (u : Nat) :
    alook (g.add_node u).adj u = some ((alook g.adj u).getD []) := by
  cases h : alook g.adj u with
  | some a => rw [add_node_of_has (by simp [h])]; simp [h]
  | none =>
    rw [add_node_of_not h, alook_append, h]
    simp [alook]

theorem alook_add_node_ne (g : MultiGraph) {u w : Nat} (h : u ≠ w) :
    alook (g.add_node u).adj w = alook g.adj w := by
  cases h1 : alook g.adj u with
  | some a => rw [add_node_of_has (by simp [h1])]
  | none =>
    rw [add_node_of_not h1, alook_append]
    cases h2 : alook g.adj w <;> simp [alook, h, h2]

theorem bucketAt_add_node (g : MultiGraph) (u w x : Nat) :
    bucketAt (g.add_node u) w x = bucketAt g w x := by
  unfold bucketAt
  by_cases h : u = w
  · subst h
    rw [alook_add_node_self]
    cases h1 : alook g.adj u with
    | some a => simp [h1]
    | none => simp [h1, alook]
  · rw [alook_add_node_ne g h]

theorem keys_add_node_of_has {g : MultiGraph} {u : Nat}
    (h : (alook g.adj u).isSome = true) :
    (g.add_node u).adj.map Prod.fst = g.adj.map Prod.fst := by
  rw [add_node_of_has h]

theorem keys_add_node_of_not {g : MultiGraph} {u : Nat}
    (h : alook g.adj u = none) :
    (g.add_node u).adj.map Prod.fst = g.adj.map Prod.fst ++ [u] := by
  rw [add_node_of_not h]
  simp

theorem WFo_add_node {g : MultiGraph} (u : Nat) (hg : WFo g) : WFo (g.add_node u) := by
  cases h : alook g.adj u with
  | some a => rw [add_node_of_has (by simp [h])]; exact hg
  | none =>
    unfold WFo
    rw [keys_add_node_of_not h]
    rw [List.nodup_append]
    refine ⟨hg, List.nodup_singleton u, ?_⟩
    intro w hw hmem
    rw [List.mem_singleton] at hmem
    subst hmem
    exact ((alook_eq_none_iff g.adj w).mp h) hw

theorem WFi_add_node {g : MultiGraph} (u : Nat) (hg : WFi g) : WFi (g.add_node u) := by
  cases h : alook g.adj u with
  | some a => rw [add_node_of_has (by simp [h])]; exact hg
  | none =>
    intro p hp
    rw [add_node_of_not h, List.mem_append] at hp
    rcases hp with hp | hp
    · exact hg p hp
    · rw [List.mem_singleton] at hp
      subst hp
      simp

/-! Lemmas about the bucket helpers `addB` and `appendB`. -/

theorem addB_alook_self (a : Adj) (t : Nat) :
    alook (addB a t) t = some ((alook a t).getD []) := by
  unfold addB
  cases h : alook a t with
  | some l => simp [h]
  | none => simp [h, alook_append, alook]

theorem addB_alook_ne (a : Adj) {t x : Nat} (h : t ≠ x) :
    alook (addB a t) x = alook a x := by
  unfold addB
  cases h1 : alook a t with
  | some l => simp
  | none =>
    simp only [h1, Option.isSome_none, Bool.false_eq_true, if_neg, not_false_iff]
    rw [alook_append]
    cases h2 : alook a x <;> simp [alook, h, h2]

theorem addB_keys_nodup {a : Adj} {t : Nat} (h : (a.map Prod.fst).Nodup) :
    ((addB a t).map Prod.fst).Nodup := by
  unfold addB
  cases h1 : alook a t with
  | some l => simpa
  | none =>
    simp only [h1, Option.isSome_none, Bool.false_eq_true, if_neg, not_false_iff]
    rw [List.map_append, List.nodup_append]
    refine ⟨h, by simp, ?_⟩
    intro w hw hmem
    simp only [List.map_cons, List.map_nil, List.mem_singleton] at hmem
    subst hmem
    exact ((alook_eq_none_iff a w).mp h1) hw

theorem appendB_alook_self (a : Adj) (t : Nat) (ed : Edge) :
    alook (appendB a t ed) t = (alook a t).map (fun l => l ++ [ed]) :=
  alook_updKey_self a t _

theorem appendB_alook_ne (a : Adj) {t x : Nat} (ed : Edge) (h : t ≠ x) :
    alook (appendB a t ed) x = alook a x :=
  alook_updKey_ne a _ h

theorem appendB_keys (a : Adj) (t : Nat) (ed : Edge) :
    (appendB a t ed).map Prod.fst = a.map Prod.fst :=
  keys_updKey a t _

/-! Characterization of `add_edge`.  Writing `g1` for the graph after the two
`add_node` calls, the adjacency dict of the source (and, undirected, of the
target) is rewritten by `addB` then `appendB`; everything else is `g1`. -/

theorem addB_addB (a : Adj) (t : Nat) : addB (addB a t) t = addB a t := by
  have h : (alook (addB a t) t).isSome = true := by rw [addB_alook_self]; rfl
  show (if (alook (addB a t) t).isSome = true then addB a t else addB a t ++ [(t, [])])
    = addB a t
  rw [if_pos h]

theorem alook_addnodes_fst (g : MultiGraph) (u w : Nat) :
    alook ((g.add_node u).add_node w).adj u = some ((alook g.adj u).getD []) := by
  by_cases h : w = u
  · subst h
    rw [show (g.add_node w).add_node w = g.add_node w from
      add_node_of_has (by simp [alook_add_node_self])]
    exact alook_add_node_self g w
  · rw [alook_add_node_ne _ h]
    exact alook_add_node_self g u

theorem alook_addnodes_snd (g : MultiGraph) (u w : Nat) :
    alook ((g.add_node u).add_node w).adj w = some ((alook g.adj w).getD []) := by
  by_cases h : w = u
  · subst h
    exact alook_addnodes_fst g w w
  · rw [alook_add_node_self, alook_add_node_ne _ (fun he => h he.symm)]

theorem alook_addnodes_ne (g : MultiGraph) {u w x : Nat} (h1 : u ≠ x) (h2 : w ≠ x) :
    alook ((g.add_node u).add_node w).adj x = alook g.adj x := by
  rw [alook_add_node_ne _ h2, alook_add_node_ne _ h1]

theorem add_edge_directed (g : MultiGraph) (ed : Edge) :
    (g.add_edge ed).directed = g.directed := by
  simp only [MultiGraph.add_edge]
  rw [add_node_directed, add_node_directed]

theorem add_edge_keys (g : MultiGraph) (ed : Edge) :
    (g.add_edge ed).adj.map Prod.fst =
      ((g.add_node ed.source).add_node ed.target).adj.map Prod.fst := by
  simp only [MultiGraph.add_edge]
  split <;> split <;> simp [keys_updKey]

theorem add_edge_alook_src_directed {g : MultiGraph} (ed : Edge) (hd : g.directed = true)
    :
    alook (g.add_edge ed).adj ed.source =
      some (appendB (addB ((alook g.adj ed.source).getD []) ed.target) ed.target ed) := by
  simp only [MultiGraph.add_edge]
  rw [if_neg (by rw [hd]; simp), if_pos hd]
  rw [alook_updKey_self, alook_updKey_self, alook_addnodes_fst]
  rfl

theorem add_edge_alook_ne_directed {g : MultiGraph} (ed : Edge) (hd : g.directed = true)
    {w : Nat} (hw : w ≠ ed.source) :
    alook (g.add_edge ed).adj w = alook ((g.add_node ed.source).add_node ed.target).adj w := by
  simp only [MultiGraph.add_edge]
  rw [if_neg (by rw [hd]; simp), if_pos hd]
  rw [alook_updKey_ne _ _ (fun he => hw he.symm), alook_updKey_ne _ _ (fun he => hw he.symm)]

theorem add_edge_alook_src_undir {g : MultiGraph} (ed : Edge) (hd : g.directed = false)
    (hne : ed.source ≠ ed.target) :
    alook (g.add_edge ed).adj ed.source =
      some (appendB (addB ((alook g.adj ed.source).getD []) ed.target) ed.target ed) := by
  simp only [MultiGraph.add_edge]
  rw [if_pos (show g.directed = false ∧ ed.source ≠ ed.target from ⟨hd, hne⟩),
    if_neg (show ¬(g.directed = true) by rw [hd]; simp)]
  rw [alook_updKey_ne _ _ (fun he => hne he.symm),
    alook_updKey_self, alook_updKey_ne _ _ (fun he => hne he.symm),
    alook_updKey_self, alook_addnodes_fst]
  rfl

theorem add_edge_alook_tgt_undir {g : MultiGraph} (ed : Edge) (hd : g.directed = false)
    (hne : ed.source ≠ ed.target) :
    alook (g.add_edge ed).adj ed.target =
      some (appendB (addB ((alook g.adj ed.target).getD []) ed.source) ed.source ed.inv) := by
  simp only [MultiGraph.add_edge]
  rw [if_pos (show g.directed = false ∧ ed.source ≠ ed.target from ⟨hd, hne⟩),
    if_neg (show ¬(g.directed = true) by rw [hd]; simp)]
  rw [alook_updKey_self, alook_updKey_ne _ _ hne,
    alook_updKey_self, alook_updKey_ne _ _ hne, alook_addnodes_snd]
  rfl

theorem add_edge_alook_loop {g : MultiGraph} (ed : Edge) (hd : g.directed = false)
    (hl : ed.source = ed.target) :
    alook (g.add_edge ed).adj ed.source =
      some (appendB (addB ((alook g.adj ed.source).getD []) ed.source) ed.source ed) := by
  simp only [MultiGraph.add_edge]
  rw [if_neg (show ¬(g.directed = false ∧ ed.source ≠ ed.target) from fun hc => hc.2 hl),
    if_neg (show ¬(g.directed = true) by rw [hd]; simp)]
  rw [← hl]
  rw [alook_updKey_self, alook_updKey_self, alook_updKey_self, alook_addnodes_fst,
    Option.map_some', Option.map_some', Option.map_some', addB_addB]

theorem add_edge_alook_ne_undir {g : MultiGraph} (ed : Edge) (hd : g.directed = false)
    {w : Nat} (hw1 : w ≠ ed.source) (hw2 : w ≠ ed.target) :
    alook (g.add_edge ed).adj w = alook ((g.add_node ed.source).add_node ed.target).adj w := by
  have hc3 : ¬(g.directed = true) := by rw [hd]; simp
  simp only [MultiGraph.add_edge]
  split
  · rw [alook_updKey_ne _ _ (fun he => hw2 he.symm),
      alook_updKey_ne _ _ (fun he => hw1 he.symm),
      alook_updKey_ne _ _ (fun he => hw2 he.symm),
      alook_updKey_ne _ _ (fun he => hw1 he.symm)]
  · rw [alook_updKey_ne _ _ (fun he => hw1 he.symm),
      alook_updKey_ne _ _ (fun he => hw2 he.symm),
      alook_updKey_ne _ _ (fun he => hw1 he.symm)]

theorem alook_getD_bucketAt (g : MultiGraph) (u x : Nat) :
    alook ((alook g.adj u).getD []) x = bucketAt g u x := by
  unfold bucketAt
  cases alook g.adj u <;> simp [alook]

theorem bucketAt_addnodes (g : MultiGraph) (u w a b : Nat) :
    bucketAt ((g.add_node u).add_node w) a b = bucketAt g a b := by
  rw [bucketAt_add_node, bucketAt_add_node]

theorem bucketAt_eq_of_alook {g g2 : MultiGraph} {w : Nat}
    (h : alook g2.adj w = alook g.adj w) (x : Nat) :
    bucketAt g2 w x = bucketAt g w x := by
  unfold bucketAt
  rw [h]

theorem bucketAt_of_alook {g2 : MultiGraph} {w : Nat} {A : Adj}
    (h : alook g2.adj w = some A) (x : Nat) : bucketAt g2 w x = alook A x := by
  unfold bucketAt
  rw [h]

theorem bucketAt_add_edge_directed {g : MultiGraph} (ed : Edge) (hd : g.directed = true)
    (w x : Nat) :
    bucketAt (g.add_edge ed) w x =
      if w = ed.source ∧ x = ed.target
      then some ((bucketAt g ed.source ed.target).getD [] ++ [ed])
      else bucketAt g w x := by
  by_cases hw : w = ed.source
  · subst hw
    rw [bucketAt_of_alook (add_edge_alook_src_directed ed hd)]
    by_cases hx : x = ed.target
    · subst hx
      rw [if_pos ⟨rfl, rfl⟩, appendB_alook_self, addB_alook_self, alook_getD_bucketAt]
      rfl
    · rw [if_neg (fun hc => hx hc.2), appendB_alook_ne _ _ (fun he => hx he.symm),
        addB_alook_ne _ (fun he => hx he.symm), alook_getD_bucketAt]
  · rw [if_neg (fun hc => hw hc.1),
      bucketAt_eq_of_alook (add_edge_alook_ne_directed ed hd hw) x,
      bucketAt_addnodes]

theorem bucketAt_add_edge_undir {g : MultiGraph} (ed : Edge) (hd : g.directed = false)
    (hne : ed.source ≠ ed.target) (w x : Nat) :
    bucketAt (g.add_edge ed) w x =
      if w = ed.source ∧ x = ed.target
      then some ((bucketAt g ed.source ed.target).getD [] ++ [ed])
      else if w = ed.target ∧ x = ed.source
      then some ((bucketAt g ed.target ed.source).getD [] ++ [ed.inv])
      else bucketAt g w x := by
  by_cases hw : w = ed.source
  · subst hw
    rw [bucketAt_of_alook (add_edge_alook_src_undir ed hd hne)]
    by_cases hx : x = ed.target
    · subst hx
      rw [if_pos ⟨rfl, rfl⟩, appendB_alook_self, addB_alook_self, alook_getD_bucketAt]
      rfl
    · rw [if_neg (fun hc => hx hc.2), if_neg (fun hc => hne hc.1),
        appendB_alook_ne _ _ (fun he => hx he.symm),
        addB_alook_ne _ (fun he => hx he.symm), alook_getD_bucketAt]
  · by_cases hw2 : w = ed.target
    · subst hw2
      rw [bucketAt_of_alook (add_edge_alook_tgt_undir ed hd hne)]
      by_cases hx : x = ed.source
      · subst hx
        rw [if_neg (fun hc => hw hc.1), if_pos ⟨rfl, rfl⟩,
          appendB_alook_self, addB_alook_self, alook_getD_bucketAt]
        rfl
      · rw [if_neg (fun hc => hw hc.1), if_neg (fun hc => hx hc.2),
          appendB_alook_ne _ _ (fun he => hx he.symm),
          addB_alook_ne _ (fun he => hx he.symm), alook_getD_bucketAt]
    · rw [if_neg (fun hc => hw hc.1), if_neg (fun hc => hw2 hc.1),
        bucketAt_eq_of_alook (add_edge_alook_ne_undir ed hd hw hw2) x,
        bucketAt_addnodes]

theorem bucketAt_add_edge_loop {g : MultiGraph} (ed : Edge) (hd : g.directed = false)
    (hl : ed.source = ed.target) (w x : Nat) :
    bucketAt (g.add_edge ed) w x =
      if w = ed.source ∧ x = ed.source
      then some ((bucketAt g ed.source ed.source).getD [] ++ [ed])
      else bucketAt g w x := by
  by_cases hw : w = ed.source
  · subst hw
    rw [bucketAt_of_alook (add_edge_alook_loop ed hd hl)]
    by_cases hx : x = ed.source
    · subst hx
      rw [if_pos ⟨rfl, rfl⟩, appendB_alook_self, addB_alook_self, alook_getD_bucketAt]
      rfl
    · rw [if_neg (fun hc => hx hc.2), appendB_alook_ne _ _ (fun he => hx he.symm),
        addB_alook_ne _ (fun he => hx he.symm), alook_getD_bucketAt]
  · rw [if_neg (fun hc => hw hc.1),
      bucketAt_eq_of_alook (add_edge_alook_ne_undir ed hd hw (hl ▸ hw)) x,
      bucketAt_addnodes]

theorem has_node_add_node (g : MultiGraph) (u w : Nat) :
    (g.add_node u).has_node w = (g.has_node w || (u == w)) := by
  unfold MultiGraph.has_node
  by_cases h : u = w
  · subst h
    rw [alook_add_node_self]
    simp
  · rw [alook_add_node_ne _ h]
    simp [h]

theorem has_node_add_edge (g : MultiGraph) (ed : Edge) (w : Nat) :
    (g.add_edge ed).has_node w =
      (g.has_node w || (ed.source == w) || (ed.target == w)) := by
  have hk := add_edge_keys g ed
  have h0 : (g.add_edge ed).has_node w
      = ((g.add_node ed.source).add_node ed.target).has_node w := by
    unfold MultiGraph.has_node
    rw [Bool.eq_iff_iff, alook_isSome_iff, alook_isSome_iff, hk]
  rw [h0, has_node_add_node, has_node_add_node]

/-! Bucket-level consequences of the invariants. -/

theorem bucketAt_mem {g : MultiGraph} {u x : Nat} {l : List Edge}
    (hb : bucketAt g u x = some l) :
    ∃ a, (u, a) ∈ g.adj ∧ (x, l) ∈ a := by
  unfold bucketAt at hb
  cases ha : alook g.adj u with
  | none => rw [ha] at hb; cases hb
  | some a =>
    rw [ha] at hb
    exact ⟨a, alook_mem ha, alook_mem hb⟩

theorem I1_bucket {g : MultiGraph} (h1 : I1 g) {u x : Nat} {l : List Edge}
    (hb : bucketAt g u x = some l) : (alook g.adj x).isSome = true := by
  obtain ⟨a, hpa, hqa⟩ := bucketAt_mem hb
  exact h1 (u, a) hpa (x, l) hqa

theorem I2_bucket {g : MultiGraph} (h2 : I2 g) {u x : Nat} {l : List Edge}
    (hb : bucketAt g u x = some l) : l ≠ [] := by
  obtain ⟨a, hpa, hqa⟩ := bucketAt_mem hb
  exact h2 (u, a) hpa (x, l) hqa

theorem I6_bucket {g : MultiGraph} (h6 : I6 g) {u x : Nat} {l : List Edge}
    (hb : bucketAt g u x = some l) : ∀ ed ∈ l, ed.source = u ∧ ed.target = x := by
  obtain ⟨a, hpa, hqa⟩ := bucketAt_mem hb
  exact h6 (u, a) hpa (x, l) hqa

theorem I3_bucket {g : MultiGraph} (h3 : I3 g) (hd : g.directed = false)
    {u x : Nat} {l : List Edge} (hb : bucketAt g u x = some l) (hne : u ≠ x) :
    bucketAt g x u = some (l.map Edge.inv) := by
  obtain ⟨a, hpa, hqa⟩ := bucketAt_mem hb
  exact h3 hd (u, a) hpa (x, l) hqa hne

theorem I3_bucket_none {g : MultiGraph} (h3 : I3 g) (hd : g.directed = false)
    {u x : Nat} (hb : bucketAt g u x = none) (hne : u ≠ x) :
    bucketAt g x u = none := by
  cases hm : bucketAt g x u with
  | none => rfl
  | some m =>
    have := I3_bucket h3 hd hm (Ne.symm hne)
    rw [hb] at this
    cases this

/-! Entry-level invariants follow from bucket-level facts when keys are
unique, and conversely. -/

theorem entry_bucketAt {g : MultiGraph} (hwfo : WFo g) (hwfi : WFi g)
    {p : Nat × Adj} (hp : p ∈ g.adj) {q : Nat × List Edge} (hq : q ∈ p.2) :
    bucketAt g p.1 q.1 = some q.2 := by
  unfold bucketAt
  rw [mem_alook hwfo hp]
  exact mem_alook (hwfi p hp) hq

theorem I1_of_bucket {g : MultiGraph} (hwfo : WFo g) (hwfi : WFi g)
    (h : ∀ u x l, bucketAt g u x = some l → (alook g.adj x).isSome = true) : I1 g :=
  fun p hp q hq => h p.1 q.1 q.2 (entry_bucketAt hwfo hwfi hp hq)

theorem I2_of_bucket {g : MultiGraph} (hwfo : WFo g) (hwfi : WFi g)
    (h : ∀ u x l, bucketAt g u x = some l → l ≠ []) : I2 g :=
  fun p hp q hq => h p.1 q.1 q.2 (entry_bucketAt hwfo hwfi hp hq)

theorem I6_of_bucket {g : MultiGraph} (hwfo : WFo g) (hwfi : WFi g)
    (h : ∀ u x l, bucketAt g u x = some l → ∀ ed ∈ l, ed.source = u ∧ ed.target = x) :
    I6 g :=
  fun p hp q hq => h p.1 q.1 q.2 (entry_bucketAt hwfo hwfi hp hq)

theorem I3_of_bucket {g : MultiGraph} (hwfo : WFo g) (hwfi : WFi g)
    (h : ∀ u x l, g.directed = false → bucketAt g u x = some l → u ≠ x →
      bucketAt g x u = some (l.map Edge.inv)) : I3 g :=
  fun hd p hp q hq hne => h p.1 q.1 q.2 hd (entry_bucketAt hwfo hwfi hp hq) hne

theorem getD_keys_nodup {g : MultiGraph} (hwfi : WFi g) (u : Nat) :
    ((((alook g.adj u).getD []) : Adj).map Prod.fst).Nodup := by
  cases h : alook g.adj u with
  | none => simp
  | some a => exact hwfi (u, a) (alook_mem h)

theorem WFo_add_edge {g : MultiGraph} (ed : Edge) (hwfo : WFo g) :
    WFo (g.add_edge ed) := by
  unfold WFo
  rw [add_edge_keys]
  exact WFo_add_node _ (WFo_add_node _ hwfo)

theorem WFi_add_edge {g : MultiGraph} (ed : Edge) (hwfo : WFo g) (hwfi : WFi g) :
    WFi (g.add_edge ed) := by
  have hnewadj : ∀ z : Nat, (((appendB (addB ((alook g.adj z).getD []) ed.target)
      ed.target ed) : Adj).map Prod.fst).Nodup := by
    intro z
    rw [appendB_keys]
    exact addB_keys_nodup (getD_keys_nodup hwfi z)
  have hnewadj2 : ∀ z : Nat, (((appendB (addB ((alook g.adj z).getD []) ed.source)
      ed.source ed.inv) : Adj).map Prod.fst).Nodup := by
    intro z
    rw [appendB_keys]
    exact addB_keys_nodup (getD_keys_nodup hwfi z)
  have hnewadj3 : ∀ z : Nat, (((appendB (addB ((alook g.adj z).getD []) ed.source)
      ed.source ed) : Adj).map Prod.fst).Nodup := by
    intro z
    rw [appendB_keys]
    exact addB_keys_nodup (getD_keys_nodup hwfi z)
  intro p hp
  have halook := mem_alook (WFo_add_edge ed hwfo) hp
  by_cases hdir : g.directed = true
  · by_cases hs : p.1 = ed.source
    · rw [hs, add_edge_alook_src_directed ed hdir] at halook
      injection halook with hval
      rw [← hval]
      exact hnewadj ed.source
    · rw [add_edge_alook_ne_directed ed hdir hs] at halook
      by_cases ht : p.1 = ed.target
      · rw [ht, alook_addnodes_snd] at halook
        injection halook with hval
        rw [← hval]
        exact getD_keys_nodup hwfi ed.target
      · rw [alook_addnodes_ne g (fun he => hs he.symm) (fun he => ht he.symm)] at halook
        exact hwfi _ (alook_mem halook)
  · have hd : g.directed = false := by
      cases h : g.directed
      · rfl
      · exact absurd h hdir
    by_cases hl : ed.source = ed.target
    · by_cases hs : p.1 = ed.source
      · rw [hs, add_edge_alook_loop ed hd hl] at halook
        injection halook with hval
        rw [← hval]
        exact hnewadj3 ed.source
      · rw [add_edge_alook_ne_undir ed hd hs (hl ▸ hs)] at halook
        rw [alook_addnodes_ne g (fun he => hs he.symm) (fun he => (hl ▸ hs) he.symm)] at halook
        exact hwfi _ (alook_mem halook)
    · by_cases hs : p.1 = ed.source
      · rw [hs, add_edge_alook_src_undir ed hd hl] at halook
        injection halook with hval
        rw [← hval]
        exact hnewadj ed.source
      · by_cases ht : p.1 = ed.target
        · rw [ht, add_edge_alook_tgt_undir ed hd hl] at halook
          injection halook with hval
          rw [← hval]
          exact hnewadj2 ed.target
        · rw [add_edge_alook_ne_undir ed hd hs ht] at halook
          rw [alook_addnodes_ne g (fun he => hs he.symm) (fun he => ht he.symm)] at halook
          exact hwfi _ (alook_mem halook)

theorem map_inv_inv (l : List Edge) : (l.map Edge.inv).map Edge.inv = l := by
  induction l with
  | nil => rfl
  | cons x xs ih => simp [Edge.inv_inv, ih]

theorem Edge.inv_comp_inv : Edge.inv ∘ Edge.inv = id := funext Edge.inv_inv

theorem add_edge_node_mono {g : MultiGraph} (ed : Edge) {w : Nat}
    (h : (alook g.adj w).isSome = true) :
    (alook (g.add_edge ed).adj w).isSome = true := by
  show (g.add_edge ed).has_node w = true
  rw [has_node_add_edge]
  show ((alook g.adj w).isSome || (ed.source == w) || (ed.target == w)) = true
  rw [h]
  rfl

theorem add_edge_node_src (g : MultiGraph) (ed : Edge) :
    (alook (g.add_edge ed).adj ed.source).isSome = true := by
  show (g.add_edge ed).has_node ed.source = true
  rw [has_node_add_edge]
  simp

theorem add_edge_node_tgt (g : MultiGraph) (ed : Edge) :
    (alook (g.add_edge ed).adj ed.target).isSome = true := by
  show (g.add_edge ed).has_node ed.target = true
  rw [has_node_add_edge]
  simp

theorem I6_getD {g : MultiGraph} (h6 : I6 g) (u x : Nat) :
    ∀ e ∈ ((bucketAt g u x).getD []), e.source = u ∧ e.target = x := by
  cases hb : bucketAt g u x with
  | none => simp
  | some l0 => simpa using I6_bucket h6 hb

theorem I3_getD {g : MultiGraph} (h3 : I3 g) (hd : g.directed = false) {u x : Nat}
    (hne : u ≠ x) :
    ((bucketAt g x u).getD []) = ((bucketAt g u x).getD []).map Edge.inv := by
  cases hb : bucketAt g u x with
  | none => rw [I3_bucket_none h3 hd hb hne]; rfl
  | some l0 => rw [I3_bucket h3 hd hb hne]; rfl

theorem GInv_add_node {g : MultiGraph} (u : Nat) (hg : GInv g) : GInv (g.add_node u) := by
  obtain ⟨hwfo, hwfi, h1, h2, h6, h3⟩ := hg
  have hwfo2 := WFo_add_node u hwfo
  have hwfi2 := WFi_add_node u hwfi
  refine ⟨hwfo2, hwfi2, ?_, ?_, ?_, ?_⟩
  · apply I1_of_bucket hwfo2 hwfi2
    intro w x l hb
    rw [bucketAt_add_node] at hb
    have hx := I1_bucket h1 hb
    by_cases hux : u = x
    · subst hux
      rw [alook_add_node_self]
      rfl
    · rw [alook_add_node_ne _ hux]
      exact hx
  · apply I2_of_bucket hwfo2 hwfi2
    intro w x l hb
    rw [bucketAt_add_node] at hb
    exact I2_bucket h2 hb
  · apply I6_of_bucket hwfo2 hwfi2
    intro w x l hb
    rw [bucketAt_add_node] at hb
    exact I6_bucket h6 hb
  · apply I3_of_bucket hwfo2 hwfi2
    intro w x l hd hb hne
    rw [bucketAt_add_node] at hb
    rw [bucketAt_add_node]
    rw [add_node_directed] at hd
    exact I3_bucket h3 hd hb hne

theorem GInv_add_edge {g : MultiGraph} (ed : Edge) (hg : GInv g) : GInv (g.add_edge ed) := by
  obtain ⟨hwfo, hwfi, h1, h2, h6, h3⟩ := hg
  have hwfo2 := WFo_add_edge ed hwfo
  have hwfi2 := WFi_add_edge ed hwfo hwfi
  refine ⟨hwfo2, hwfi2, ?_, ?_, ?_, ?_⟩
  · -- I1
    apply I1_of_bucket hwfo2 hwfi2
    intro w x l hb
    by_cases hdir : g.directed = true
    · rw [bucketAt_add_edge_directed ed hdir] at hb
      split at hb
      · next hc => rw [hc.2]; exact add_edge_node_tgt g ed
      · exact add_edge_node_mono ed (I1_bucket h1 hb)
    · have hd : g.directed = false := by
        cases h : g.directed
        · rfl
        · exact absurd h hdir
      by_cases hl : ed.source = ed.target
      · rw [bucketAt_add_edge_loop ed hd hl] at hb
        split at hb
        · next hc => rw [hc.2]; exact add_edge_node_src g ed
        · exact add_edge_node_mono ed (I1_bucket h1 hb)
      · rw [bucketAt_add_edge_undir ed hd hl] at hb
        split at hb
        · next hc => rw [hc.2]; exact add_edge_node_tgt g ed
        · split at hb
          · next hc => rw [hc.2]; exact add_edge_node_src g ed
          · exact add_edge_node_mono ed (I1_bucket h1 hb)
  · -- I2
    apply I2_of_bucket hwfo2 hwfi2
    intro w x l hb
    by_cases hdir : g.directed = true
    · rw [bucketAt_add_edge_directed ed hdir] at hb
      split at hb
      · injection hb with hb2; rw [← hb2]; simp
      · exact I2_bucket h2 hb
    · have hd : g.directed = false := by
        cases h : g.directed
        · rfl
        · exact absurd h hdir
      by_cases hl : ed.source = ed.target
      · rw [bucketAt_add_edge_loop ed hd hl] at hb
        split at hb
        · injection hb with hb2; rw [← hb2]; simp
        · exact I2_bucket h2 hb
      · rw [bucketAt_add_edge_undir ed hd hl] at hb
        split at hb
        · injection hb with hb2; rw [← hb2]; simp
        · split at hb
          · injection hb with hb2; rw [← hb2]; simp
          · exact I2_bucket h2 hb
  · -- I6
    apply I6_of_bucket hwfo2 hwfi2
    intro w x l hb
    by_cases hdir : g.directed = true
    · rw [bucketAt_add_edge_directed ed hdir] at hb
      split at hb
      · next hc =>
          injection hb with hb2
          rw [← hb2]
          intro e he
          rcases List.mem_append.mp he with he2 | he2
          · have := I6_getD h6 ed.source ed.target e he2
            rw [hc.1, hc.2]
            exact this
          · rw [List.mem_singleton] at he2
            subst he2
            rw [hc.1, hc.2]
            exact ⟨rfl, rfl⟩
      · exact I6_bucket h6 hb
    · have hd : g.directed = false := by
        cases h : g.directed
        · rfl
        · exact absurd h hdir
      by_cases hl : ed.source = ed.target
      · rw [bucketAt_add_edge_loop ed hd hl] at hb
        split at hb
        · next hc =>
            injection hb with hb2
            rw [← hb2]
            intro e he
            rcases List.mem_append.mp he with he2 | he2
            · have := I6_getD h6 ed.source ed.source e he2
              rw [hc.1, hc.2]
              exact this
            · rw [List.mem_singleton] at he2
              subst he2
              rw [hc.1, hc.2]
              exact ⟨rfl, hl.symm⟩
        · exact I6_bucket h6 hb
      · rw [bucketAt_add_edge_undir ed hd hl] at hb
        split at hb
        · next hc =>
            injection hb with hb2
            rw [← hb2]
            intro e he
            rcases List.mem_append.mp he with he2 | he2
            · have := I6_getD h6 ed.source ed.target e he2
              rw [hc.1, hc.2]
              exact this
            · rw [List.mem_singleton] at he2
              subst he2
              rw [hc.1, hc.2]
              exact ⟨rfl, rfl⟩
        · split at hb
          · next hc =>
              injection hb with hb2
              rw [← hb2]
              intro e he
              rcases List.mem_append.mp he with he2 | he2
              · have := I6_getD h6 ed.target ed.source e he2
                rw [hc.1, hc.2]
                exact this
              · rw [List.mem_singleton] at he2
                subst he2
                rw [hc.1, hc.2]
                exact ⟨rfl, rfl⟩
          · exact I6_bucket h6 hb
  · -- I3
    apply I3_of_bucket hwfo2 hwfi2
    intro w x l hd0 hb hne
    rw [add_edge_directed] at hd0
    have hdir : ¬(g.directed = true) := by rw [hd0]; simp
    by_cases hl : ed.source = ed.target
    · rw [bucketAt_add_edge_loop ed hd0 hl] at hb
      rw [bucketAt_add_edge_loop ed hd0 hl]
      rw [if_neg (fun hc => hne (hc.1.trans hc.2.symm))] at hb
      rw [if_neg (fun hc => hne (hc.2.trans hc.1.symm))]
      exact I3_bucket h3 hd0 hb hne
    · rw [bucketAt_add_edge_undir ed hd0 hl] at hb
      rw [bucketAt_add_edge_undir ed hd0 hl]
      by_cases hc1 : w = ed.source ∧ x = ed.target
      · rw [if_pos hc1] at hb
        injection hb with hb2
        rw [if_neg (fun hc => hl (hc.1.symm.trans hc1.2)), if_pos ⟨hc1.2, hc1.1⟩]
        rw [← hb2]
        rw [I3_getD h3 hd0 hl]
        simp [List.map_append]
      · rw [if_neg hc1] at hb
        by_cases hc2 : w = ed.target ∧ x = ed.source
        · rw [if_pos hc2] at hb
          injection hb with hb2
          rw [if_pos ⟨hc2.2, hc2.1⟩]
          rw [← hb2]
          rw [I3_getD h3 hd0 hl]
          simp [List.map_append, map_inv_inv, Edge.inv_inv, Edge.inv_comp_inv]
        · rw [if_neg hc2] at hb
          rw [if_neg (fun hc => hc2 ⟨hc.2, hc.1⟩), if_neg (fun hc => hc1 ⟨hc.2, hc.1⟩)]
          exact I3_bucket h3 hd0 hb hne

/-! Characterization of `del_edge`. -/

theorem delHalf_err {m : List (Nat × Adj)} {s t : Nat} {ed : Edge} {er : GErr}
    {m2 : List (Nat × Adj)} (h : delHalf m s t ed = (some er, m2)) : m2 = m := by
  unfold delHalf at h
  cases ha : alook m s with
  | none =>
    simp only [ha] at h
    injection h with h1 h2
    exact h2.symm
  | some a =>
    simp only [ha] at h
    cases hl : alook a t with
    | none =>
      simp only [hl] at h
      injection h with h1 h2
      exact h2.symm
    | some l =>
      simp only [hl] at h
      cases hr : removeFirst l ed with
      | none =>
        simp only [hr] at h
        injection h with h1 h2
        exact h2.symm
      | some l2 =>
        simp only [hr] at h
        split at h <;> injection h with h1 h2 <;> cases h1

theorem delHalf_ok {m : List (Nat × Adj)} {s t : Nat} {ed : Edge} {a : Adj}
    {l l2 : List Edge} (ha : alook m s = some a) (hl : alook a t = some l)
    (hr : removeFirst l ed = some l2) :
    delHalf m s t ed = (none,
      (if l2 = [] then updKey m s (fun a2 => delKey a2 t)
       else updKey m s (fun a2 => updKey a2 t (fun _ => l2)))) := by
  unfold delHalf
  simp only [ha, hl, hr]
  split <;> rfl

theorem delHalf_ok_inv {m : List (Nat × Adj)} {s t : Nat} {ed : Edge}
    {m1 : List (Nat × Adj)} (h : delHalf m s t ed = (none, m1)) :
    ∃ a l l2, alook m s = some a ∧ alook a t = some l ∧ removeFirst l ed = some l2 := by
  unfold delHalf at h
  cases ha : alook m s with
  | none =>
    simp only [ha] at h
    injection h with h1 h2
    cases h1
  | some a =>
    simp only [ha] at h
    cases hl : alook a t with
    | none =>
      simp only [hl] at h
      injection h with h1 h2
      cases h1
    | some l =>
      simp only [hl] at h
      cases hr : removeFirst l ed with
      | none =>
        simp only [hr] at h
        injection h with h1 h2
        cases h1
      | some l2 => exact ⟨a, l, l2, rfl, hl, hr⟩

theorem del_edge_effect_simple {g : MultiGraph} {ed : Edge} {a : Adj} {l l2 : List Edge}
    (hcase : g.directed = true ∨ ed.source = ed.target)
    (ha : alook g.adj ed.source = some a) (hl : alook a ed.target = some l)
    (hr : removeFirst l ed = some l2) :
    (g.del_edge ed).1 = none ∧
    (g.del_edge ed).2.directed = g.directed ∧
    (g.del_edge ed).2.adj.map Prod.fst = g.adj.map Prod.fst ∧
    (∀ w, w ≠ ed.source → alook (g.del_edge ed).2.adj w = alook g.adj w) ∧
    alook (g.del_edge ed).2.adj ed.source =
      some (if l2 = [] then delKey a ed.target else updKey a ed.target (fun _ => l2)) := by
  have hcond : ¬(g.directed = false ∧ ed.source ≠ ed.target) := by
    rcases hcase with hc | hc
    · intro hcon; rw [hc] at hcon; cases hcon.1
    · intro hcon; exact hcon.2 hc
  have hok := delHalf_ok ha hl hr
  have heq : g.del_edge ed = (none, { g with adj :=
      (if l2 = [] then updKey g.adj ed.source (fun a2 => delKey a2 ed.target)
       else updKey g.adj ed.source (fun a2 => updKey a2 ed.target (fun _ => l2))) }) := by
    unfold MultiGraph.del_edge
    split
    · next er m1 h =>
        rw [hok] at h
        injection h with h1 h2
        cases h1
    · next m1 h =>
        rw [hok] at h
        injection h with h1 h2
        subst h2
        rw [if_neg hcond]
  rw [heq]
  refine ⟨rfl, rfl, ?_, ?_, ?_⟩
  · by_cases h0 : l2 = []
    · rw [if_pos h0, keys_updKey]
    · rw [if_neg h0, keys_updKey]
  · intro w hw
    by_cases h0 : l2 = []
    · rw [if_pos h0, alook_updKey_ne _ _ (fun he => hw he.symm)]
    · rw [if_neg h0, alook_updKey_ne _ _ (fun he => hw he.symm)]
  · by_cases h0 : l2 = []
    · rw [if_pos h0, if_pos h0, alook_updKey_self, ha]
      rfl
    · rw [if_neg h0, if_neg h0, alook_updKey_self, ha]
      rfl

theorem del_edge_effect_undir {g : MultiGraph} {ed : Edge} {a at2 : Adj}
    {l l2 lm lm2 : List Edge}
    (hd : g.directed = false) (hne : ed.source ≠ ed.target)
    (ha : alook g.adj ed.source = some a) (hl : alook a ed.target = some l)
    (hr : removeFirst l ed = some l2)
    (hat : alook g.adj ed.target = some at2) (hlm : alook at2 ed.source = some lm)
    (hrm : removeFirst lm ed.inv = some lm2) :
    (g.del_edge ed).1 = none ∧
    (g.del_edge ed).2.directed = g.directed ∧
    (g.del_edge ed).2.adj.map Prod.fst = g.adj.map Prod.fst ∧
    (∀ w, w ≠ ed.source → w ≠ ed.target → alook (g.del_edge ed).2.adj w = alook g.adj w) ∧
    alook (g.del_edge ed).2.adj ed.source =
      some (if l2 = [] then delKey a ed.target else updKey a ed.target (fun _ => l2)) ∧
    alook (g.del_edge ed).2.adj ed.target =
      some (if lm2 = [] then delKey at2 ed.source else updKey at2 ed.source (fun _ => lm2)) := by
  have ham1 : alook (if l2 = [] then updKey g.adj ed.source (fun a2 => delKey a2 ed.target)
      else updKey g.adj ed.source (fun a2 => updKey a2 ed.target (fun _ => l2))) ed.target
      = some at2 := by
    split <;> rw [alook_updKey_ne _ _ hne] <;> exact hat
  have hok := delHalf_ok ha hl hr
  have hok2 := delHalf_ok ham1 hlm hrm
  have heq : g.del_edge ed = (none, { g with adj :=
      (if lm2 = [] then
        updKey (if l2 = [] then updKey g.adj ed.source (fun a2 => delKey a2 ed.target)
          else updKey g.adj ed.source (fun a2 => updKey a2 ed.target (fun _ => l2)))
          ed.target (fun a2 => delKey a2 ed.source)
       else
        updKey (if l2 = [] then updKey g.adj ed.source (fun a2 => delKey a2 ed.target)
          else updKey g.adj ed.source (fun a2 => updKey a2 ed.target (fun _ => l2)))
          ed.target (fun a2 => updKey a2 ed.source (fun _ => lm2))) }) := by
    unfold MultiGraph.del_edge
    split
    · next er m1 h =>
        rw [hok] at h
        injection h with h1 h2
        cases h1
    · next m1 h =>
        rw [hok] at h
        injection h with h1 h2
        subst h2
        rw [if_pos (show g.directed = false ∧ ed.source ≠ ed.target from ⟨hd, hne⟩)]
        rw [hok2]
  rw [heq]
  refine ⟨rfl, rfl, ?_, ?_, ?_, ?_⟩
  · by_cases h1 : lm2 = []
    · rw [if_pos h1, keys_updKey]
      by_cases h0 : l2 = []
      · rw [if_pos h0, keys_updKey]
      · rw [if_neg h0, keys_updKey]
    · rw [if_neg h1, keys_updKey]
      by_cases h0 : l2 = []
      · rw [if_pos h0, keys_updKey]
      · rw [if_neg h0, keys_updKey]
  · intro w hw1 hw2
    by_cases h1 : lm2 = []
    · rw [if_pos h1, alook_updKey_ne _ _ (fun he => hw2 he.symm)]
      by_cases h0 : l2 = []
      · rw [if_pos h0, alook_updKey_ne _ _ (fun he => hw1 he.symm)]
      · rw [if_neg h0, alook_updKey_ne _ _ (fun he => hw1 he.symm)]
    · rw [if_neg h1, alook_updKey_ne _ _ (fun he => hw2 he.symm)]
      by_cases h0 : l2 = []
      · rw [if_pos h0, alook_updKey_ne _ _ (fun he => hw1 he.symm)]
      · rw [if_neg h0, alook_updKey_ne _ _ (fun he => hw1 he.symm)]
  · have hs : alook
        (if l2 = [] then updKey g.adj ed.source (fun a2 => delKey a2 ed.target)
          else updKey g.adj ed.source (fun a2 => updKey a2 ed.target (fun _ => l2)))
        ed.source =
        some (if l2 = [] then delKey a ed.target else updKey a ed.target (fun _ => l2)) := by
      by_cases h0 : l2 = []
      · rw [if_pos h0, if_pos h0, alook_updKey_self, ha]
        rfl
      · rw [if_neg h0, if_neg h0, alook_updKey_self, ha]
        rfl
    by_cases h1 : lm2 = []
    · rw [if_pos h1, alook_updKey_ne _ _ (fun he => hne he.symm)]
      exact hs
    · rw [if_neg h1, alook_updKey_ne _ _ (fun he => hne he.symm)]
      exact hs
  · by_cases h1 : lm2 = []
    · rw [if_pos h1, if_pos h1, alook_updKey_self, ham1]
      rfl
    · rw [if_neg h1, if_neg h1, alook_updKey_self, ham1]
      rfl

theorem delHalf_err_src {m : List (Nat × Adj)} {s t : Nat} {ed : Edge}
    (ha : alook m s = none) : delHalf m s t ed = (some GErr.keyError, m) := by
  unfold delHalf
  simp only [ha]

theorem delHalf_err_tgt {m : List (Nat × Adj)} {s t : Nat} {ed : Edge} {a : Adj}
    (ha : alook m s = some a) (hl : alook a t = none) :
    delHalf m s t ed = (some GErr.keyError, m) := by
  unfold delHalf
  simp only [ha, hl]

theorem delHalf_err_val {m : List (Nat × Adj)} {s t : Nat} {ed : Edge} {a : Adj}
    {l : List Edge} (ha : alook m s = some a) (hl : alook a t = some l)
    (hr : removeFirst l ed = none) :
    delHalf m s t ed = (some GErr.valueError, m) := by
  unfold delHalf
  simp only [ha, hl, hr]

theorem del_edge_simpleE {g : MultiGraph} (ed : Edge) {a : Adj} {l l2 : List Edge}
    (hcase : g.directed = true ∨ ed.source = ed.target)
    (ha : alook g.adj ed.source = some a) (hl : alook a ed.target = some l)
    (hr : removeFirst l ed = some l2) :
    (g.del_edge ed).1 = none ∧
    (g.del_edge ed).2.directed = g.directed ∧
    (g.del_edge ed).2.adj.map Prod.fst = g.adj.map Prod.fst ∧
    (∀ w, w ≠ ed.source → alook (g.del_edge ed).2.adj w = alook g.adj w) ∧
    alook (g.del_edge ed).2.adj ed.source =
      some (if l2 = [] then delKey a ed.target else updKey a ed.target (fun _ => l2)) :=
  del_edge_effect_simple hcase ha hl hr

theorem del_edge_undirE {g : MultiGraph} (ed : Edge) {a at2 : Adj}
    {l l2 lm lm2 : List Edge}
    (hd : g.directed = false) (hne : ed.source ≠ ed.target)
    (ha : alook g.adj ed.source = some a) (hl : alook a ed.target = some l)
    (hr : removeFirst l ed = some l2)
    (hat : alook g.adj ed.target = some at2) (hlm : alook at2 ed.source = some lm)
    (hrm : removeFirst lm ed.inv = some lm2) :
    (g.del_edge ed).1 = none ∧
    (g.del_edge ed).2.directed = g.directed ∧
    (g.del_edge ed).2.adj.map Prod.fst = g.adj.map Prod.fst ∧
    (∀ w, w ≠ ed.source → w ≠ ed.target → alook (g.del_edge ed).2.adj w = alook g.adj w) ∧
    alook (g.del_edge ed).2.adj ed.source =
      some (if l2 = [] then delKey a ed.target else updKey a ed.target (fun _ => l2)) ∧
    alook (g.del_edge ed).2.adj ed.target =
      some (if lm2 = [] then delKey at2 ed.source else updKey at2 ed.source (fun _ => lm2)) :=
  del_edge_effect_undir hd hne ha hl hr hat hlm hrm

theorem map_inv_eq_nil_iff (l : List Edge) : l.map Edge.inv = [] ↔ l = [] := by
  cases l <;> simp

theorem del_edge_success {g : MultiGraph} {ed : Edge} {a : Adj} {l l2 : List Edge}
    (hg : GInv g)
    (ha : alook g.adj ed.source = some a) (hl : alook a ed.target = some l)
    (hr : removeFirst l ed = some l2) :
    (g.del_edge ed).1 = none ∧
    (g.del_edge ed).2.directed = g.directed ∧
    (g.del_edge ed).2.adj.map Prod.fst = g.adj.map Prod.fst ∧
    WFi (g.del_edge ed).2 ∧
    (∀ w x, bucketAt (g.del_edge ed).2 w x =
      if w = ed.source ∧ x = ed.target then (if l2 = [] then none else some l2)
      else if g.directed = false ∧ ed.source ≠ ed.target ∧ w = ed.target ∧ x = ed.source
      then (if l2 = [] then none else some (l2.map Edge.inv))
      else bucketAt g w x) := by
  obtain ⟨hwfo, hwfi, h1, h2, h6, h3⟩ := hg
  have hnda : (a.map Prod.fst).Nodup := hwfi (ed.source, a) (alook_mem ha)
  have hbST : bucketAt g ed.source ed.target = some l := by
    rw [bucketAt_of_alook ha]
    exact hl
  by_cases hmode : g.directed = true ∨ ed.source = ed.target
  · -- directed graphs and undirected loops touch a single bucket
    obtain ⟨e1, e2, e3, e4, e5⟩ := del_edge_effect_simple hmode ha hl hr
    have hncond : ∀ w x : Nat,
        ¬(g.directed = false ∧ ed.source ≠ ed.target ∧ w = ed.target ∧ x = ed.source) := by
      intro w x hc
      rcases hmode with hm | hm
      · rw [hm] at hc; cases hc.1
      · exact hc.2.1 hm
    have hwfo2 : WFo (g.del_edge ed).2 := by
      unfold WFo
      rw [e3]
      exact hwfo
    refine ⟨e1, e2, e3, ?_, ?_⟩
    · intro p hp
      have hpl := mem_alook hwfo2 hp
      by_cases hw : p.1 = ed.source
      · rw [hw, e5] at hpl
        injection hpl with hval
        rw [← hval]
        split
        · exact keys_delKey_nodup hnda
        · rw [keys_updKey]
          exact hnda
      · rw [e4 p.1 hw] at hpl
        exact hwfi _ (alook_mem hpl)
    · intro w x
      rw [if_neg (hncond w x)]
      by_cases hw : w = ed.source
      · subst hw
        by_cases hx : x = ed.target
        · subst hx
          rw [if_pos ⟨rfl, rfl⟩, bucketAt_of_alook e5]
          by_cases h0 : l2 = []
          · rw [if_pos h0, if_pos h0]
            exact alook_delKey_self hnda
          · rw [if_neg h0, if_neg h0, alook_updKey_self, hl]
            rfl
        · rw [if_neg (fun hc => hx hc.2), bucketAt_of_alook e5]
          by_cases h0 : l2 = []
          · rw [if_pos h0, alook_delKey_ne _ (fun he => hx he.symm), bucketAt_of_alook ha]
          · rw [if_neg h0, alook_updKey_ne _ _ (fun he => hx he.symm), bucketAt_of_alook ha]
      · rw [if_neg (fun hc => hw hc.1), bucketAt_eq_of_alook (e4 w hw) x]
  · have hd : g.directed = false := by
      cases hdd : g.directed
      · rfl
      · exact absurd (Or.inl hdd) hmode
    have hne : ed.source ≠ ed.target := fun he => hmode (Or.inr he)
    have hbTS : bucketAt g ed.target ed.source = some (l.map Edge.inv) :=
      I3_bucket h3 hd hbST hne
    have hat : ∃ at2, alook g.adj ed.target = some at2 ∧
        alook at2 ed.source = some (l.map Edge.inv) := by
      unfold bucketAt at hbTS
      cases hat0 : alook g.adj ed.target with
      | none => rw [hat0] at hbTS; cases hbTS
      | some at2 =>
        rw [hat0] at hbTS
        exact ⟨at2, rfl, hbTS⟩
    obtain ⟨at2, hat2, hlm⟩ := hat
    have hndat : (at2.map Prod.fst).Nodup := hwfi (ed.target, at2) (alook_mem hat2)
    have hrm : removeFirst (l.map Edge.inv) ed.inv = some (l2.map Edge.inv) := by
      rw [removeFirst_map_inv, hr]
      rfl
    obtain ⟨e1, e2, e3, e4, e5, e6⟩ := del_edge_effect_undir hd hne ha hl hr hat2 hlm hrm
    have hwfo2 : WFo (g.del_edge ed).2 := by
      unfold WFo
      rw [e3]
      exact hwfo
    refine ⟨e1, e2, e3, ?_, ?_⟩
    · intro p hp
      have hpl := mem_alook hwfo2 hp
      by_cases hw : p.1 = ed.source
      · rw [hw, e5] at hpl
        injection hpl with hval
        rw [← hval]
        split
        · exact keys_delKey_nodup hnda
        · rw [keys_updKey]
          exact hnda
      · by_cases hw2 : p.1 = ed.target
        · rw [hw2, e6] at hpl
          injection hpl with hval
          rw [← hval]
          split
          · exact keys_delKey_nodup hndat
          · rw [keys_updKey]
            exact hndat
        · rw [e4 p.1 hw hw2] at hpl
          exact hwfi _ (alook_mem hpl)
    · intro w x
      by_cases hw : w = ed.source
      · subst hw
        by_cases hx : x = ed.target
        · subst hx
          rw [if_pos (show ed.source = ed.source ∧ ed.target = ed.target from ⟨rfl, rfl⟩),
            bucketAt_of_alook e5]
          by_cases h0 : l2 = []
          · rw [if_pos h0, if_pos h0]
            exact alook_delKey_self hnda
          · rw [if_neg h0, if_neg h0, alook_updKey_self, hl]
            rfl
        · rw [if_neg (show ¬(ed.source = ed.source ∧ x = ed.target) from fun hc => hx hc.2),
            if_neg (show ¬(g.directed = false ∧ ed.source ≠ ed.target ∧
              ed.source = ed.target ∧ x = ed.source) from fun hc => hne hc.2.2.1),
            bucketAt_of_alook e5]
          by_cases h0 : l2 = []
          · rw [if_pos h0, alook_delKey_ne _ (fun he => hx he.symm), bucketAt_of_alook ha]
          · rw [if_neg h0, alook_updKey_ne _ _ (fun he => hx he.symm), bucketAt_of_alook ha]
      · by_cases hw2 : w = ed.target
        · subst hw2
          by_cases hx : x = ed.source
          · subst hx
            rw [if_neg (show ¬(ed.target = ed.source ∧ ed.source = ed.target) from
                fun hc => hw hc.1),
              if_pos (show g.directed = false ∧ ed.source ≠ ed.target ∧
                ed.target = ed.target ∧ ed.source = ed.source from ⟨hd, hne, rfl, rfl⟩),
              bucketAt_of_alook e6]
            by_cases h0 : l2 = []
            · have h0b : l2.map Edge.inv = [] := by rw [h0]; rfl
              rw [if_pos h0b, if_pos h0]
              exact alook_delKey_self hndat
            · have h0b : ¬(l2.map Edge.inv = []) := by
                rw [map_inv_eq_nil_iff]
                exact h0
              rw [if_neg h0b, if_neg h0, alook_updKey_self, hlm]
              rfl
          · rw [if_neg (show ¬(ed.target = ed.source ∧ x = ed.target) from fun hc => hw hc.1),
              if_neg (show ¬(g.directed = false ∧ ed.source ≠ ed.target ∧
                ed.target = ed.target ∧ x = ed.source) from fun hc => hx hc.2.2.2),
              bucketAt_of_alook e6]
            by_cases h0b : l2.map Edge.inv = []
            · rw [if_pos h0b, alook_delKey_ne _ (fun he => hx he.symm), bucketAt_of_alook hat2]
            · rw [if_neg h0b, alook_updKey_ne _ _ (fun he => hx he.symm), bucketAt_of_alook hat2]
        · rw [if_neg (show ¬(w = ed.source ∧ x = ed.target) from fun hc => hw hc.1),
            if_neg (show ¬(g.directed = false ∧ ed.source ≠ ed.target ∧
              w = ed.target ∧ x = ed.source) from fun hc => hw2 hc.2.2.1),
            bucketAt_eq_of_alook (e4 w hw hw2) x]

theorem isSome_of_keys_eq {g2 g : MultiGraph}
    (hk : g2.adj.map Prod.fst = g.adj.map Prod.fst) (x : Nat) :
    (alook g2.adj x).isSome = (alook g.adj x).isSome := by
  rw [Bool.eq_iff_iff, alook_isSome_iff, alook_isSome_iff, hk]

theorem del_edge_first_half {g : MultiGraph} {ed : Edge}
    (h : (g.del_edge ed).1 = none) :
    ∃ a l l2, alook g.adj ed.source = some a ∧ alook a ed.target = some l ∧
      removeFirst l ed = some l2 := by
  unfold MultiGraph.del_edge at h
  split at h
  · simp at h
  · next m1 hdh => exact delHalf_ok_inv hdh

theorem GInv_del_edge {g : MultiGraph} (ed : Edge) (hg : GInv g)
    (h : (g.del_edge ed).1 = none) : GInv (g.del_edge ed).2 := by
  obtain ⟨a, l, l2, ha, hl, hr⟩ := del_edge_first_half h
  obtain ⟨e1, e2, e3, ewfi, ebkt⟩ := del_edge_success hg ha hl hr
  obtain ⟨hwfo, hwfi, h1, h2, h6, h3⟩ := hg
  have hwfo2 : WFo (g.del_edge ed).2 := by
    unfold WFo
    rw [e3]
    exact hwfo
  have hbST : bucketAt g ed.source ed.target = some l := by
    rw [bucketAt_of_alook ha]
    exact hl
  have hsub : l2.Sublist l := removeFirst_sublist hr
  refine ⟨hwfo2, ewfi, ?_, ?_, ?_, ?_⟩
  · -- I1
    apply I1_of_bucket hwfo2 ewfi
    intro w x l' hb
    rw [ebkt w x] at hb
    rw [isSome_of_keys_eq e3]
    split at hb
    · next hc =>
        rw [hc.2]
        exact I1_bucket h1 hbST
    · split at hb
      · next hc =>
          rw [hc.2.2.2, ha]
          rfl
      · exact I1_bucket h1 hb
  · -- I2
    apply I2_of_bucket hwfo2 ewfi
    intro w x l' hb
    rw [ebkt w x] at hb
    split at hb
    · split at hb
      · cases hb
      · next h0 =>
          injection hb with hval
          rw [← hval]
          exact h0
    · split at hb
      · split at hb
        · cases hb
        · next h0 =>
            injection hb with hval
            rw [← hval]
            intro hcon
            rw [map_inv_eq_nil_iff] at hcon
            exact h0 hcon
      · exact I2_bucket h2 hb
  · -- I6
    apply I6_of_bucket hwfo2 ewfi
    intro w x l' hb
    rw [ebkt w x] at hb
    split at hb
    · next hc =>
        split at hb
        · cases hb
        · injection hb with hval
          rw [← hval, hc.1, hc.2]
          intro e he
          exact I6_bucket h6 hbST e (List.Sublist.mem he hsub)
    · split at hb
      · next hc =>
          split at hb
          · cases hb
          · injection hb with hval
            rw [← hval, hc.2.2.1, hc.2.2.2]
            intro e he
            obtain ⟨e0, he0, hee⟩ := List.mem_map.mp he
            obtain ⟨hs0, ht0⟩ := I6_bucket h6 hbST e0 (List.Sublist.mem he0 hsub)
            rw [← hee]
            exact ⟨by rw [show e0.inv.source = e0.target from rfl, ht0],
              by rw [show e0.inv.target = e0.source from rfl, hs0]⟩
      · exact I6_bucket h6 hb
  · -- I3
    apply I3_of_bucket hwfo2 ewfi
    intro w x l' hd' hb hne'
    have hd0 : g.directed = false := e2.symm.trans hd'
    rw [ebkt w x] at hb
    rw [ebkt x w]
    by_cases hc1 : w = ed.source ∧ x = ed.target
    · rw [if_pos hc1] at hb
      have hst : ed.source ≠ ed.target := fun he => hne' (hc1.1.trans (he.trans hc1.2.symm))
      by_cases h0 : l2 = []
      · rw [if_pos h0] at hb
        cases hb
      · rw [if_neg h0] at hb
        injection hb with hval
        rw [if_neg (show ¬(x = ed.source ∧ w = ed.target) from
            fun hc => hst (hc.1.symm.trans hc1.2)),
          if_pos (show g.directed = false ∧ ed.source ≠ ed.target ∧
            x = ed.target ∧ w = ed.source from ⟨hd0, hst, hc1.2, hc1.1⟩),
          if_neg h0, ← hval]
    · by_cases hc2 : w = ed.target ∧ x = ed.source
      · have hst : ed.source ≠ ed.target :=
          fun he => hne' (hc2.1.trans (he.symm.trans hc2.2.symm))
        rw [if_neg hc1,
          if_pos (show g.directed = false ∧ ed.source ≠ ed.target ∧
            w = ed.target ∧ x = ed.source from ⟨hd0, hst, hc2.1, hc2.2⟩)] at hb
        by_cases h0 : l2 = []
        · rw [if_pos h0] at hb
          cases hb
        · rw [if_neg h0] at hb
          injection hb with hval
          rw [if_pos (show x = ed.source ∧ w = ed.target from ⟨hc2.2, hc2.1⟩),
            if_neg h0, ← hval, map_inv_inv]
      · rw [if_neg hc1, if_neg (show ¬(g.directed = false ∧ ed.source ≠ ed.target ∧
            w = ed.target ∧ x = ed.source) from fun hc => hc2 ⟨hc.2.2.1, hc.2.2.2⟩)] at hb
        rw [if_neg (show ¬(x = ed.source ∧ w = ed.target) from
            fun hc => hc2 ⟨hc.2, hc.1⟩),
          if_neg (show ¬(g.directed = false ∧ ed.source ≠ ed.target ∧
            x = ed.target ∧ w = ed.source) from fun hc => hc1 ⟨hc.2.2.2, hc.2.2.1⟩)]
        exact I3_bucket h3 hd0 hb hne'

theorem del_edge_atomic {g : MultiGraph} (ed : Edge) (hg : GInv g) :
    ((g.del_edge ed).1 = none → GInv (g.del_edge ed).2) ∧
    ((g.del_edge ed).1 ≠ none → (g.del_edge ed).2 = g) := by
  constructor
  · exact GInv_del_edge ed hg
  · intro hne
    by_cases hsucc : ∃ a l l2, alook g.adj ed.source = some a ∧
        alook a ed.target = some l ∧ removeFirst l ed = some l2
    · obtain ⟨a, l, l2, ha, hl, hr⟩ := hsucc
      obtain ⟨e1, _, _, _, _⟩ := del_edge_success hg ha hl hr
      exact absurd e1 hne
    · have herr : ∃ er, delHalf g.adj ed.source ed.target ed = (some er, g.adj) := by
        cases ha : alook g.adj ed.source with
        | none => exact ⟨GErr.keyError, delHalf_err_src ha⟩
        | some a =>
          cases hl : alook a ed.target with
          | none => exact ⟨GErr.keyError, delHalf_err_tgt ha hl⟩
          | some l =>
            cases hr : removeFirst l ed with
            | none => exact ⟨GErr.valueError, delHalf_err_val ha hl hr⟩
            | some l2 => exact absurd ⟨a, l, l2, ha, hl, hr⟩ hsucc
      obtain ⟨er, hdh⟩ := herr
      have hdel : g.del_edge ed = (some er, g) := by
        unfold MultiGraph.del_edge
        split
        · next er2 m2 h2 =>
            rw [hdh] at h2
            injection h2 with h21 h22
            injection h21 with h21b
            subst h21b
            subst h22
            rfl
        · next m2 h2 =>
            rw [hdh] at h2
            injection h2 with h21 h22
            cases h21
      rw [hdel]

/-! Infrastructure for `del_node`: sequential edge deletion. -/

theorem delEdges_nil (g : MultiGraph) : delEdges g [] = (none, g) := rfl

theorem delEdges_cons_ok {g g1 : MultiGraph} {ed : Edge}
    (h : g.del_edge ed = (none, g1)) (es : List Edge) :
    delEdges g (ed :: es) = delEdges g1 es := by
  show (match g.del_edge ed with
    | (some er, g2) => (some er, g2)
    | (none, g2) => delEdges g2 es) = delEdges g1 es
  rw [h]

theorem delEdges_append_ok {g g1 : MultiGraph} {xs : List Edge}
    (h : delEdges g xs = (none, g1)) (ys : List Edge) :
    delEdges g (xs ++ ys) = delEdges g1 ys := by
  induction xs generalizing g with
  | nil =>
    rw [delEdges_nil] at h
    injection h with h1 h2
    subst h2
    rfl
  | cons ed rest ih =>
    unfold delEdges at h
    rcases hde : g.del_edge ed with ⟨er, g2⟩
    rw [hde] at h
    cases er with
    | some er2 =>
      simp only at h
      injection h with h1 h2
      cases h1
    | none =>
      simp only at h
      rw [List.cons_append, delEdges_cons_ok hde, ih h]

theorem prod_eta_del {g : MultiGraph} {ed : Edge} (h : (g.del_edge ed).1 = none) :
    g.del_edge ed = (none, (g.del_edge ed).2) := by
  have h0 : g.del_edge ed = ((g.del_edge ed).1, (g.del_edge ed).2) := rfl
  rw [h] at h0
  exact h0

theorem delKey_delKey {α : Type} {a : List (Nat × α)} {t : Nat}
    (h : (a.map Prod.fst).Nodup) : delKey (delKey a t) t = delKey a t :=
  delKey_of_not_mem (by
    rw [← alook_eq_none_iff]
    exact alook_delKey_self h)

theorem delKey_updKey {α : Type} {a : List (Nat × α)} {t : Nat} (f : α → α)
    (h : (a.map Prod.fst).Nodup) : delKey (updKey a t f) t = delKey a t := by
  induction a with
  | nil => rfl
  | cons p rest ih =>
    simp only [List.map_cons, List.nodup_cons] at h
    by_cases hp : p.1 = t
    · have hrest : updKey rest t f = rest :=
        updKey_of_not_mem f (hp ▸ h.1)
      simp [updKey, delKey, hp, hrest]
    · simp [updKey, delKey, hp, ih h.2]

theorem not_mem_keys_delKey {α : Type} {m : List (Nat × α)} {k : Nat}
    {p : Nat × α} (hnd : (m.map Prod.fst).Nodup) (h : p ∈ delKey m k) : p.1 ≠ k := by
  intro he
  have h2 := mem_alook (keys_delKey_nodup hnd) h
  rw [he, alook_delKey_self hnd] at h2
  cases h2

theorem bucketAt_decompose {g : MultiGraph} {w x : Nat} {l : List Edge}
    (h : bucketAt g w x = some l) :
    ∃ a, alook g.adj w = some a ∧ alook a x = some l := by
  unfold bucketAt at h
  cases ha : alook g.adj w with
  | none => rw [ha] at h; cases h
  | some a => rw [ha] at h; exact ⟨a, rfl, h⟩

/-- Deleting (through `del_edge` of the inverted edges) every edge of the
bucket `g[u][t]` of an undirected multigraph removes the bucket and its
mirror, touches nothing else, and never raises. -/
theorem sweepU_bucket (u t : Nat) : ∀ (l : List Edge) (g : MultiGraph), GInv g →
    g.directed = false →
    bucketAt g u t = (if l = [] then none else some l) →
    (delEdges g (l.map Edge.inv)).1 = none ∧
    GInv (delEdges g (l.map Edge.inv)).2 ∧
    (delEdges g (l.map Edge.inv)).2.directed = g.directed ∧
    (delEdges g (l.map Edge.inv)).2.adj.map Prod.fst = g.adj.map Prod.fst ∧
    (∀ w, w ≠ u → w ≠ t → alook (delEdges g (l.map Edge.inv)).2.adj w = alook g.adj w) ∧
    alook (delEdges g (l.map Edge.inv)).2.adj u = (alook g.adj u).map (fun a2 => delKey a2 t) ∧
    alook (delEdges g (l.map Edge.inv)).2.adj t = (alook g.adj t).map (fun a2 => delKey a2 u) := by
  intro l
  induction l with
  | nil =>
    intro g hg hd hb
    rw [if_pos rfl] at hb
    obtain ⟨hwfo, hwfi, h1, h2, h6, h3⟩ := hg
    refine ⟨rfl, ⟨hwfo, hwfi, h1, h2, h6, h3⟩, rfl, rfl, fun w _ _ => rfl, ?_, ?_⟩
    · show alook g.adj u = (alook g.adj u).map (fun a2 => delKey a2 t)
      cases hau : alook g.adj u with
      | none => rfl
      | some a =>
        rw [bucketAt_of_alook hau] at hb
        simp only [Option.map_some', Option.some.injEq]
        rw [delKey_of_not_mem (by rw [← alook_eq_none_iff]; exact hb)]
    · show alook g.adj t = (alook g.adj t).map (fun a2 => delKey a2 u)
      by_cases htu : t = u
      · subst htu
        cases hau : alook g.adj t with
        | none => rfl
        | some a =>
          rw [bucketAt_of_alook hau] at hb
          simp only [Option.map_some', Option.some.injEq]
          rw [delKey_of_not_mem (by rw [← alook_eq_none_iff]; exact hb)]
      · have hbm : bucketAt g t u = none := I3_bucket_none h3 hd hb (fun he => htu he.symm)
        cases hat : alook g.adj t with
        | none => rfl
        | some a =>
          rw [bucketAt_of_alook hat] at hbm
          simp only [Option.map_some', Option.some.injEq]
          rw [delKey_of_not_mem (by rw [← alook_eq_none_iff]; exact hbm)]
  | cons e rest ih =>
    intro g hg hd hb
    rw [if_neg (List.cons_ne_nil e rest)] at hb
    have hgKeep := hg
    obtain ⟨hwfo, hwfi, h1, h2, h6, h3⟩ := hg
    obtain ⟨s0, t0, w0⟩ := e
    have h66 := I6_bucket h6 hb ⟨s0, t0, w0⟩ (List.mem_cons_self _ _)
    have hes : u = s0 := h66.1.symm
    have het : t = t0 := h66.2.symm
    subst hes
    subst het
    by_cases htu : t = u
    · subst htu
      obtain ⟨a0, hau, hl0⟩ := bucketAt_decompose hb
      have hnda0 : (a0.map Prod.fst).Nodup := hwfi (t, a0) (alook_mem hau)
      obtain ⟨e1, e2, e3, e4, e5⟩ :=
        del_edge_simpleE ⟨t, t, w0⟩ (Or.inr rfl) hau hl0
          (removeFirst_cons_self rest _)
      have hg1 : GInv (g.del_edge ⟨t, t, w0⟩).2 := GInv_del_edge _ hgKeep e1
      have hde := prod_eta_del e1
      have hbkt1 : bucketAt (g.del_edge ⟨t, t, w0⟩).2 t t =
          (if rest = [] then none else some rest) := by
        rw [bucketAt_of_alook e5]
        by_cases h0 : rest = []
        · rw [if_pos h0, if_pos h0]
          exact alook_delKey_self hnda0
        · rw [if_neg h0, if_neg h0, alook_updKey_self, hl0]
          rfl
      have IH := ih (g.del_edge ⟨t, t, w0⟩).2 hg1 (by rw [e2]; exact hd) hbkt1
      obtain ⟨i1, i2, i3, i4, i5, i6, i7⟩ := IH
      have hee : Edge.inv ⟨t, t, w0⟩ = (⟨t, t, w0⟩ : Edge) := rfl
      rw [List.map_cons, hee, delEdges_cons_ok hde]
      refine ⟨i1, i2, ?_, ?_, ?_, ?_, ?_⟩
      · rw [i3, e2]
      · rw [i4, e3]
      · intro w hw1 hw2
        rw [i5 w hw1 hw2, e4 w hw2]
      · rw [i6, e5, hau]
        simp only [Option.map_some', Option.some.injEq]
        by_cases h0 : rest = []
        · rw [if_pos h0, delKey_delKey hnda0]
        · rw [if_neg h0, delKey_updKey _ hnda0]
      · rw [i7, e5, hau]
        simp only [Option.map_some', Option.some.injEq]
        by_cases h0 : rest = []
        · rw [if_pos h0, delKey_delKey hnda0]
        · rw [if_neg h0, delKey_updKey _ hnda0]
    · have hne : u ≠ t := fun he => htu he.symm
      have hbm : bucketAt g t u = some (((⟨u, t, w0⟩ : Edge) :: rest).map Edge.inv) :=
        I3_bucket h3 hd hb hne
      have hee2 : Edge.inv ⟨u, t, w0⟩ = (⟨t, u, w0⟩ : Edge) := rfl
      rw [List.map_cons, hee2] at hbm
      obtain ⟨au, hau, hlu⟩ := bucketAt_decompose hb
      obtain ⟨at0, hat, hlt⟩ := bucketAt_decompose hbm
      have hndau : (au.map Prod.fst).Nodup := hwfi (u, au) (alook_mem hau)
      have hndat : (at0.map Prod.fst).Nodup := hwfi (t, at0) (alook_mem hat)
      obtain ⟨e1, e2, e3, e4, e5, e6⟩ :=
        del_edge_undirE ⟨t, u, w0⟩ hd htu hat hlt
          (removeFirst_cons_self _ _) hau hlu (removeFirst_cons_self rest ⟨u, t, w0⟩)
      have hg1 : GInv (g.del_edge ⟨t, u, w0⟩).2 := GInv_del_edge _ hgKeep e1
      have hde := prod_eta_del e1
      have hbkt1 : bucketAt (g.del_edge ⟨t, u, w0⟩).2 u t =
          (if rest = [] then none else some rest) := by
        rw [bucketAt_of_alook e6]
        by_cases h0 : rest = []
        · rw [if_pos h0, if_pos h0]
          exact alook_delKey_self hndau
        · rw [if_neg h0, if_neg h0, alook_updKey_self, hlu]
          rfl
      have IH := ih (g.del_edge ⟨t, u, w0⟩).2 hg1 (by rw [e2]; exact hd) hbkt1
      obtain ⟨i1, i2, i3, i4, i5, i6, i7⟩ := IH
      rw [List.map_cons, hee2, delEdges_cons_ok hde]
      refine ⟨i1, i2, ?_, ?_, ?_, ?_, ?_⟩
      · rw [i3, e2]
      · rw [i4, e3]
      · intro w hw1 hw2
        rw [i5 w hw1 hw2, e4 w hw2 hw1]
      · rw [i6, e6, hau]
        simp only [Option.map_some', Option.some.injEq]
        by_cases h0 : rest = []
        · rw [if_pos h0, delKey_delKey hndau]
        · rw [if_neg h0, delKey_updKey _ hndau]
      · rw [i7, e5, hat]
        simp only [Option.map_some', Option.some.injEq]
        by_cases h0 : (rest.map Edge.inv) = []
        · rw [if_pos h0, delKey_delKey hndat]
        · rw [if_neg h0, delKey_updKey _ hndat]

/-- Undirected in-edge sweep of `del_node`: deleting the inverted edges of
every bucket of `u` empties `u`'s adjacency dict and removes the key `u`
from every other node's adjacency dict. -/
theorem sweepU_adj (u : Nat) : ∀ (aL : Adj) (g : MultiGraph), GInv g →
    g.directed = false →
    alook g.adj u = some aL →
    (delEdges g (aL.flatMap (fun q => q.2.map Edge.inv))).1 = none ∧
    GInv (delEdges g (aL.flatMap (fun q => q.2.map Edge.inv))).2 ∧
    (delEdges g (aL.flatMap (fun q => q.2.map Edge.inv))).2.directed = g.directed ∧
    (delEdges g (aL.flatMap (fun q => q.2.map Edge.inv))).2.adj.map Prod.fst
      = g.adj.map Prod.fst ∧
    alook (delEdges g (aL.flatMap (fun q => q.2.map Edge.inv))).2.adj u = some [] ∧
    (∀ w, w ≠ u → alook (delEdges g (aL.flatMap (fun q => q.2.map Edge.inv))).2.adj w
      = (alook g.adj w).map (fun a2 => delKey a2 u)) := by
  intro aL
  induction aL with
  | nil =>
    intro g hg hd hau
    obtain ⟨hwfo, hwfi, h1, h2, h6, h3⟩ := hg
    refine ⟨rfl, ⟨hwfo, hwfi, h1, h2, h6, h3⟩, rfl, rfl, ?_, ?_⟩
    · show alook g.adj u = some []
      exact hau
    · intro w hw
      show alook g.adj w = (alook g.adj w).map (fun a2 => delKey a2 u)
      have hbuw : bucketAt g u w = none := by
        rw [bucketAt_of_alook hau]
        rfl
      have hbwu : bucketAt g w u = none := I3_bucket_none h3 hd hbuw hw.symm
      cases haw : alook g.adj w with
      | none => rfl
      | some a =>
        rw [bucketAt_of_alook haw] at hbwu
        simp only [Option.map_some', Option.some.injEq]
        rw [delKey_of_not_mem (by rw [← alook_eq_none_iff]; exact hbwu)]
  | cons q arest ih =>
    intro g hg hd hau
    obtain ⟨t1, l1⟩ := q
    have hgKeep := hg
    obtain ⟨hwfo, hwfi, h1, h2, h6, h3⟩ := hg
    have hb : bucketAt g u t1 = some l1 := by
      rw [bucketAt_of_alook hau]
      simp [alook]
    have hl1ne : l1 ≠ [] := I2_bucket h2 hb
    obtain ⟨s1, s2, s3, s4, s5, s6, s7⟩ :=
      sweepU_bucket u t1 l1 g hgKeep hd (by rw [if_neg hl1ne]; exact hb)
    have hdelE : delEdges g (l1.map Edge.inv) =
        (none, (delEdges g (l1.map Edge.inv)).2) := by
      have h0 : delEdges g (l1.map Edge.inv) =
          ((delEdges g (l1.map Edge.inv)).1, (delEdges g (l1.map Edge.inv)).2) := rfl
      rw [s1] at h0
      exact h0
    have hau1 : alook (delEdges g (l1.map Edge.inv)).2.adj u = some arest := by
      rw [s6, hau]
      simp only [Option.map_some', Option.some.injEq]
      exact delKey_cons_self arest t1 l1
    have IH := ih (delEdges g (l1.map Edge.inv)).2 s2 (by rw [s3]; exact hd) hau1
    obtain ⟨i1, i2, i3, i4, i5, i6⟩ := IH
    rw [List.flatMap_cons, delEdges_append_ok hdelE]
    refine ⟨i1, i2, ?_, ?_, i5, ?_⟩
    · rw [i3, s3]
    · rw [i4, s4]
    · intro w hw
      rw [i6 w hw]
      by_cases hwt : w = t1
      · subst hwt
        rw [s7]
        cases hat : alook g.adj w with
        | none => rfl
        | some a =>
          simp only [Option.map_some', Option.some.injEq]
          exact delKey_delKey (hwfi (w, a) (alook_mem hat))
      · rw [s5 w hw hwt]

/-- Directed bucket sweep: deleting every edge of the bucket `g[s][t]` of a
directed multigraph removes that bucket, touches nothing else, and never
raises. -/
theorem sweepD_bucket (s t : Nat) : ∀ (l : List Edge) (g : MultiGraph), GInv g →
    g.directed = true →
    bucketAt g s t = (if l = [] then none else some l) →
    (delEdges g l).1 = none ∧
    GInv (delEdges g l).2 ∧
    (delEdges g l).2.directed = g.directed ∧
    (delEdges g l).2.adj.map Prod.fst = g.adj.map Prod.fst ∧
    (∀ w, w ≠ s → alook (delEdges g l).2.adj w = alook g.adj w) ∧
    alook (delEdges g l).2.adj s = (alook g.adj s).map (fun a2 => delKey a2 t) := by
  intro l
  induction l with
  | nil =>
    intro g hg hd hb
    rw [if_pos rfl] at hb
    obtain ⟨hwfo, hwfi, h1, h2, h6, h3⟩ := hg
    refine ⟨rfl, ⟨hwfo, hwfi, h1, h2, h6, h3⟩, rfl, rfl, fun w _ => rfl, ?_⟩
    show alook g.adj s = (alook g.adj s).map (fun a2 => delKey a2 t)
    cases hau : alook g.adj s with
    | none => rfl
    | some a =>
      rw [bucketAt_of_alook hau] at hb
      simp only [Option.map_some', Option.some.injEq]
      rw [delKey_of_not_mem (by rw [← alook_eq_none_iff]; exact hb)]
  | cons e rest ih =>
    intro g hg hd hb
    rw [if_neg (List.cons_ne_nil e rest)] at hb
    have hgKeep := hg
    obtain ⟨hwfo, hwfi, h1, h2, h6, h3⟩ := hg
    obtain ⟨s0, t0, w0⟩ := e
    have h66 := I6_bucket h6 hb ⟨s0, t0, w0⟩ (List.mem_cons_self _ _)
    have hes : s = s0 := h66.1.symm
    have het : t = t0 := h66.2.symm
    subst hes
    subst het
    obtain ⟨a0, hau, hl0⟩ := bucketAt_decompose hb
    have hnda0 : (a0.map Prod.fst).Nodup := hwfi (s, a0) (alook_mem hau)
    obtain ⟨e1, e2, e3, e4, e5⟩ :=
      del_edge_simpleE ⟨s, t, w0⟩ (Or.inl hd) hau hl0
        (removeFirst_cons_self rest _)
    have hg1 : GInv (g.del_edge ⟨s, t, w0⟩).2 := GInv_del_edge _ hgKeep e1
    have hde := prod_eta_del e1
    have hbkt1 : bucketAt (g.del_edge ⟨s, t, w0⟩).2 s t =
        (if rest = [] then none else some rest) := by
      rw [bucketAt_of_alook e5]
      by_cases h0 : rest = []
      · rw [if_pos h0, if_pos h0]
        exact alook_delKey_self hnda0
      · rw [if_neg h0, if_neg h0, alook_updKey_self, hl0]
        rfl
    have IH := ih (g.del_edge ⟨s, t, w0⟩).2 hg1 (by rw [e2]; exact hd) hbkt1
    obtain ⟨i1, i2, i3, i4, i5, i6⟩ := IH
    rw [delEdges_cons_ok hde]
    refine ⟨i1, i2, ?_, ?_, ?_, ?_⟩
    · rw [i3, e2]
    · rw [i4, e3]
    · intro w hw
      rw [i5 w hw, e4 w hw]
    · rw [i6, e5, hau]
      simp only [Option.map_some', Option.some.injEq]
      by_cases h0 : rest = []
      · rw [if_pos h0, delKey_delKey hnda0]
      · rw [if_neg h0, delKey_updKey _ hnda0]

/-- Directed in-edge sweep of `del_node`: deleting every entry of every
bucket `g[t][u]` removes the key `u` from each scanned adjacency dict. -/
theorem sweepD_in (u : Nat) : ∀ (ps : List (Nat × Adj)) (g : MultiGraph), GInv g →
    g.directed = true →
    (∀ p ∈ ps, bucketAt g p.1 u = alook p.2 u) →
    ((ps.map Prod.fst).Nodup) →
    (delEdges g (ps.flatMap (fun p => match alook p.2 u with
      | some l => l
      | none => []))).1 = none ∧
    GInv (delEdges g (ps.flatMap (fun p => match alook p.2 u with
      | some l => l
      | none => []))).2 ∧
    (delEdges g (ps.flatMap (fun p => match alook p.2 u with
      | some l => l
      | none => []))).2.directed = g.directed ∧
    (delEdges g (ps.flatMap (fun p => match alook p.2 u with
      | some l => l
      | none => []))).2.adj.map Prod.fst = g.adj.map Prod.fst ∧
    (∀ w, w ∉ ps.map Prod.fst → alook (delEdges g (ps.flatMap (fun p =>
      match alook p.2 u with
      | some l => l
      | none => []))).2.adj w = alook g.adj w) ∧
    (∀ p ∈ ps, alook (delEdges g (ps.flatMap (fun p => match alook p.2 u with
      | some l => l
      | none => []))).2.adj p.1
      = (alook g.adj p.1).map (fun a2 => delKey a2 u)) := by
  intro ps
  induction ps with
  | nil =>
    intro g hg hd hbs hnd
    obtain ⟨hwfo, hwfi, h1, h2, h6, h3⟩ := hg
    exact ⟨rfl, ⟨hwfo, hwfi, h1, h2, h6, h3⟩, rfl, rfl, fun w _ => rfl, fun p hp => absurd hp (by simp)⟩
  | cons p prest ih =>
    intro g hg hd hbs hnd
    have hgKeep := hg
    obtain ⟨hwfo, hwfi, h1, h2, h6, h3⟩ := hg
    simp only [List.map_cons, List.nodup_cons] at hnd
    have hbp := hbs p (List.mem_cons_self _ _)
    cases hpu : alook p.2 u with
    | none =>
      rw [hpu] at hbp
      rw [List.flatMap_cons, hpu]
      rw [show ([] ++ prest.flatMap (fun p => match alook p.2 u with
        | some l => l
        | none => [])) = prest.flatMap (fun p => match alook p.2 u with
        | some l => l
        | none => []) from List.nil_append _]
      have IH := ih g hgKeep hd (fun p2 hp2 => hbs p2 (List.mem_cons_of_mem _ hp2)) hnd.2
      obtain ⟨i1, i2, i3, i4, i5, i6⟩ := IH
      refine ⟨i1, i2, i3, i4, ?_, ?_⟩
      · intro w hw
        apply i5
        intro hc
        exact hw (List.mem_cons_of_mem _ hc)
      · intro p2 hp2
        rcases List.mem_cons.mp hp2 with hp2 | hp2
        · subst hp2
          rw [i5 p2.1 hnd.1]
          cases hap : alook g.adj p2.1 with
          | none => rfl
          | some a =>
            rw [bucketAt_of_alook hap] at hbp
            simp only [Option.map_some', Option.some.injEq]
            rw [delKey_of_not_mem (by rw [← alook_eq_none_iff]; exact hbp)]
        · exact i6 p2 hp2
    | some l =>
      rw [hpu] at hbp
      have hlne : l ≠ [] := I2_bucket h2 hbp
      obtain ⟨s1, s2, s3, s4, s5, s6⟩ :=
        sweepD_bucket p.1 u l g hgKeep hd (by rw [if_neg hlne]; exact hbp)
      have hdelE : delEdges g l = (none, (delEdges g l).2) := by
        have h0 : delEdges g l = ((delEdges g l).1, (delEdges g l).2) := rfl
        rw [s1] at h0
        exact h0
      have IH := ih (delEdges g l).2 s2 (by rw [s3]; exact hd)
        (fun p2 hp2 => by
          have hne2 : p2.1 ≠ p.1 := by
            intro he
            exact hnd.1 (he ▸ (List.mem_map.mpr ⟨p2, hp2, rfl⟩))
          rw [bucketAt_eq_of_alook (s5 p2.1 hne2) u]
          exact hbs p2 (List.mem_cons_of_mem _ hp2))
        hnd.2
      obtain ⟨i1, i2, i3, i4, i5, i6⟩ := IH
      rw [List.flatMap_cons, hpu, delEdges_append_ok hdelE]
      refine ⟨i1, i2, ?_, ?_, ?_, ?_⟩
      · rw [i3, s3]
      · rw [i4, s4]
      · intro w hw
        have hw1 : w ≠ p.1 := fun he => hw (by rw [he]; exact List.mem_cons_self _ _)
        have hw2 : w ∉ prest.map Prod.fst := fun hc => hw (List.mem_cons_of_mem _ hc)
        rw [i5 w hw2, s5 w hw1]
      · intro p2 hp2
        rcases List.mem_cons.mp hp2 with hp2e | hp2e
        · subst hp2e
          have hkp : p2.1 ∉ prest.map Prod.fst := hnd.1
          rw [i5 p2.1 hkp, s6]
        · have hne2 : p2.1 ≠ p.1 := by
            intro he
            exact hnd.1 (he ▸ (List.mem_map.mpr ⟨p2, hp2e, rfl⟩))
          rw [i6 p2 hp2e, s5 p2.1 hne2]

/-- Directed out-edge sweep of `del_node`: deleting every entry of every
bucket of `u`'s adjacency dict empties that dict. -/
theorem sweepD_out (u : Nat) : ∀ (aL : Adj) (g : MultiGraph), GInv g →
    g.directed = true →
    alook g.adj u = some aL →
    (delEdges g (aL.flatMap (fun q => q.2))).1 = none ∧
    GInv (delEdges g (aL.flatMap (fun q => q.2))).2 ∧
    (delEdges g (aL.flatMap (fun q => q.2))).2.directed = g.directed ∧
    (delEdges g (aL.flatMap (fun q => q.2))).2.adj.map Prod.fst = g.adj.map Prod.fst ∧
    (∀ w, w ≠ u → alook (delEdges g (aL.flatMap (fun q => q.2))).2.adj w = alook g.adj w) ∧
    alook (delEdges g (aL.flatMap (fun q => q.2))).2.adj u = some [] := by
  intro aL
  induction aL with
  | nil =>
    intro g hg hd hau
    obtain ⟨hwfo, hwfi, h1, h2, h6, h3⟩ := hg
    refine ⟨rfl, ⟨hwfo, hwfi, h1, h2, h6, h3⟩, rfl, rfl, fun w _ => rfl, ?_⟩
    show alook g.adj u = some []
    exact hau
  | cons q arest ih =>
    intro g hg hd hau
    obtain ⟨x1, l1⟩ := q
    have hgKeep := hg
    obtain ⟨hwfo, hwfi, h1, h2, h6, h3⟩ := hg
    have hb : bucketAt g u x1 = some l1 := by
      rw [bucketAt_of_alook hau]
      simp [alook]
    have hl1ne : l1 ≠ [] := I2_bucket h2 hb
    obtain ⟨s1, s2, s3, s4, s5, s6⟩ :=
      sweepD_bucket u x1 l1 g hgKeep hd (by rw [if_neg hl1ne]; exact hb)
    have hdelE : delEdges g l1 = (none, (delEdges g l1).2) := by
      have h0 : delEdges g l1 = ((delEdges g l1).1, (delEdges g l1).2) := rfl
      rw [s1] at h0
      exact h0
    have hau1 : alook (delEdges g l1).2.adj u = some arest := by
      rw [s6, hau]
      simp only [Option.map_some', Option.some.injEq]
      exact delKey_cons_self arest x1 l1
    have IH := ih (delEdges g l1).2 s2 (by rw [s3]; exact hd) hau1
    obtain ⟨i1, i2, i3, i4, i5, i6⟩ := IH
    rw [List.flatMap_cons, delEdges_append_ok hdelE]
    refine ⟨i1, i2, ?_, ?_, ?_, i6⟩
    · rw [i3, s3]
    · rw [i4, s4]
    · intro w hw
      rw [i5 w hw, s5 w hw]

/-- Removing the key of a node whose adjacency dict is empty and which no
bucket key mentions preserves the invariants. -/
theorem GInv_delKey_node {g2 : MultiGraph} (u : Nat) (hg2 : GInv g2)
    (hiso : ∀ p ∈ g2.adj, alook p.2 u = none) :
    GInv { g2 with adj := delKey g2.adj u } := by
  obtain ⟨hwfo, hwfi, h1, h2, h6, h3⟩ := hg2
  have hwfo2 : WFo { g2 with adj := delKey g2.adj u } := keys_delKey_nodup hwfo
  have hmem : ∀ p, p ∈ delKey g2.adj u → p ∈ g2.adj := fun p hp => mem_delKey hp
  have hbkt : ∀ w x, w ≠ u → bucketAt { g2 with adj := delKey g2.adj u } w x
      = bucketAt g2 w x := by
    intro w x hw
    unfold bucketAt
    have halw : alook (delKey g2.adj u) w = alook g2.adj w :=
      alook_delKey_ne g2.adj (fun he => hw he.symm)
    show (match alook (delKey g2.adj u) w with
      | none => none
      | some a => alook a x) =
      (match alook g2.adj w with
      | none => none
      | some a => alook a x)
    rw [halw]
  refine ⟨hwfo2, ?_, ?_, ?_, ?_, ?_⟩
  · intro p hp
    exact hwfi p (hmem p hp)
  · -- I1
    intro p hp q hq
    have hp2 := hmem p hp
    have hqu : q.1 ≠ u := by
      intro he
      have := mem_alook (hwfi p hp2) hq
      rw [he, hiso p hp2] at this
      cases this
    have := h1 p hp2 q hq
    show (alook (delKey g2.adj u) q.1).isSome = true
    rw [alook_delKey_ne g2.adj (fun he => hqu he.symm)]
    exact this
  · intro p hp q hq
    exact h2 p (hmem p hp) q hq
  · intro p hp q hq
    exact h6 p (hmem p hp) q hq
  · -- I3
    intro hd p hp q hq hne
    have hp2 := hmem p hp
    have hqu : q.1 ≠ u := by
      intro he
      have := mem_alook (hwfi p hp2) hq
      rw [he, hiso p hp2] at this
      cases this
    rw [hbkt q.1 p.1 hqu]
    exact h3 hd p hp2 q hq hne

theorem del_node_final_facts {g G : MultiGraph} {u : Nat}
    (hg : GInv g) (hG : GInv G)
    (hGu : alook G.adj u = some [])
    (hGw : ∀ w, w ≠ u → alook G.adj w = (alook g.adj w).map (fun a2 => delKey a2 u)) :
    GInv { G with adj := delKey G.adj u } ∧
    alook (delKey G.adj u) u = none ∧
    (∀ w, w ≠ u → (alook (delKey G.adj u) w).isSome = (alook g.adj w).isSome) ∧
    (∀ w x, w ≠ u → x ≠ u →
      bucketAt { G with adj := delKey G.adj u } w x = bucketAt g w x) ∧
    (∀ w, bucketAt { G with adj := delKey G.adj u } w u = none) ∧
    (∀ x, bucketAt { G with adj := delKey G.adj u } u x = none) := by
  have hwfoG := hG.1
  have hwfig := hg.2.1
  have hiso : ∀ p ∈ G.adj, alook p.2 u = none := by
    intro p hp
    have ha := mem_alook hwfoG hp
    by_cases hpu : p.1 = u
    · rw [hpu, hGu] at ha
      injection ha with ha2
      rw [← ha2]
      rfl
    · rw [hGw p.1 hpu] at ha
      cases haw : alook g.adj p.1 with
      | none => rw [haw] at ha; cases ha
      | some aw =>
        rw [haw] at ha
        injection ha with ha2
        rw [← ha2]
        exact alook_delKey_self (hwfig (p.1, aw) (alook_mem haw))
  refine ⟨GInv_delKey_node u hG hiso, alook_delKey_self hwfoG, ?_, ?_, ?_, ?_⟩
  · intro w hw
    rw [alook_delKey_ne G.adj (fun he => hw he.symm), hGw w hw]
    cases alook g.adj w <;> rfl
  · intro w x hw hx
    unfold bucketAt
    show (match alook (delKey G.adj u) w with
      | none => none
      | some a => alook a x) =
      (match alook g.adj w with
      | none => none
      | some a => alook a x)
    rw [alook_delKey_ne G.adj (fun he => hw he.symm), hGw w hw]
    cases haw : alook g.adj w with
    | none => rfl
    | some aw =>
      simp only [Option.map_some']
      exact alook_delKey_ne aw (fun he => hx he.symm)
  · intro w
    unfold bucketAt
    show (match alook (delKey G.adj u) w with
      | none => none
      | some a => alook a u) = none
    by_cases hw : w = u
    · rw [hw, alook_delKey_self hwfoG]
    · rw [alook_delKey_ne G.adj (fun he => hw he.symm), hGw w hw]
      cases haw : alook g.adj w with
      | none => rfl
      | some aw =>
        simp only [Option.map_some']
        exact alook_delKey_self (hwfig (w, aw) (alook_mem haw))
  · intro x
    unfold bucketAt
    show (match alook (delKey G.adj u) u with
      | none => none
      | some a => alook a x) = none
    rw [alook_delKey_self hwfoG]

theorem del_node_absent {g : MultiGraph} {u : Nat} (hg : GInv g)
    (hau : alook g.adj u = none) : g.del_node u = (some GErr.keyError, g) := by
  by_cases hd : g.directed = true
  · have hinE : g.iterinedges u = some (g.adj.flatMap (fun p => match alook p.2 u with
        | some l => l
        | none => [])) := by
      unfold MultiGraph.iterinedges
      rw [if_pos hd]
    have hnil : (g.adj.flatMap (fun p => match alook p.2 u with
        | some l => l
        | none => [])) = [] := by
      apply List.flatMap_eq_nil_iff.mpr
      intro p hp
      cases hpu : alook p.2 u with
      | none => rfl
      | some l =>
        exfalso
        have := hg.2.2.1 p hp (u, l) (alook_mem hpu)
        rw [hau] at this
        cases this
    have hout : g.iteroutedges u = none := by
      unfold MultiGraph.iteroutedges
      rw [hau]
    unfold MultiGraph.del_node
    simp only [hinE, hnil, delEdges_nil, hd, if_true, hout]
  · have hinE : g.iterinedges u = none := by
      unfold MultiGraph.iterinedges
      rw [if_neg hd]
      simp only [hau]
    unfold MultiGraph.del_node
    simp only [hinE]

theorem del_node_eq_of_ok {g : MultiGraph} {u : Nat} {inE : List Edge}
    (hin : g.iterinedges u = some inE)
    (hde : (delEdges g inE).1 = none)
    (hdir : (delEdges g inE).2.directed = false) :
    g.del_node u = (none, { (delEdges g inE).2 with
      adj := delKey (delEdges g inE).2.adj u }) := by
  unfold MultiGraph.del_node
  simp only [hin]
  split
  · next er g2 hsp =>
      rw [hsp] at hde
      simp at hde
  · next g2 hsp =>
      have h2 : (delEdges g inE).2 = g2 := by rw [hsp]
      rw [if_neg (show ¬(g2.directed = true) by rw [← h2, hdir]; simp)]
      rw [h2]

theorem del_node_eq_of_ok_dir {g : MultiGraph} {u : Nat} {inE outE : List Edge}
    (hin : g.iterinedges u = some inE)
    (hde : (delEdges g inE).1 = none)
    (hdir : (delEdges g inE).2.directed = true)
    (hout : (delEdges g inE).2.iteroutedges u = some outE)
    (hde2 : (delEdges (delEdges g inE).2 outE).1 = none) :
    g.del_node u = (none, { (delEdges (delEdges g inE).2 outE).2 with
      adj := delKey (delEdges (delEdges g inE).2 outE).2.adj u }) := by
  unfold MultiGraph.del_node
  simp only [hin]
  split
  · next er g2 hsp =>
      rw [hsp] at hde
      simp at hde
  · next g2 hsp =>
      have h2 : (delEdges g inE).2 = g2 := by rw [hsp]
      rw [if_pos (show g2.directed = true by rw [← h2]; exact hdir)]
      rw [← h2]
      simp only [hout]
      split
      · next er3 g3 hsp3 =>
          rw [hsp3] at hde2
          simp at hde2
      · next g3 hsp3 =>
          have h3 : (delEdges (delEdges g inE).2 outE).2 = g3 := by rw [hsp3]
          rw [h3]

theorem del_node_present {g : MultiGraph} {u : Nat} {a0 : Adj} (hg : GInv g)
    (hau : alook g.adj u = some a0) :
    (g.del_node u).1 = none ∧
    GInv (g.del_node u).2 ∧
    (g.del_node u).2.directed = g.directed ∧
    alook (g.del_node u).2.adj u = none ∧
    (∀ w, w ≠ u → (alook (g.del_node u).2.adj w).isSome = (alook g.adj w).isSome) ∧
    (∀ w x, w ≠ u → x ≠ u → bucketAt (g.del_node u).2 w x = bucketAt g w x) ∧
    (∀ w, bucketAt (g.del_node u).2 w u = none) ∧
    (∀ x, bucketAt (g.del_node u).2 u x = none) := by
  by_cases hd : g.directed = true
  · -- directed: in-edge sweep over every node, then out-edge sweep, then key removal
    have hinE : g.iterinedges u = some (g.adj.flatMap (fun p => match alook p.2 u with
        | some l => l
        | none => [])) := by
      unfold MultiGraph.iterinedges
      rw [if_pos hd]
    obtain ⟨s1, s2, s3, s4, s5, s6⟩ := sweepD_in u g.adj g hg hd
      (fun p hp => bucketAt_of_alook (mem_alook hg.1 hp) u) hg.1
    have hG2w : ∀ w, alook (delEdges g (g.adj.flatMap (fun p => match alook p.2 u with
        | some l => l
        | none => []))).2.adj w = (alook g.adj w).map (fun a2 => delKey a2 u) := by
      intro w
      cases haw : alook g.adj w with
      | none =>
        rw [s5 w (by rw [← alook_eq_none_iff]; exact haw), haw]
        rfl
      | some aw =>
        rw [s6 (w, aw) (alook_mem haw)]
        simp [haw]
    have hG2u : alook (delEdges g (g.adj.flatMap (fun p => match alook p.2 u with
        | some l => l
        | none => []))).2.adj u = some (delKey a0 u) := by
      rw [hG2w u, hau]
      rfl
    have hout : (delEdges g (g.adj.flatMap (fun p => match alook p.2 u with
        | some l => l
        | none => []))).2.iteroutedges u
        = some ((delKey a0 u).flatMap (fun q => q.2)) := by
      unfold MultiGraph.iteroutedges
      simp only [hG2u]
    obtain ⟨t1, t2, t3, t4, t5, t6⟩ := sweepD_out u (delKey a0 u)
      (delEdges g (g.adj.flatMap (fun p => match alook p.2 u with
        | some l => l
        | none => []))).2 s2 (by rw [s3]; exact hd) hG2u
    have heq : g.del_node u = (none,
        { (delEdges (delEdges g (g.adj.flatMap (fun p => match alook p.2 u with
            | some l => l
            | none => []))).2 ((delKey a0 u).flatMap (fun q => q.2))).2 with
          adj := delKey (delEdges (delEdges g (g.adj.flatMap (fun p =>
            match alook p.2 u with
            | some l => l
            | none => []))).2 ((delKey a0 u).flatMap (fun q => q.2))).2.adj u }) :=
      del_node_eq_of_ok_dir hinE s1 (by rw [s3]; exact hd) hout t1
    have hG3w : ∀ w, w ≠ u → alook (delEdges (delEdges g (g.adj.flatMap (fun p =>
        match alook p.2 u with
        | some l => l
        | none => []))).2 ((delKey a0 u).flatMap (fun q => q.2))).2.adj w
        = (alook g.adj w).map (fun a2 => delKey a2 u) := by
      intro w hw
      rw [t5 w hw, hG2w w]
    obtain ⟨f1, f2, f3, f4, f5, f6⟩ := del_node_final_facts hg t2 t6 hG3w
    rw [heq]
    exact ⟨rfl, f1, by show _ = g.directed; rw [t3, s3], f2, f3, f4, f5, f6⟩
  · -- undirected: one sweep over the adjacency dict of u, then key removal
    have hd2 : g.directed = false := by
      cases hdd : g.directed
      · rfl
      · exact absurd hdd hd
    have hinE : g.iterinedges u = some (a0.flatMap (fun q => q.2.map Edge.inv)) := by
      unfold MultiGraph.iterinedges
      rw [if_neg hd]
      simp only [hau]
    obtain ⟨s1, s2, s3, s4, s5, s6⟩ := sweepU_adj u a0 g hg hd2 hau
    have heq : g.del_node u = (none,
        { (delEdges g (a0.flatMap (fun q => q.2.map Edge.inv))).2 with
          adj := delKey (delEdges g (a0.flatMap (fun q => q.2.map Edge.inv))).2.adj u }) :=
      del_node_eq_of_ok hinE s1 (by rw [s3]; exact hd2)
    obtain ⟨f1, f2, f3, f4, f5, f6⟩ := del_node_final_facts hg s2 s5 s6
    rw [heq]
    exact ⟨rfl, f1, by show _ = g.directed; rw [s3], f2, f3, f4, f5, f6⟩

/-! Invariants hold in every reachable multigraph. -/

theorem GInv_empty (d : Bool) : GInv { directed := d, adj := [] } := by
  refine ⟨?_, ?_, ?_, ?_, ?_, ?_⟩ <;> simp [WFo, WFi, I1, I2, I6, I3]

theorem GInv_foldl_add_node {β : Type} (f : β → Nat) (l : List β) :
    ∀ {g : MultiGraph}, GInv g → GInv (l.foldl (fun h x => h.add_node (f x)) g) := by
  induction l with
  | nil => intro g hg; exact hg
  | cons x rest ih =>
    intro g hg
    exact ih (GInv_add_node (f x) hg)

theorem GInv_foldl_add_edge {β : Type} (f : β → Edge) (l : List β) :
    ∀ {g : MultiGraph}, GInv g → GInv (l.foldl (fun h x => h.add_edge (f x)) g) := by
  induction l with
  | nil => intro g hg; exact hg
  | cons x rest ih =>
    intro g hg
    exact ih (GInv_add_edge (f x) hg)

theorem GInv_add_multigraph {g : MultiGraph} (other : MultiGraph) (hg : GInv g) :
    GInv (g.add_multigraph other) := by
  unfold MultiGraph.add_multigraph
  exact GInv_foldl_add_edge (fun ed => ed) other.iteredges
    (GInv_foldl_add_node (fun p => p.1) other.adj hg)

theorem reachable_GInv {g : MultiGraph} (h : Reachable g) : GInv g := by
  induction h with
  | empty d => exact GInv_empty d
  | addN u _ ih => exact GInv_add_node u ih
  | addE ed _ ih => exact GInv_add_edge ed ih
  | delE ed _ hok ih => exact GInv_del_edge ed ih hok
  | delN u hr hok ih =>
    rename_i g0
    cases hau : alook g0.adj u with
    | none =>
      rw [del_node_absent ih hau] at hok
      simp at hok
    | some a0 => exact (del_node_present ih hau).2.1
  | merge other _ ih => exact GInv_add_multigraph other ih

/-! Counting machinery: sums of per-entry weights over the adjacency dict. -/

theorem updKey_updKey {α : Type} (m : List (Nat × α)) (k : Nat) (f f2 : α → α) :
    updKey (updKey m k f) k f2 = updKey m k (fun v => f2 (f v)) := by
  induction m with
  | nil => rfl
  | cons p rest ih =>
    by_cases hp : p.1 = k
    · simp [updKey, hp, ih]
    · simp [updKey, hp, ih]

theorem updKey_comm {α : Type} (m : List (Nat × α)) {k k2 : Nat} (f f2 : α → α)
    (hk : k ≠ k2) :
    updKey (updKey m k f) k2 f2 = updKey (updKey m k2 f2) k f := by
  induction m with
  | nil => rfl
  | cons p rest ih =>
    by_cases hp : p.1 = k
    · have hp2 : p.1 ≠ k2 := fun h => hk (hp.symm.trans h)
      simp [updKey, hp, hp2, ih, hk, Ne.symm hk]
    · by_cases hp2 : p.1 = k2
      · simp [updKey, hp, hp2, ih, hk, Ne.symm hk]
      · simp [updKey, hp, hp2, ih]

theorem sum_map_updKey {α : Type} (h : Nat × α → Nat) {m : List (Nat × α)} {k : Nat}
    {v : α} (f : α → α) (hnd : (m.map Prod.fst).Nodup) (ha : alook m k = some v) :
    ((updKey m k f).map h).sum + h (k, v) = (m.map h).sum + h (k, f v) := by
  induction m with
  | nil => cases ha
  | cons p rest ih =>
    rw [List.map_cons, List.nodup_cons] at hnd
    by_cases hp : p.1 = k
    · have hv : v = p.2 := by
        unfold alook at ha
        rw [if_pos hp] at ha
        injection ha with h1
        exact h1.symm
      have hrest : updKey rest k f = rest := by
        apply updKey_of_not_mem
        rw [← hp]
        exact hnd.1
      subst hv
      subst hp
      simp [updKey, hrest]
      omega
    · have ha2 : alook rest k = some v := by
        unfold alook at ha
        rw [if_neg hp] at ha
        exact ha
      have := ih hnd.2 ha2
      simp [updKey, hp]
      omega

theorem sum_map_delKey {α : Type} (h : Nat × α → Nat) {m : List (Nat × α)} {k : Nat}
    {v : α} (hnd : (m.map Prod.fst).Nodup) (ha : alook m k = some v) :
    ((delKey m k).map h).sum + h (k, v) = (m.map h).sum := by
  induction m with
  | nil => cases ha
  | cons p rest ih =>
    rw [List.map_cons, List.nodup_cons] at hnd
    by_cases hp : p.1 = k
    · have hv : v = p.2 := by
        unfold alook at ha
        rw [if_pos hp] at ha
        injection ha with h1
        exact h1.symm
      subst hv
      subst hp
      simp [delKey]
      omega
    · have ha2 : alook rest k = some v := by
        unfold alook at ha
        rw [if_neg hp] at ha
        exact ha
      have := ih hnd.2 ha2
      simp [delKey, hp]
      omega

theorem sum_map_append_entry {α : Type} (h : Nat × α → Nat) (m : List (Nat × α))
    (p : Nat × α) : ((m ++ [p]).map h).sum = (m.map h).sum + h p := by
  simp

theorem sum_eq_single_key {α : Type} (h : Nat × α → Nat) {m : List (Nat × α)} {k : Nat}
    {v : α} (hnd : (m.map Prod.fst).Nodup) (ha : alook m k = some v)
    (hzero : ∀ p ∈ m, p.1 ≠ k → h p = 0) : (m.map h).sum = h (k, v) := by
  induction m with
  | nil => cases ha
  | cons p rest ih =>
    rw [List.map_cons, List.nodup_cons] at hnd
    by_cases hp : p.1 = k
    · have hv : v = p.2 := by
        unfold alook at ha
        rw [if_pos hp] at ha
        injection ha with h1
        exact h1.symm
      subst hv
      have hrest : ∀ q ∈ rest, h q = 0 := by
        intro q hq
        apply hzero q (List.mem_cons_of_mem _ hq)
        intro hqk
        exact hnd.1 (by rw [← hp] at hqk; exact (List.mem_map.2 ⟨q, hq, hqk⟩))
      have hsum0 : (rest.map h).sum = 0 := by
        apply List.sum_eq_zero
        intro x hx
        obtain ⟨q, hq, hxq⟩ := List.mem_map.1 hx
        rw [← hxq]
        exact hrest q hq
      subst hp
      simp [hsum0]
    · have ha2 : alook rest k = some v := by
        unfold alook at ha
        rw [if_neg hp] at ha
        exact ha
      have h0 : h p = 0 := hzero p (List.mem_cons_self p rest) hp
      have := ih hnd.2 ha2 (fun q hq => hzero q (List.mem_cons_of_mem _ hq))
      simp [h0, this]

theorem sum_eq_zero_of_all {α : Type} (h : Nat × α → Nat) {m : List (Nat × α)}
    (hzero : ∀ p ∈ m, h p = 0) : (m.map h).sum = 0 := by
  apply List.sum_eq_zero
  intro x hx
  obtain ⟨q, hq, hxq⟩ := List.mem_map.1 hx
  rw [← hxq]
  exact hzero q hq

theorem sum_adj_add_node (h : Nat × Adj → Nat) (g : MultiGraph) (u : Nat)
    (h0 : h (u, []) = 0) :
    ((g.add_node u).adj.map h).sum = (g.adj.map h).sum := by
  unfold MultiGraph.add_node
  split
  · rfl
  · show (((g.adj ++ [(u, [])]).map h).sum) = (g.adj.map h).sum
    rw [sum_map_append_entry, h0]
    omega

/-- The adjacency dict of `edge.source` after the two `add_node` calls at the
start of `add_edge` (the empty dict if the node was freshly created). -/
def srcA (g : MultiGraph) (ed : Edge) : Adj :=
  (alook ((g.add_node ed.source).add_node ed.target).adj ed.source).getD []

/-- The adjacency dict of `edge.target` after the two `add_node` calls at the
start of `add_edge`. -/
def tgtA (g : MultiGraph) (ed : Edge) : Adj :=
  (alook ((g.add_node ed.source).add_node ed.target).adj ed.target).getD []

theorem alook_srcA (g : MultiGraph) (ed : Edge) :
    alook ((g.add_node ed.source).add_node ed.target).adj ed.source =
      some (srcA g ed) := by
  have h := alook_addnodes_fst g ed.source ed.target
  unfold srcA
  cases halt : alook ((g.add_node ed.source).add_node ed.target).adj ed.source with
  | none => rw [halt] at h; cases h
  | some a => rfl

theorem alook_tgtA (g : MultiGraph) (ed : Edge) :
    alook ((g.add_node ed.source).add_node ed.target).adj ed.target =
      some (tgtA g ed) := by
  have h := alook_addnodes_snd g ed.source ed.target
  unfold tgtA
  cases halt : alook ((g.add_node ed.source).add_node ed.target).adj ed.target with
  | none => rw [halt] at h; cases h
  | some a => rfl

theorem add_edge_adj_dir {g : MultiGraph} (ed : Edge) (hd : g.directed = true) :
    (g.add_edge ed).adj =
      updKey ((g.add_node ed.source).add_node ed.target).adj ed.source
        (fun a => appendB (addB a ed.target) ed.target ed) := by
  unfold MultiGraph.add_edge
  rw [hd]
  simp only [eq_self_iff_true, if_true, Bool.true_eq_false, false_and, if_false]
  rw [updKey_updKey]

theorem add_edge_adj_loop {g : MultiGraph} (ed : Edge) (hd : g.directed = false)
    (hst : ed.source = ed.target) :
    (g.add_edge ed).adj =
      updKey ((g.add_node ed.source).add_node ed.target).adj ed.source
        (fun a => appendB (addB a ed.source) ed.source ed) := by
  unfold MultiGraph.add_edge
  rw [hd]
  simp only [Bool.false_eq_true, if_false, true_and]
  rw [if_neg (show ¬ed.source ≠ ed.target from fun hc => hc hst)]
  rw [← hst, updKey_updKey, updKey_updKey]
  apply congrArg
  funext a
  show appendB (addB (addB a ed.source) ed.source) ed.source ed = _
  rw [addB_addB]

theorem add_edge_adj_undir {g : MultiGraph} (ed : Edge) (hd : g.directed = false)
    (hst : ed.source ≠ ed.target) :
    (g.add_edge ed).adj =
      updKey (updKey ((g.add_node ed.source).add_node ed.target).adj ed.source
          (fun a => appendB (addB a ed.target) ed.target ed)) ed.target
        (fun a => appendB (addB a ed.source) ed.source ed.inv) := by
  unfold MultiGraph.add_edge
  rw [hd]
  simp only [Bool.false_eq_true, if_false, true_and]
  rw [if_pos hst]
  nth_rewrite 2 [updKey_comm _ _ _ hst]
  rw [updKey_updKey]
  rw [updKey_comm _ _ _ hst]
  rw [updKey_updKey]
  rw [updKey_comm _ _ _ (Ne.symm hst)]

theorem sum_map_appendB_addB (h2 : Nat × List Edge → Nat) {a : Adj} (t : Nat) (ed : Edge)
    (hnd : (a.map Prod.fst).Nodup) (h20 : h2 (t, []) = 0) :
    ((appendB (addB a t) t ed).map h2).sum + h2 (t, (alook a t).getD []) =
      (a.map h2).sum + h2 (t, (alook a t).getD [] ++ [ed]) := by
  cases hat : alook a t with
  | some l =>
    have haB : addB a t = a := by
      unfold addB
      rw [hat]
      rfl
    rw [haB]
    unfold appendB
    have := sum_map_updKey h2 (fun l => l ++ [ed]) hnd hat
    simpa using this
  | none =>
    have hnotm : t ∉ a.map Prod.fst := by
      rw [← alook_eq_none_iff]
      exact hat
    have haB : addB a t = a ++ [(t, [])] := by
      unfold addB
      rw [hat]
      rfl
    have hnd2 : ((a ++ [(t, [])]).map Prod.fst).Nodup := by
      rw [List.map_append]
      apply List.Nodup.append hnd (by simp)
      intro x hx hx2
      simp at hx2
      subst hx2
      exact hnotm hx
    have hat2 : alook (a ++ [(t, [])]) t = some [] := by
      rw [alook_append, hat]
      simp [alook]
    rw [haB]
    unfold appendB
    have := sum_map_updKey h2 (fun l => l ++ [ed]) hnd2 hat2
    rw [sum_map_append_entry] at this
    simp only [List.nil_append] at this
    simp only [Option.getD_none, List.nil_append]
    rw [h20] at this ⊢
    omega

theorem sum_map_delB (h2 : Nat × List Edge → Nat) {a : Adj} {t : Nat} {l : List Edge}
    (l2 : List Edge) (hnd : (a.map Prod.fst).Nodup) (hl : alook a t = some l)
    (h20 : h2 (t, []) = 0) :
    ((if l2 = [] then delKey a t else updKey a t (fun _ => l2)).map h2).sum + h2 (t, l) =
      (a.map h2).sum + h2 (t, l2) := by
  by_cases h0 : l2 = []
  · rw [if_pos h0, h0, h20, sum_map_delKey h2 hnd hl]
    omega
  · rw [if_neg h0]
    exact sum_map_updKey h2 (fun _ => l2) hnd hl

theorem sum_adj_add_edge_dir (h : Nat × Adj → Nat) {g : MultiGraph} (ed : Edge)
    (hd : g.directed = true) (hwfo : WFo g) (h0 : ∀ x, h (x, []) = 0) :
    ((g.add_edge ed).adj.map h).sum + h (ed.source, srcA g ed) =
      (g.adj.map h).sum +
        h (ed.source, appendB (addB (srcA g ed) ed.target) ed.target ed) := by
  have hwfo1 : ((((g.add_node ed.source).add_node ed.target).adj.map Prod.fst)).Nodup :=
    WFo_add_node _ (WFo_add_node _ hwfo)
  rw [add_edge_adj_dir ed hd]
  have e2 : ((updKey ((g.add_node ed.source).add_node ed.target).adj ed.source
        (fun a => appendB (addB a ed.target) ed.target ed)).map h).sum
        + h (ed.source, srcA g ed) =
      ((((g.add_node ed.source).add_node ed.target).adj.map h)).sum
        + h (ed.source, appendB (addB (srcA g ed) ed.target) ed.target ed) :=
    sum_map_updKey h (fun a => appendB (addB a ed.target) ed.target ed) hwfo1
      (alook_srcA g ed)
  rw [sum_adj_add_node h _ _ (h0 _), sum_adj_add_node h _ _ (h0 _)] at e2
  exact e2

theorem sum_adj_add_edge_loop (h : Nat × Adj → Nat) {g : MultiGraph} (ed : Edge)
    (hd : g.directed = false) (hst : ed.source = ed.target) (hwfo : WFo g)
    (h0 : ∀ x, h (x, []) = 0) :
    ((g.add_edge ed).adj.map h).sum + h (ed.source, srcA g ed) =
      (g.adj.map h).sum +
        h (ed.source, appendB (addB (srcA g ed) ed.source) ed.source ed) := by
  have hwfo1 : ((((g.add_node ed.source).add_node ed.target).adj.map Prod.fst)).Nodup :=
    WFo_add_node _ (WFo_add_node _ hwfo)
  rw [add_edge_adj_loop ed hd hst]
  have e2 : ((updKey ((g.add_node ed.source).add_node ed.target).adj ed.source
        (fun a => appendB (addB a ed.source) ed.source ed)).map h).sum
        + h (ed.source, srcA g ed) =
      ((((g.add_node ed.source).add_node ed.target).adj.map h)).sum
        + h (ed.source, appendB (addB (srcA g ed) ed.source) ed.source ed) :=
    sum_map_updKey h (fun a => appendB (addB a ed.source) ed.source ed) hwfo1
      (alook_srcA g ed)
  rw [sum_adj_add_node h _ _ (h0 _), sum_adj_add_node h _ _ (h0 _)] at e2
  exact e2

theorem sum_adj_add_edge_undir (h : Nat × Adj → Nat) {g : MultiGraph} (ed : Edge)
    (hd : g.directed = false) (hst : ed.source ≠ ed.target) (hwfo : WFo g)
    (h0 : ∀ x, h (x, []) = 0) :
    ((g.add_edge ed).adj.map h).sum + h (ed.source, srcA g ed)
        + h (ed.target, tgtA g ed) =
      (g.adj.map h).sum +
        h (ed.source, appendB (addB (srcA g ed) ed.target) ed.target ed) +
        h (ed.target, appendB (addB (tgtA g ed) ed.source) ed.source ed.inv) := by
  have hwfo1 : ((((g.add_node ed.source).add_node ed.target).adj.map Prod.fst)).Nodup :=
    WFo_add_node _ (WFo_add_node _ hwfo)
  rw [add_edge_adj_undir ed hd hst]
  have hnd1 : ((updKey ((g.add_node ed.source).add_node ed.target).adj ed.source
      (fun a => appendB (addB a ed.target) ed.target ed)).map Prod.fst).Nodup := by
    rw [keys_updKey]
    exact hwfo1
  have hat : alook (updKey ((g.add_node ed.source).add_node ed.target).adj ed.source
      (fun a => appendB (addB a ed.target) ed.target ed)) ed.target =
      some (tgtA g ed) := by
    rw [alook_updKey_ne _ _ hst]
    exact alook_tgtA g ed
  have e1 : ((updKey (updKey ((g.add_node ed.source).add_node ed.target).adj ed.source
        (fun a => appendB (addB a ed.target) ed.target ed)) ed.target
        (fun a => appendB (addB a ed.source) ed.source ed.inv)).map h).sum
        + h (ed.target, tgtA g ed) =
      ((updKey ((g.add_node ed.source).add_node ed.target).adj ed.source
        (fun a => appendB (addB a ed.target) ed.target ed)).map h).sum
        + h (ed.target, appendB (addB (tgtA g ed) ed.source) ed.source ed.inv) :=
    sum_map_updKey h (fun a => appendB (addB a ed.source) ed.source ed.inv) hnd1 hat
  have e2 : ((updKey ((g.add_node ed.source).add_node ed.target).adj ed.source
        (fun a => appendB (addB a ed.target) ed.target ed)).map h).sum
        + h (ed.source, srcA g ed) =
      ((((g.add_node ed.source).add_node ed.target).adj.map h)).sum
        + h (ed.source, appendB (addB (srcA g ed) ed.target) ed.target ed) :=
    sum_map_updKey h (fun a => appendB (addB a ed.target) ed.target ed) hwfo1
      (alook_srcA g ed)
  rw [sum_adj_add_node h _ _ (h0 _), sum_adj_add_node h _ _ (h0 _)] at e2
  omega

theorem srcA_eq (g : MultiGraph) (ed : Edge) :
    srcA g ed = (alook g.adj ed.source).getD [] := by
  unfold srcA
  rw [alook_addnodes_fst]
  rfl

theorem tgtA_eq (g : MultiGraph) (ed : Edge) :
    tgtA g ed = (alook g.adj ed.target).getD [] := by
  unfold tgtA
  rw [alook_addnodes_snd]
  rfl

/-- The per-node weight summed by the `edges` accumulator of `e()`. -/
def hTE : Nat × Adj → Nat := fun p => (p.2.map (fun q => q.2.length)).sum

/-- The per-node weight summed by the `loops` accumulator of `e()`. -/
def hLE : Nat × Adj → Nat := fun p => match alook p.2 p.1 with
  | some l => l.length
  | none => 0

theorem totalEntries_eq (g : MultiGraph) : totalEntries g = (g.adj.map hTE).sum := rfl

theorem loopEntries_eq (g : MultiGraph) : loopEntries g = (g.adj.map hLE).sum := rfl

/-- The edges yielded by `iteredges()` from one node's adjacency dict, for a
fixed directedness flag. -/
def iterF (d : Bool) (p : Nat × Adj) : List Edge :=
  p.2.flatMap (fun q => if d || decide (p.1 ≤ q.1) then q.2 else [])

theorem iteredges_eq_flat (g : MultiGraph) :
    g.iteredges = g.adj.flatMap (iterF g.directed) := rfl

/-- The number of edges `iteredges()` yields from one node, for a fixed
directedness flag. -/
def hIL (d : Bool) : Nat × Adj → Nat := fun p => (iterF d p).length

theorem length_iteredges_eq (g : MultiGraph) :
    g.iteredges.length = (g.adj.map (hIL g.directed)).sum := by
  rw [iteredges_eq_flat, List.length_flatMap]
  rfl

theorem iterF_length (d : Bool) (x : Nat) (a : Adj) :
    (iterF d (x, a)).length =
      (a.map (fun q => if d || decide (x ≤ q.1) then q.2.length else 0)).sum := by
  show ((a.flatMap (fun q => if d || decide (x ≤ q.1) then q.2 else [])).length) = _
  rw [List.length_flatMap]
  simp only [Function.comp_def]
  have hf : (fun q : Nat × List Edge =>
        (if d || decide (x ≤ q.1) then q.2 else []).length) =
      fun q : Nat × List Edge => if d || decide (x ≤ q.1) then q.2.length else 0 := by
    funext q
    split
    · rfl
    · rfl
  rw [hf]

theorem hTE_empty (x : Nat) : hTE (x, []) = 0 := rfl

theorem hLE_empty (x : Nat) : hLE (x, []) = 0 := rfl

theorem hIL_empty (d : Bool) (x : Nat) : hIL d (x, []) = 0 := rfl

theorem hTE_appendB_addB {A : Adj} (x t : Nat) (ed : Edge)
    (hnd : (A.map Prod.fst).Nodup) :
    hTE (x, appendB (addB A t) t ed) = hTE (x, A) + 1 := by
  have h := sum_map_appendB_addB (fun q => q.2.length) t ed hnd rfl
  show ((appendB (addB A t) t ed).map (fun q => q.2.length)).sum =
    (A.map (fun q => q.2.length)).sum + 1
  simp only [List.length_append, List.length_cons, List.length_nil] at h
  omega

theorem hLE_appendB_addB_ne {A : Adj} {x t : Nat} (ed : Edge) (hx : x ≠ t) :
    hLE (x, appendB (addB A t) t ed) = hLE (x, A) := by
  show (match alook (appendB (addB A t) t ed) x with
    | some l => l.length | none => 0) =
    (match alook A x with | some l => l.length | none => 0)
  rw [appendB_alook_ne _ ed (Ne.symm hx), addB_alook_ne _ (Ne.symm hx)]

theorem hLE_appendB_addB_self {A : Adj} (t : Nat) (ed : Edge) :
    hLE (t, appendB (addB A t) t ed) = hLE (t, A) + 1 := by
  show (match alook (appendB (addB A t) t ed) t with
    | some l => l.length | none => 0) =
    (match alook A t with | some l => l.length | none => 0) + 1
  rw [appendB_alook_self, addB_alook_self]
  cases h : alook A t with
  | none => simp [h]
  | some l => simp [h]

theorem hIL_appendB_addB {A : Adj} (d : Bool) (x t : Nat) (ed : Edge)
    (hnd : (A.map Prod.fst).Nodup) :
    hIL d (x, appendB (addB A t) t ed) =
      hIL d (x, A) + (if d || decide (x ≤ t) then 1 else 0) := by
  have h20 : (fun q : Nat × List Edge =>
      if d || decide (x ≤ q.1) then q.2.length else 0) (t, []) = 0 := by
    show (if d || decide (x ≤ t) then ([] : List Edge).length else 0) = 0
    split
    · rfl
    · rfl
  have h := sum_map_appendB_addB
    (fun q => if d || decide (x ≤ q.1) then q.2.length else 0) t ed hnd h20
  show (iterF d (x, appendB (addB A t) t ed)).length = (iterF d (x, A)).length + _
  rw [iterF_length, iterF_length]
  simp only [List.length_append, List.length_cons, List.length_nil] at h
  by_cases hc : (d || decide (x ≤ t)) = true
  · simp only [hc, if_true] at h ⊢
    omega
  · rw [Bool.not_eq_true] at hc
    simp only [hc, Bool.false_eq_true, if_false] at h ⊢
    omega

theorem srcA_keys_nodup {g : MultiGraph} (hwfi : WFi g) (ed : Edge) :
    ((srcA g ed).map Prod.fst).Nodup := by
  rw [srcA_eq]
  exact getD_keys_nodup hwfi ed.source

theorem tgtA_keys_nodup {g : MultiGraph} (hwfi : WFi g) (ed : Edge) :
    ((tgtA g ed).map Prod.fst).Nodup := by
  rw [tgtA_eq]
  exact getD_keys_nodup hwfi ed.target

theorem TE_add_edge {g : MultiGraph} (ed : Edge) (hwfo : WFo g) (hwfi : WFi g) :
    totalEntries (g.add_edge ed) =
      totalEntries g + (if g.directed = false ∧ ed.source ≠ ed.target then 2 else 1) := by
  cases hd : g.directed with
  | true =>
    rw [if_neg (fun hc => by cases hc.1)]
    have h := sum_adj_add_edge_dir hTE ed hd hwfo (fun x => hTE_empty x)
    rw [hTE_appendB_addB _ _ _ (srcA_keys_nodup hwfi ed)] at h
    rw [totalEntries_eq, totalEntries_eq]
    omega
  | false =>
    by_cases hst : ed.source = ed.target
    · rw [if_neg (fun hc => hc.2 hst)]
      have h := sum_adj_add_edge_loop hTE ed hd hst hwfo (fun x => hTE_empty x)
      rw [hTE_appendB_addB _ _ _ (srcA_keys_nodup hwfi ed)] at h
      rw [totalEntries_eq, totalEntries_eq]
      omega
    · rw [if_pos ⟨rfl, hst⟩]
      have h := sum_adj_add_edge_undir hTE ed hd hst hwfo (fun x => hTE_empty x)
      rw [hTE_appendB_addB _ _ _ (srcA_keys_nodup hwfi ed),
          hTE_appendB_addB _ _ _ (tgtA_keys_nodup hwfi ed)] at h
      rw [totalEntries_eq, totalEntries_eq]
      omega

theorem LE_add_edge {g : MultiGraph} (ed : Edge) (hwfo : WFo g) (hwfi : WFi g) :
    loopEntries (g.add_edge ed) =
      loopEntries g + (if ed.source = ed.target then 1 else 0) := by
  cases hd : g.directed with
  | true =>
    have h := sum_adj_add_edge_dir hLE ed hd hwfo (fun x => hLE_empty x)
    by_cases hst : ed.source = ed.target
    · rw [if_pos hst]
      rw [hst] at h
      rw [hLE_appendB_addB_self] at h
      rw [loopEntries_eq, loopEntries_eq]
      omega
    · rw [if_neg hst]
      rw [hLE_appendB_addB_ne _ hst] at h
      rw [loopEntries_eq, loopEntries_eq]
      omega
  | false =>
    by_cases hst : ed.source = ed.target
    · rw [if_pos hst]
      have h := sum_adj_add_edge_loop hLE ed hd hst hwfo (fun x => hLE_empty x)
      rw [hLE_appendB_addB_self] at h
      rw [loopEntries_eq, loopEntries_eq]
      omega
    · rw [if_neg hst]
      have h := sum_adj_add_edge_undir hLE ed hd hst hwfo (fun x => hLE_empty x)
      rw [hLE_appendB_addB_ne _ hst, hLE_appendB_addB_ne _ (Ne.symm hst)] at h
      rw [loopEntries_eq, loopEntries_eq]
      omega

theorem IL_add_edge {g : MultiGraph} (ed : Edge) (hwfo : WFo g) (hwfi : WFi g) :
    (g.add_edge ed).iteredges.length = g.iteredges.length + 1 := by
  rw [length_iteredges_eq, length_iteredges_eq, add_edge_directed]
  cases hd : g.directed with
  | true =>
    have h := sum_adj_add_edge_dir (hIL true) ed hd hwfo (fun x => hIL_empty true x)
    rw [hIL_appendB_addB _ _ _ _ (srcA_keys_nodup hwfi ed)] at h
    split_ifs at h with hc
    · omega
    · exact absurd (by simp) hc
  | false =>
    by_cases hst : ed.source = ed.target
    · have h := sum_adj_add_edge_loop (hIL false) ed hd hst hwfo
        (fun x => hIL_empty false x)
      rw [hIL_appendB_addB _ _ _ _ (srcA_keys_nodup hwfi ed)] at h
      split_ifs at h with hc
      · omega
      · exact absurd (by simp) hc
    · have h := sum_adj_add_edge_undir (hIL false) ed hd hst hwfo
        (fun x => hIL_empty false x)
      rw [hIL_appendB_addB _ _ _ _ (srcA_keys_nodup hwfi ed),
          hIL_appendB_addB _ _ _ _ (tgtA_keys_nodup hwfi ed)] at h
      simp only [Bool.false_or, decide_eq_true_eq] at h
      split_ifs at h <;> omega

theorem e_add_edge {g : MultiGraph} (ed : Edge) (hwfo : WFo g) (hwfi : WFi g) :
    (g.add_edge ed).e = g.e + 1 := by
  cases hd : g.directed with
  | true =>
    have hTE2 := TE_add_edge ed hwfo hwfi
    rw [hd] at hTE2
    rw [if_neg (fun hc => by cases hc.1)] at hTE2
    unfold MultiGraph.e
    rw [add_edge_directed, hd]
    rw [if_pos rfl, if_pos rfl]
    omega
  | false =>
    have hTE2 := TE_add_edge ed hwfo hwfi
    have hLE2 := LE_add_edge ed hwfo hwfi
    rw [hd] at hTE2
    unfold MultiGraph.e
    rw [add_edge_directed, hd]
    rw [if_neg (fun hc => by cases hc), if_neg (fun hc => by cases hc)]
    by_cases hst : ed.source = ed.target
    · rw [if_neg (fun hc => hc.2 hst)] at hTE2
      rw [if_pos hst] at hLE2
      rw [hTE2, hLE2]
      omega
    · rw [if_pos ⟨rfl, hst⟩] at hTE2
      rw [if_neg hst] at hLE2
      rw [hTE2, hLE2]
      omega

theorem del_edge_adj_simple {g : MultiGraph} {ed : Edge} {a : Adj} {l l2 : List Edge}
    (hcase : g.directed = true ∨ ed.source = ed.target)
    (ha : alook g.adj ed.source = some a) (hl : alook a ed.target = some l)
    (hr : removeFirst l ed = some l2) :
    (g.del_edge ed).2.adj =
      (if l2 = [] then updKey g.adj ed.source (fun a2 => delKey a2 ed.target)
       else updKey g.adj ed.source (fun a2 => updKey a2 ed.target (fun _ => l2))) := by
  have hcond : ¬(g.directed = false ∧ ed.source ≠ ed.target) := by
    rcases hcase with hc | hc
    · intro hcon; rw [hc] at hcon; cases hcon.1
    · intro hcon; exact hcon.2 hc
  have hok := delHalf_ok ha hl hr
  have heq : g.del_edge ed = (none, { g with adj :=
      (if l2 = [] then updKey g.adj ed.source (fun a2 => delKey a2 ed.target)
       else updKey g.adj ed.source (fun a2 => updKey a2 ed.target (fun _ => l2))) }) := by
    unfold MultiGraph.del_edge
    split
    · next er m1 h =>
        rw [hok] at h
        injection h with h1 h2
        cases h1
    · next m1 h =>
        rw [hok] at h
        injection h with h1 h2
        subst h2
        rw [if_neg hcond]
  rw [heq]

theorem del_edge_adj_undir {g : MultiGraph} {ed : Edge} {a at2 : Adj}
    {l l2 lm lm2 : List Edge}
    (hd : g.directed = false) (hne : ed.source ≠ ed.target)
    (ha : alook g.adj ed.source = some a) (hl : alook a ed.target = some l)
    (hr : removeFirst l ed = some l2)
    (hat : alook g.adj ed.target = some at2) (hlm : alook at2 ed.source = some lm)
    (hrm : removeFirst lm ed.inv = some lm2) :
    (g.del_edge ed).2.adj =
      (if lm2 = [] then
        updKey (if l2 = [] then updKey g.adj ed.source (fun a2 => delKey a2 ed.target)
          else updKey g.adj ed.source (fun a2 => updKey a2 ed.target (fun _ => l2)))
          ed.target (fun a2 => delKey a2 ed.source)
       else
        updKey (if l2 = [] then updKey g.adj ed.source (fun a2 => delKey a2 ed.target)
          else updKey g.adj ed.source (fun a2 => updKey a2 ed.target (fun _ => l2)))
          ed.target (fun a2 => updKey a2 ed.source (fun _ => lm2))) := by
  have ham1 : alook (if l2 = [] then updKey g.adj ed.source (fun a2 => delKey a2 ed.target)
      else updKey g.adj ed.source (fun a2 => updKey a2 ed.target (fun _ => l2))) ed.target
      = some at2 := by
    split <;> rw [alook_updKey_ne _ _ hne] <;> exact hat
  have hok := delHalf_ok ha hl hr
  have hok2 := delHalf_ok ham1 hlm hrm
  have heq : g.del_edge ed = (none, { g with adj :=
      (if lm2 = [] then
        updKey (if l2 = [] then updKey g.adj ed.source (fun a2 => delKey a2 ed.target)
          else updKey g.adj ed.source (fun a2 => updKey a2 ed.target (fun _ => l2)))
          ed.target (fun a2 => delKey a2 ed.source)
       else
        updKey (if l2 = [] then updKey g.adj ed.source (fun a2 => delKey a2 ed.target)
          else updKey g.adj ed.source (fun a2 => updKey a2 ed.target (fun _ => l2)))
          ed.target (fun a2 => updKey a2 ed.source (fun _ => lm2))) }) := by
    unfold MultiGraph.del_edge
    split
    · next er m1 h =>
        rw [hok] at h
        injection h with h1 h2
        cases h1
    · next m1 h =>
        rw [hok] at h
        injection h with h1 h2
        subst h2
        rw [if_pos (show g.directed = false ∧ ed.source ≠ ed.target from ⟨hd, hne⟩)]
        rw [hok2]
  rw [heq]

theorem sum_adj_delB (h : Nat × Adj → Nat) {m : List (Nat × Adj)} {s : Nat} (t : Nat)
    {a : Adj} (l2 : List Edge) (hnd : (m.map Prod.fst).Nodup) (ha : alook m s = some a) :
    ((if l2 = [] then updKey m s (fun a2 => delKey a2 t)
        else updKey m s (fun a2 => updKey a2 t (fun _ => l2))).map h).sum + h (s, a) =
      (m.map h).sum +
        h (s, if l2 = [] then delKey a t else updKey a t (fun _ => l2)) := by
  by_cases h0 : l2 = []
  · rw [if_pos h0, if_pos h0]
    exact sum_map_updKey h (fun a2 => delKey a2 t) hnd ha
  · rw [if_neg h0, if_neg h0]
    exact sum_map_updKey h (fun a2 => updKey a2 t (fun _ => l2)) hnd ha

theorem hTE_delB (x : Nat) {a : Adj} {t : Nat} {l : List Edge} (l2 : List Edge)
    (hnd : (a.map Prod.fst).Nodup) (hl : alook a t = some l) :
    hTE (x, if l2 = [] then delKey a t else updKey a t (fun _ => l2)) + l.length =
      hTE (x, a) + l2.length :=
  sum_map_delB (fun q => q.2.length) l2 hnd hl rfl

theorem hLE_delB_ne (x : Nat) (a : Adj) (t : Nat) (l2 : List Edge) (hx : x ≠ t) :
    hLE (x, if l2 = [] then delKey a t else updKey a t (fun _ => l2)) = hLE (x, a) := by
  show (match alook (if l2 = [] then delKey a t else updKey a t (fun _ => l2)) x with
    | some l0 => l0.length | none => 0) =
    (match alook a x with | some l0 => l0.length | none => 0)
  by_cases h0 : l2 = []
  · rw [if_pos h0, alook_delKey_ne _ (Ne.symm hx)]
  · rw [if_neg h0, alook_updKey_ne _ _ (Ne.symm hx)]

theorem hLE_delB_self {a : Adj} {t : Nat} {l : List Edge} (l2 : List Edge)
    (hnd : (a.map Prod.fst).Nodup) (hl : alook a t = some l) :
    hLE (t, if l2 = [] then delKey a t else updKey a t (fun _ => l2)) + l.length =
      hLE (t, a) + l2.length := by
  show (match alook (if l2 = [] then delKey a t else updKey a t (fun _ => l2)) t with
    | some l0 => l0.length | none => 0) + l.length =
    (match alook a t with | some l0 => l0.length | none => 0) + l2.length
  rw [hl]
  by_cases h0 : l2 = []
  · rw [if_pos h0, alook_delKey_self hnd]
    subst h0
    simp
  · rw [if_neg h0, alook_updKey_self, hl]
    simp [Nat.add_comm]

theorem hIL_pair (d : Bool) (x : Nat) (a : Adj) :
    hIL d (x, a) = (iterF d (x, a)).length := rfl

theorem hIL_delB (d : Bool) (x : Nat) {a : Adj} {t : Nat} {l : List Edge}
    (l2 : List Edge) (hnd : (a.map Prod.fst).Nodup) (hl : alook a t = some l) :
    hIL d (x, if l2 = [] then delKey a t else updKey a t (fun _ => l2)) +
        (if d || decide (x ≤ t) then l.length else 0) =
      hIL d (x, a) + (if d || decide (x ≤ t) then l2.length else 0) := by
  have h : ((if l2 = [] then delKey a t else updKey a t (fun _ => l2)).map
        (fun q => if d || decide (x ≤ q.1) then q.2.length else 0)).sum +
        (if d || decide (x ≤ t) then l.length else 0) =
      (a.map (fun q => if d || decide (x ≤ q.1) then q.2.length else 0)).sum +
        (if d || decide (x ≤ t) then l2.length else 0) :=
    sum_map_delB _ l2 hnd hl
      (by show (if d || decide (x ≤ t) then ([] : List Edge).length else 0) = 0
          split
          · rfl
          · rfl)
  rw [hIL_pair, hIL_pair, iterF_length, iterF_length]
  exact h

theorem del_edge_recon {g : MultiGraph} {ed : Edge} (hg : GInv g)
    (hok : (g.del_edge ed).1 = none) :
    ∃ a l l2, alook g.adj ed.source = some a ∧ alook a ed.target = some l ∧
      removeFirst l ed = some l2 ∧
      (g.directed = false → ed.source ≠ ed.target →
        ∃ at2, alook g.adj ed.target = some at2 ∧
          alook at2 ed.source = some (l.map Edge.inv) ∧
          removeFirst (l.map Edge.inv) ed.inv = some (l2.map Edge.inv)) := by
  obtain ⟨a, l, l2, ha, hl, hr⟩ := del_edge_first_half hok
  refine ⟨a, l, l2, ha, hl, hr, ?_⟩
  intro hd hst
  have hbST : bucketAt g ed.source ed.target = some l := by
    rw [bucketAt_of_alook ha]
    exact hl
  have hbTS := I3_bucket hg.2.2.2.2.2 hd hbST hst
  unfold bucketAt at hbTS
  cases hA : alook g.adj ed.target with
  | none => rw [hA] at hbTS; cases hbTS
  | some at2 =>
    rw [hA] at hbTS
    refine ⟨at2, rfl, hbTS, ?_⟩
    rw [removeFirst_map_inv, hr]
    rfl

theorem keys_delB {g : MultiGraph} (s t : Nat) (l2 : List Edge) :
    (if l2 = [] then updKey g.adj s (fun a2 => delKey a2 t)
      else updKey g.adj s (fun a2 => updKey a2 t (fun _ => l2))).map Prod.fst =
    g.adj.map Prod.fst := by
  split
  · exact keys_updKey _ _ _
  · exact keys_updKey _ _ _

theorem alook_delB_ne {g : MultiGraph} {s x : Nat} (t : Nat) (l2 : List Edge)
    (hx : s ≠ x) :
    alook (if l2 = [] then updKey g.adj s (fun a2 => delKey a2 t)
      else updKey g.adj s (fun a2 => updKey a2 t (fun _ => l2))) x = alook g.adj x := by
  split
  · exact alook_updKey_ne _ _ hx
  · exact alook_updKey_ne _ _ hx

theorem TE_del_edge {g : MultiGraph} {ed : Edge} (hg : GInv g)
    (hok : (g.del_edge ed).1 = none) :
    totalEntries (g.del_edge ed).2 +
      (if g.directed = false ∧ ed.source ≠ ed.target then 2 else 1) = totalEntries g := by
  obtain ⟨a, l, l2, ha, hl, hr, hmir⟩ := del_edge_recon hg hok
  obtain ⟨hwfo, hwfi, h1, h2, h6, h3⟩ := hg
  have hnda : (a.map Prod.fst).Nodup := hwfi (ed.source, a) (alook_mem ha)
  have hlen := removeFirst_length hr
  by_cases hmode : g.directed = true ∨ ed.source = ed.target
  · have hcond : ¬(g.directed = false ∧ ed.source ≠ ed.target) := by
      rcases hmode with hc | hc
      · intro hcon; rw [hc] at hcon; cases hcon.1
      · intro hcon; exact hcon.2 hc
    rw [if_neg hcond]
    have hadj := del_edge_adj_simple hmode ha hl hr
    have hout := sum_adj_delB hTE ed.target l2 hwfo ha
    have hin := hTE_delB ed.source l2 hnda hl
    rw [totalEntries_eq, totalEntries_eq, hadj]
    omega
  · have hd : g.directed = false := by
      cases hdc : g.directed
      · rfl
      · exact absurd (Or.inl hdc) hmode
    have hst : ed.source ≠ ed.target := fun he => hmode (Or.inr he)
    rw [if_pos ⟨hd, hst⟩]
    obtain ⟨at2, hat2, hlm, hrm⟩ := hmir hd hst
    have hndat2 : (at2.map Prod.fst).Nodup := hwfi (ed.target, at2) (alook_mem hat2)
    have hadj := del_edge_adj_undir hd hst ha hl hr hat2 hlm hrm
    have hndM : ((if l2 = [] then updKey g.adj ed.source (fun a2 => delKey a2 ed.target)
        else updKey g.adj ed.source (fun a2 => updKey a2 ed.target (fun _ => l2))).map
          Prod.fst).Nodup := by
      rw [keys_delB]
      exact hwfo
    have haM : alook (if l2 = [] then updKey g.adj ed.source (fun a2 => delKey a2 ed.target)
        else updKey g.adj ed.source (fun a2 => updKey a2 ed.target (fun _ => l2)))
        ed.target = some at2 := by
      rw [alook_delB_ne _ _ hst]
      exact hat2
    have hout1 := sum_adj_delB hTE ed.source (l2.map Edge.inv) hndM haM
    have hout2 := sum_adj_delB hTE ed.target l2 hwfo ha
    have hin1 := hTE_delB ed.target (l2.map Edge.inv) hndat2 hlm
    have hin2 := hTE_delB ed.source l2 hnda hl
    simp only [List.length_map] at hin1
    rw [totalEntries_eq, totalEntries_eq, hadj]
    omega

theorem del_edge_directed (g : MultiGraph) (ed : Edge) :
    (g.del_edge ed).2.directed = g.directed := by
  unfold MultiGraph.del_edge
  split
  · rfl
  · split
    · split
      rfl
    · rfl

theorem LE_del_edge {g : MultiGraph} {ed : Edge} (hg : GInv g)
    (hok : (g.del_edge ed).1 = none) :
    loopEntries (g.del_edge ed).2 + (if ed.source = ed.target then 1 else 0) =
      loopEntries g := by
  obtain ⟨a, l, l2, ha, hl, hr, hmir⟩ := del_edge_recon hg hok
  obtain ⟨hwfo, hwfi, h1, h2, h6, h3⟩ := hg
  have hnda : (a.map Prod.fst).Nodup := hwfi (ed.source, a) (alook_mem ha)
  have hlen := removeFirst_length hr
  by_cases hmode : g.directed = true ∨ ed.source = ed.target
  · have hadj := del_edge_adj_simple hmode ha hl hr
    have hout := sum_adj_delB hLE ed.target l2 hwfo ha
    by_cases hst : ed.source = ed.target
    · rw [if_pos hst]
      rw [hst] at hout ha hadj
      have hin := hLE_delB_self l2 hnda hl
      rw [loopEntries_eq, loopEntries_eq, hadj]
      omega
    · rw [if_neg hst]
      have hin := hLE_delB_ne ed.source a ed.target l2 hst
      rw [loopEntries_eq, loopEntries_eq, hadj]
      omega
  · have hd : g.directed = false := by
      cases hdc : g.directed
      · rfl
      · exact absurd (Or.inl hdc) hmode
    have hst : ed.source ≠ ed.target := fun he => hmode (Or.inr he)
    rw [if_neg hst]
    obtain ⟨at2, hat2, hlm, hrm⟩ := hmir hd hst
    have hndat2 : (at2.map Prod.fst).Nodup := hwfi (ed.target, at2) (alook_mem hat2)
    have hadj := del_edge_adj_undir hd hst ha hl hr hat2 hlm hrm
    have hndM : ((if l2 = [] then updKey g.adj ed.source (fun a2 => delKey a2 ed.target)
        else updKey g.adj ed.source (fun a2 => updKey a2 ed.target (fun _ => l2))).map
          Prod.fst).Nodup := by
      rw [keys_delB]
      exact hwfo
    have haM : alook (if l2 = [] then updKey g.adj ed.source (fun a2 => delKey a2 ed.target)
        else updKey g.adj ed.source (fun a2 => updKey a2 ed.target (fun _ => l2)))
        ed.target = some at2 := by
      rw [alook_delB_ne _ _ hst]
      exact hat2
    have hout1 := sum_adj_delB hLE ed.source (l2.map Edge.inv) hndM haM
    have hout2 := sum_adj_delB hLE ed.target l2 hwfo ha
    have hin1 := hLE_delB_ne ed.target at2 ed.source (l2.map Edge.inv) (Ne.symm hst)
    have hin2 := hLE_delB_ne ed.source a ed.target l2 hst
    rw [loopEntries_eq, loopEntries_eq, hadj]
    omega

theorem IL_del_edge {g : MultiGraph} {ed : Edge} (hg : GInv g)
    (hok : (g.del_edge ed).1 = none) :
    (g.del_edge ed).2.iteredges.length + 1 = g.iteredges.length := by
  obtain ⟨a, l, l2, ha, hl, hr, hmir⟩ := del_edge_recon hg hok
  obtain ⟨hwfo, hwfi, h1, h2, h6, h3⟩ := hg
  have hnda : (a.map Prod.fst).Nodup := hwfi (ed.source, a) (alook_mem ha)
  have hlen := removeFirst_length hr
  by_cases hmode : g.directed = true ∨ ed.source = ed.target
  · have hadj := del_edge_adj_simple hmode ha hl hr
    have hdir := (del_edge_effect_simple hmode ha hl hr).2.1
    rw [length_iteredges_eq, length_iteredges_eq, hdir, hadj]
    have hout := sum_adj_delB (hIL g.directed) ed.target l2 hwfo ha
    have hin := hIL_delB g.directed ed.source l2 hnda hl
    have hguard : (g.directed || decide (ed.source ≤ ed.target)) = true := by
      rcases hmode with hc | hc
      · rw [hc]
        rfl
      · rw [hc]
        simp
    rw [if_pos hguard, if_pos hguard] at hin
    omega
  · have hd : g.directed = false := by
      cases hdc : g.directed
      · rfl
      · exact absurd (Or.inl hdc) hmode
    have hst : ed.source ≠ ed.target := fun he => hmode (Or.inr he)
    obtain ⟨at2, hat2, hlm, hrm⟩ := hmir hd hst
    have hndat2 : (at2.map Prod.fst).Nodup := hwfi (ed.target, at2) (alook_mem hat2)
    have hadj := del_edge_adj_undir hd hst ha hl hr hat2 hlm hrm
    have hdir := (del_edge_effect_undir hd hst ha hl hr hat2 hlm hrm).2.1
    have hndM : ((if l2 = [] then updKey g.adj ed.source (fun a2 => delKey a2 ed.target)
        else updKey g.adj ed.source (fun a2 => updKey a2 ed.target (fun _ => l2))).map
          Prod.fst).Nodup := by
      rw [keys_delB]
      exact hwfo
    have haM : alook (if l2 = [] then updKey g.adj ed.source (fun a2 => delKey a2 ed.target)
        else updKey g.adj ed.source (fun a2 => updKey a2 ed.target (fun _ => l2)))
        ed.target = some at2 := by
      rw [alook_delB_ne _ _ hst]
      exact hat2
    rw [length_iteredges_eq, length_iteredges_eq, hdir, hadj]
    have hout1 := sum_adj_delB (hIL g.directed) ed.source (l2.map Edge.inv) hndM haM
    have hout2 := sum_adj_delB (hIL g.directed) ed.target l2 hwfo ha
    have hin1 := hIL_delB g.directed ed.target (l2.map Edge.inv) hndat2 hlm
    have hin2 := hIL_delB g.directed ed.source l2 hnda hl
    simp only [List.length_map] at hin1
    rw [hd] at hin1 hin2 hout1 hout2 ⊢
    simp only [Bool.false_or, decide_eq_true_eq] at hin1 hin2
    rcases Nat.lt_or_ge ed.source ed.target with hlt | hge
    · have hg1 : ed.source ≤ ed.target := Nat.le_of_lt hlt
      have hg2 : ¬(ed.target ≤ ed.source) := by omega
      rw [if_pos hg1, if_pos hg1] at hin2
      rw [if_neg hg2, if_neg hg2] at hin1
      omega
    · have hg2 : ed.target ≤ ed.source := hge
      have hg1 : ¬(ed.source ≤ ed.target) := by omega
      rw [if_neg hg1, if_neg hg1] at hin2
      rw [if_pos hg2, if_pos hg2] at hin1
      omega

theorem e_del_edge {g : MultiGraph} {ed : Edge} (hg : GInv g)
    (hok : (g.del_edge ed).1 = none) :
    (g.del_edge ed).2.e + 1 = g.e := by
  have hTEd := TE_del_edge hg hok
  have hLEd := LE_del_edge hg hok
  unfold MultiGraph.e
  rw [del_edge_directed]
  cases hd : g.directed with
  | true =>
    rw [if_pos rfl, if_pos rfl]
    rw [hd] at hTEd
    rw [if_neg (fun hc => by cases hc.1)] at hTEd
    omega
  | false =>
    rw [if_neg (fun hc => by cases hc), if_neg (fun hc => by cases hc)]
    rw [hd] at hTEd
    by_cases hst : ed.source = ed.target
    · rw [if_neg (fun hc => hc.2 hst)] at hTEd
      rw [if_pos hst] at hLEd
      omega
    · rw [if_pos ⟨rfl, hst⟩] at hTEd
      rw [if_neg hst] at hLEd
      omega

theorem delEdges_metrics : ∀ (es : List Edge) (g : MultiGraph), GInv g →
    (delEdges g es).1 = none →
    GInv (delEdges g es).2 ∧ (delEdges g es).2.directed = g.directed ∧
    (delEdges g es).2.e + es.length = g.e ∧
    (delEdges g es).2.iteredges.length + es.length = g.iteredges.length ∧
    (totalEntries (delEdges g es).2 + loopEntries (delEdges g es).2 + 2 * es.length =
      totalEntries g + loopEntries g ∨ g.directed = true) := by
  intro es
  induction es with
  | nil =>
    intro g hg hok
    rw [delEdges_nil]
    exact ⟨hg, rfl, by simp, by simp, Or.inl (by simp)⟩
  | cons ed rest ih =>
    intro g hg hok
    cases hde1 : (g.del_edge ed).1 with
    | some er =>
      exfalso
      have hpair : g.del_edge ed = (some er, (g.del_edge ed).2) := by
        have h0 : g.del_edge ed = ((g.del_edge ed).1, (g.del_edge ed).2) := rfl
        rw [hde1] at h0
        exact h0
      have : delEdges g (ed :: rest) = (some er, (g.del_edge ed).2) := by
        show (match g.del_edge ed with
          | (some er2, g2) => (some er2, g2)
          | (none, g2) => delEdges g2 rest) = _
        rw [hpair]
      rw [this] at hok
      cases hok
    | none =>
      have hpair := prod_eta_del hde1
      have hstep := delEdges_cons_ok hpair rest
      have hg1 : GInv (g.del_edge ed).2 := GInv_del_edge ed hg hde1
      have hd1 : (g.del_edge ed).2.directed = g.directed := del_edge_directed g ed
      have he1 : (g.del_edge ed).2.e + 1 = g.e := e_del_edge hg hde1
      have hi1 : (g.del_edge ed).2.iteredges.length + 1 = g.iteredges.length :=
        IL_del_edge hg hde1
      have hok1 : (delEdges (g.del_edge ed).2 rest).1 = none := by
        rw [← hstep]
        exact hok
      obtain ⟨r1, r2, r3, r4, r5⟩ := ih (g.del_edge ed).2 hg1 hok1
      rw [hstep]
      refine ⟨r1, by rw [r2, hd1], by simp only [List.length_cons]; omega,
        by simp only [List.length_cons]; omega, ?_⟩
      cases hdc : g.directed with
      | true => exact Or.inr rfl
      | false =>
        left
        have hTE1 := TE_del_edge hg hde1
        have hLE1 := LE_del_edge hg hde1
        rw [hdc] at hTE1
        rcases r5 with r5 | r5
        · by_cases hst : ed.source = ed.target
          · rw [if_neg (fun hc => hc.2 hst)] at hTE1
            rw [if_pos hst] at hLE1
            simp only [List.length_cons]
            omega
          · rw [if_pos ⟨rfl, hst⟩] at hTE1
            rw [if_neg hst] at hLE1
            simp only [List.length_cons]
            omega
        · rw [hd1, hdc] at r5
          cases r5

theorem TE_add_node (g : MultiGraph) (u : Nat) :
    totalEntries (g.add_node u) = totalEntries g := by
  rw [totalEntries_eq, totalEntries_eq]
  exact sum_adj_add_node hTE g u rfl

theorem LE_add_node (g : MultiGraph) (u : Nat) :
    loopEntries (g.add_node u) = loopEntries g := by
  rw [loopEntries_eq, loopEntries_eq]
  exact sum_adj_add_node hLE g u rfl

theorem IL_add_node (g : MultiGraph) (u : Nat) :
    (g.add_node u).iteredges.length = g.iteredges.length := by
  rw [length_iteredges_eq, length_iteredges_eq, add_node_directed]
  exact sum_adj_add_node (hIL g.directed) g u rfl

theorem e_add_node (g : MultiGraph) (u : Nat) : (g.add_node u).e = g.e := by
  unfold MultiGraph.e
  rw [add_node_directed, TE_add_node, LE_add_node]

theorem metrics_delKey_isolated {G : MultiGraph} {u : Nat} (hwfo : WFo G)
    (hau : alook G.adj u = some []) :
    totalEntries { G with adj := delKey G.adj u } = totalEntries G ∧
    loopEntries { G with adj := delKey G.adj u } = loopEntries G ∧
    ({ G with adj := delKey G.adj u } : MultiGraph).iteredges.length =
      G.iteredges.length ∧
    ({ G with adj := delKey G.adj u } : MultiGraph).e = G.e := by
  have hTE2 : totalEntries { G with adj := delKey G.adj u } =
      ((delKey G.adj u).map hTE).sum := rfl
  have hLE2 : loopEntries { G with adj := delKey G.adj u } =
      ((delKey G.adj u).map hLE).sum := rfl
  have hIL2 : ({ G with adj := delKey G.adj u } : MultiGraph).iteredges.length =
      ((delKey G.adj u).map (hIL G.directed)).sum := by
    rw [length_iteredges_eq]
  have hTEd := sum_map_delKey hTE hwfo hau
  have hLEd := sum_map_delKey hLE hwfo hau
  have hILd := sum_map_delKey (hIL G.directed) hwfo hau
  have hTEr : totalEntries { G with adj := delKey G.adj u } = totalEntries G := by
    rw [hTE2, totalEntries_eq]
    have hz : hTE (u, ([] : List (Nat × List Edge))) = 0 := rfl
    omega
  have hLEr : loopEntries { G with adj := delKey G.adj u } = loopEntries G := by
    rw [hLE2, loopEntries_eq]
    have hz : hLE (u, ([] : List (Nat × List Edge))) = 0 := rfl
    omega
  have hILr : ({ G with adj := delKey G.adj u } : MultiGraph).iteredges.length =
      G.iteredges.length := by
    rw [hIL2, length_iteredges_eq]
    have hz : hIL G.directed (u, ([] : List (Nat × List Edge))) = 0 := rfl
    omega
  refine ⟨hTEr, hLEr, hILr, ?_⟩
  show (if ({ G with adj := delKey G.adj u } : MultiGraph).directed
    then totalEntries { G with adj := delKey G.adj u }
    else (totalEntries { G with adj := delKey G.adj u } +
      loopEntries { G with adj := delKey G.adj u }) / 2) = G.e
  rw [hTEr, hLEr]
  rfl

theorem del_node_metrics {g : MultiGraph} {u : Nat} (hg : GInv g)
    (hok : (g.del_node u).1 = none)
    (hQ : g.iteredges.length = g.e)
    (hP : g.directed = false → (totalEntries g + loopEntries g) % 2 = 0) :
    (g.del_node u).2.iteredges.length = (g.del_node u).2.e ∧
    ((g.del_node u).2.directed = false →
      (totalEntries (g.del_node u).2 + loopEntries (g.del_node u).2) % 2 = 0) := by
  cases hau : alook g.adj u with
  | none =>
    rw [del_node_absent hg hau] at hok
    cases hok
  | some a0 =>
    by_cases hd : g.directed = true
    · have hinE : g.iterinedges u = some (g.adj.flatMap (fun p => match alook p.2 u with
          | some l => l
          | none => [])) := by
        unfold MultiGraph.iterinedges
        rw [if_pos hd]
      obtain ⟨s1, s2, s3, s4, s5, s6⟩ := sweepD_in u g.adj g hg hd
        (fun p hp => bucketAt_of_alook (mem_alook hg.1 hp) u) hg.1
      have hG2u : alook (delEdges g (g.adj.flatMap (fun p => match alook p.2 u with
          | some l => l
          | none => []))).2.adj u = some (delKey a0 u) := by
        rw [s6 (u, a0) (alook_mem hau)]
        simp [hau]
      have hout : (delEdges g (g.adj.flatMap (fun p => match alook p.2 u with
          | some l => l
          | none => []))).2.iteroutedges u
          = some ((delKey a0 u).flatMap (fun q => q.2)) := by
        unfold MultiGraph.iteroutedges
        simp only [hG2u]
      obtain ⟨t1, t2, t3, t4, t5, t6⟩ := sweepD_out u (delKey a0 u)
        (delEdges g (g.adj.flatMap (fun p => match alook p.2 u with
          | some l => l
          | none => []))).2 s2 (by rw [s3]; exact hd) hG2u
      have heq : g.del_node u = (none,
          { (delEdges (delEdges g (g.adj.flatMap (fun p => match alook p.2 u with
              | some l => l
              | none => []))).2 ((delKey a0 u).flatMap (fun q => q.2))).2 with
            adj := delKey (delEdges (delEdges g (g.adj.flatMap (fun p =>
              match alook p.2 u with
              | some l => l
              | none => []))).2 ((delKey a0 u).flatMap (fun q => q.2))).2.adj u }) :=
        del_node_eq_of_ok_dir hinE s1 (by rw [s3]; exact hd) hout t1
      obtain ⟨m1, m2, m3, m4, m5⟩ := delEdges_metrics
        (g.adj.flatMap (fun p => match alook p.2 u with
          | some l => l
          | none => [])) g hg s1
      obtain ⟨n1, n2, n3, n4, n5⟩ := delEdges_metrics
        ((delKey a0 u).flatMap (fun q => q.2))
        (delEdges g (g.adj.flatMap (fun p => match alook p.2 u with
          | some l => l
          | none => []))).2 s2 t1
      obtain ⟨k1, k2, k3, k4⟩ := metrics_delKey_isolated t2.1 t6
      rw [heq]
      constructor
      · show ({ (delEdges (delEdges g _).2 _).2 with
          adj := delKey (delEdges (delEdges g _).2 _).2.adj u } : MultiGraph).iteredges.length = _
        rw [k3, k4]
        omega
      · intro hfin
        exfalso
        have : (delEdges (delEdges g (g.adj.flatMap (fun p => match alook p.2 u with
            | some l => l
            | none => []))).2 ((delKey a0 u).flatMap (fun q => q.2))).2.directed
            = true := by
          rw [n2, s3]
          exact hd
        rw [show ((none, { (delEdges (delEdges g (g.adj.flatMap (fun p =>
            match alook p.2 u with
            | some l => l
            | none => []))).2 ((delKey a0 u).flatMap (fun q => q.2))).2 with
            adj := delKey (delEdges (delEdges g (g.adj.flatMap (fun p =>
              match alook p.2 u with
              | some l => l
              | none => []))).2 ((delKey a0 u).flatMap (fun q => q.2))).2.adj u })
            : Option GErr × MultiGraph).2.directed =
            (delEdges (delEdges g (g.adj.flatMap (fun p => match alook p.2 u with
            | some l => l
            | none => []))).2 ((delKey a0 u).flatMap (fun q => q.2))).2.directed
          from rfl, this] at hfin
        cases hfin
    · have hd2 : g.directed = false := by
        cases hdd : g.directed
        · rfl
        · exact absurd hdd hd
      have hinE : g.iterinedges u = some (a0.flatMap (fun q => q.2.map Edge.inv)) := by
        unfold MultiGraph.iterinedges
        rw [if_neg hd]
        simp only [hau]
      obtain ⟨s1, s2, s3, s4, s5, s6⟩ := sweepU_adj u a0 g hg hd2 hau
      have heq : g.del_node u = (none,
          { (delEdges g (a0.flatMap (fun q => q.2.map Edge.inv))).2 with
            adj := delKey (delEdges g (a0.flatMap (fun q => q.2.map Edge.inv))).2.adj u }) :=
        del_node_eq_of_ok hinE s1 (by rw [s3]; exact hd2)
      obtain ⟨m1, m2, m3, m4, m5⟩ := delEdges_metrics
        (a0.flatMap (fun q => q.2.map Edge.inv)) g hg s1
      obtain ⟨k1, k2, k3, k4⟩ := metrics_delKey_isolated s2.1 s5
      rw [heq]
      constructor
      · show ({ (delEdges g (a0.flatMap (fun q => q.2.map Edge.inv))).2 with
          adj := delKey (delEdges g (a0.flatMap (fun q =>
            q.2.map Edge.inv))).2.adj u } : MultiGraph).iteredges.length = _
        rw [k3, k4]
        omega
      · intro hfin
        rcases m5 with m5 | m5
        · show (totalEntries { (delEdges g (a0.flatMap (fun q => q.2.map Edge.inv))).2 with
              adj := delKey (delEdges g (a0.flatMap (fun q =>
                q.2.map Edge.inv))).2.adj u } +
            loopEntries { (delEdges g (a0.flatMap (fun q => q.2.map Edge.inv))).2 with
              adj := delKey (delEdges g (a0.flatMap (fun q =>
                q.2.map Edge.inv))).2.adj u }) % 2 = 0
          rw [k1, k2]
          have hPg := hP hd2
          omega
        · rw [hd2] at m5
          cases m5

theorem foldl_add_node_metrics {β : Type} (f : β → Nat) (l : List β) :
    ∀ (g : MultiGraph),
    (l.foldl (fun h x => h.add_node (f x)) g).directed = g.directed ∧
    (l.foldl (fun h x => h.add_node (f x)) g).e = g.e ∧
    (l.foldl (fun h x => h.add_node (f x)) g).iteredges.length = g.iteredges.length ∧
    totalEntries (l.foldl (fun h x => h.add_node (f x)) g) = totalEntries g ∧
    loopEntries (l.foldl (fun h x => h.add_node (f x)) g) = loopEntries g := by
  induction l with
  | nil => intro g; exact ⟨rfl, rfl, rfl, rfl, rfl⟩
  | cons x rest ih =>
    intro g
    obtain ⟨r1, r2, r3, r4, r5⟩ := ih (g.add_node (f x))
    refine ⟨?_, ?_, ?_, ?_, ?_⟩
    · show (rest.foldl (fun h x => h.add_node (f x)) (g.add_node (f x))).directed = _
      rw [r1, add_node_directed]
    · show (rest.foldl (fun h x => h.add_node (f x)) (g.add_node (f x))).e = _
      rw [r2, e_add_node]
    · show (rest.foldl (fun h x => h.add_node (f x))
        (g.add_node (f x))).iteredges.length = _
      rw [r3, IL_add_node]
    · show totalEntries (rest.foldl (fun h x => h.add_node (f x)) (g.add_node (f x))) = _
      rw [r4, TE_add_node]
    · show loopEntries (rest.foldl (fun h x => h.add_node (f x)) (g.add_node (f x))) = _
      rw [r5, LE_add_node]

theorem foldl_add_edge_metrics {β : Type} (f : β → Edge) (l : List β) :
    ∀ (g : MultiGraph), GInv g →
    (l.foldl (fun h x => h.add_edge (f x)) g).directed = g.directed ∧
    (l.foldl (fun h x => h.add_edge (f x)) g).e = g.e + l.length ∧
    (l.foldl (fun h x => h.add_edge (f x)) g).iteredges.length =
      g.iteredges.length + l.length ∧
    (totalEntries (l.foldl (fun h x => h.add_edge (f x)) g) +
        loopEntries (l.foldl (fun h x => h.add_edge (f x)) g) =
      totalEntries g + loopEntries g + 2 * l.length ∨ g.directed = true) := by
  induction l with
  | nil => intro g hg; exact ⟨rfl, rfl, rfl, Or.inl rfl⟩
  | cons x rest ih =>
    intro g hg
    obtain ⟨r1, r2, r3, r4⟩ := ih (g.add_edge (f x)) (GInv_add_edge (f x) hg)
    have hTEs := TE_add_edge (f x) hg.1 hg.2.1
    have hLEs := LE_add_edge (f x) hg.1 hg.2.1
    have hILs := IL_add_edge (f x) hg.1 hg.2.1
    have hes := e_add_edge (f x) hg.1 hg.2.1
    refine ⟨?_, ?_, ?_, ?_⟩
    · show (rest.foldl (fun h x => h.add_edge (f x)) (g.add_edge (f x))).directed = _
      rw [r1, add_edge_directed]
    · show (rest.foldl (fun h x => h.add_edge (f x)) (g.add_edge (f x))).e = _
      rw [r2, hes]
      simp only [List.length_cons]
      omega
    · show (rest.foldl (fun h x => h.add_edge (f x))
        (g.add_edge (f x))).iteredges.length = _
      rw [r3, hILs]
      simp only [List.length_cons]
      omega
    · cases hdc : g.directed with
      | true => exact Or.inr rfl
      | false =>
        left
        show totalEntries (rest.foldl (fun h x => h.add_edge (f x)) (g.add_edge (f x))) +
          loopEntries (rest.foldl (fun h x => h.add_edge (f x)) (g.add_edge (f x))) = _
        rcases r4 with r4 | r4
        · rw [hdc] at hTEs
          by_cases hst : (f x).source = (f x).target
          · rw [if_neg (fun hc => hc.2 hst)] at hTEs
            rw [if_pos hst] at hLEs
            simp only [List.length_cons]
            omega
          · rw [if_pos ⟨rfl, hst⟩] at hTEs
            rw [if_neg hst] at hLEs
            simp only [List.length_cons]
            omega
        · rw [add_edge_directed, hdc] at r4
          cases r4

theorem add_multigraph_metrics {g : MultiGraph} (other : MultiGraph) (hg : GInv g) :
    (g.add_multigraph other).directed = g.directed ∧
    (g.add_multigraph other).e = g.e + other.iteredges.length ∧
    (g.add_multigraph other).iteredges.length =
      g.iteredges.length + other.iteredges.length ∧
    (totalEntries (g.add_multigraph other) + loopEntries (g.add_multigraph other) =
      totalEntries g + loopEntries g + 2 * other.iteredges.length ∨
      g.directed = true) := by
  have hg1 := GInv_foldl_add_node (fun p : Nat × Adj => p.1) other.adj hg
  obtain ⟨n1, n2, n3, n4, n5⟩ :=
    foldl_add_node_metrics (fun p : Nat × Adj => p.1) other.adj g
  obtain ⟨e1, e2, e3, e4⟩ :=
    foldl_add_edge_metrics (fun ed : Edge => ed) other.iteredges
      (other.adj.foldl (fun h p => h.add_node p.1) g) hg1
  refine ⟨?_, ?_, ?_, ?_⟩
  · show (other.iteredges.foldl (fun h ed => h.add_edge ed)
      (other.adj.foldl (fun h p => h.add_node p.1) g)).directed = _
    rw [e1, n1]
  · show (other.iteredges.foldl (fun h ed => h.add_edge ed)
      (other.adj.foldl (fun h p => h.add_node p.1) g)).e = _
    rw [e2, n2]
  · show (other.iteredges.foldl (fun h ed => h.add_edge ed)
      (other.adj.foldl (fun h p => h.add_node p.1) g)).iteredges.length = _
    rw [e3, n3]
  · rcases e4 with e4 | e4
    · left
      show totalEntries (other.iteredges.foldl (fun h ed => h.add_edge ed)
          (other.adj.foldl (fun h p => h.add_node p.1) g)) +
        loopEntries (other.iteredges.foldl (fun h ed => h.add_edge ed)
          (other.adj.foldl (fun h p => h.add_node p.1) g)) = _
      rw [e4, n4, n5]
    · right
      rw [n1] at e4
      exact e4

theorem reachable_metrics {g : MultiGraph} (h : Reachable g) :
    g.iteredges.length = g.e ∧
    (g.directed = false → (totalEntries g + loopEntries g) % 2 = 0) := by
  induction h with
  | empty d =>
    cases d
    · exact ⟨rfl, fun _ => rfl⟩
    · exact ⟨rfl, fun hc => by cases hc⟩
  | addN u hr ih =>
    constructor
    · rw [IL_add_node, e_add_node]
      exact ih.1
    · intro hdf
      rw [add_node_directed] at hdf
      rw [TE_add_node, LE_add_node]
      exact ih.2 hdf
  | addE ed hr ih =>
    rename_i g0
    have hg := reachable_GInv hr
    constructor
    · rw [IL_add_edge ed hg.1 hg.2.1, e_add_edge ed hg.1 hg.2.1, ih.1]
    · intro hdf
      rw [add_edge_directed] at hdf
      have hTEs := TE_add_edge ed hg.1 hg.2.1
      have hLEs := LE_add_edge ed hg.1 hg.2.1
      rw [hdf] at hTEs
      have hprev := ih.2 hdf
      by_cases hst : ed.source = ed.target
      · rw [if_neg (fun hc => hc.2 hst)] at hTEs
        rw [if_pos hst] at hLEs
        omega
      · rw [if_pos ⟨rfl, hst⟩] at hTEs
        rw [if_neg hst] at hLEs
        omega
  | delE ed hr hok ih =>
    rename_i g0
    have hg := reachable_GInv hr
    constructor
    · have h1 := IL_del_edge hg hok
      have h2 := e_del_edge hg hok
      omega
    · intro hdf
      rw [del_edge_directed] at hdf
      have hTEs := TE_del_edge hg hok
      have hLEs := LE_del_edge hg hok
      rw [hdf] at hTEs
      have hprev := ih.2 hdf
      by_cases hst : ed.source = ed.target
      · rw [if_neg (fun hc => hc.2 hst)] at hTEs
        rw [if_pos hst] at hLEs
        omega
      · rw [if_pos ⟨rfl, hst⟩] at hTEs
        rw [if_neg hst] at hLEs
        omega
  | delN u hr hok ih =>
    exact del_node_metrics (reachable_GInv hr) hok ih.1 ih.2
  | merge other hr ih =>
    rename_i g0
    have hg := reachable_GInv hr
    obtain ⟨m1, m2, m3, m4⟩ := add_multigraph_metrics other hg
    constructor
    · rw [m2, m3, ih.1]
    · intro hdf
      rw [m1] at hdf
      have hprev := ih.2 hdf
      rcases m4 with m4 | m4
      · omega
      · rw [hdf] at m4
        cases m4

theorem count_flatMap {α : Type} (F : α → List Edge) (m : List α) (c : Edge) :
    ((m.flatMap F).count c) = (m.map (fun x => (F x).count c)).sum := by
  induction m with
  | nil => rfl
  | cons p rest ih =>
    rw [List.flatMap_cons, List.count_append, List.map_cons, List.sum_cons, ih]

theorem mem_iteredges_iff {g : MultiGraph} (hwfo : WFo g) (hwfi : WFi g) (c : Edge) :
    c ∈ g.iteredges ↔ ∃ u v l, bucketAt g u v = some l ∧
      (g.directed || decide (u ≤ v)) = true ∧ c ∈ l := by
  rw [iteredges_eq_flat, List.mem_flatMap]
  constructor
  · rintro ⟨p, hp, hcp⟩
    unfold iterF at hcp
    rw [List.mem_flatMap] at hcp
    obtain ⟨q, hq, hcq⟩ := hcp
    by_cases hguard : (g.directed || decide (p.1 ≤ q.1)) = true
    · rw [if_pos hguard] at hcq
      exact ⟨p.1, q.1, q.2, entry_bucketAt hwfo hwfi hp hq, hguard, hcq⟩
    · rw [if_neg hguard] at hcq
      cases hcq
  · rintro ⟨u, v, l, hb, hguard, hcl⟩
    obtain ⟨a, ha, hav⟩ := bucketAt_decompose hb
    refine ⟨(u, a), alook_mem ha, ?_⟩
    unfold iterF
    rw [List.mem_flatMap]
    exact ⟨(v, l), alook_mem hav, by rw [if_pos hguard]; exact hcl⟩

theorem iteredges_count {g : MultiGraph} (hg : GInv g) (c : Edge) :
    g.iteredges.count c =
      if (g.directed || decide (c.source ≤ c.target)) = true
      then ((bucketAt g c.source c.target).getD []).count c else 0 := by
  obtain ⟨hwfo, hwfi, h1, h2, h6, h3⟩ := hg
  rw [iteredges_eq_flat, count_flatMap]
  have hinner : ∀ u a, (u, a) ∈ g.adj →
      (iterF g.directed (u, a)).count c =
      (a.map (fun q => (if (g.directed || decide (u ≤ q.1)) = true
        then q.2 else []).count c)).sum := by
    intro u a hua
    show ((a.flatMap (fun q => if (g.directed || decide (u ≤ q.1)) = true
      then q.2 else [])).count c) = _
    rw [count_flatMap]
  have hzero_entry : ∀ p ∈ g.adj, p.1 ≠ c.source →
      (fun p => (iterF g.directed p).count c) p = 0 := by
    intro p hp hpne
    show (iterF g.directed p).count c = 0
    rcases p with ⟨u, a⟩
    rw [hinner u a hp]
    apply sum_eq_zero_of_all
    intro q hq
    show (if (g.directed || decide (u ≤ q.1)) = true then q.2 else []).count c = 0
    have hsrc : ∀ x ∈ q.2, x.source = u := fun x hx => (h6 (u, a) hp q hq x hx).1
    split
    · apply List.count_eq_zero.2
      intro hcmem
      exact hpne ((hsrc c hcmem).symm ▸ rfl)
    · rfl
  cases has : alook g.adj c.source with
  | none =>
    have hall : ∀ p ∈ g.adj, (fun p => (iterF g.directed p).count c) p = 0 := by
      intro p hp
      apply hzero_entry p hp
      intro he
      have := mem_alook hwfo hp
      rw [he, has] at this
      cases this
    rw [sum_eq_zero_of_all _ hall]
    have hb : bucketAt g c.source c.target = none := by
      unfold bucketAt
      rw [has]
    rw [hb]
    split
    · rfl
    · rfl
  | some a =>
    rw [sum_eq_single_key _ hwfo has hzero_entry]
    show (iterF g.directed (c.source, a)).count c = _
    rw [hinner c.source a (alook_mem has)]
    have hb : bucketAt g c.source c.target = alook a c.target :=
      bucketAt_of_alook has c.target
    have hnda : (a.map Prod.fst).Nodup := hwfi (c.source, a) (alook_mem has)
    have hzero_q : ∀ q ∈ a, q.1 ≠ c.target →
        (fun q => (if (g.directed || decide (c.source ≤ q.1)) = true
          then q.2 else []).count c) q = 0 := by
      intro q hq hqne
      show (if (g.directed || decide (c.source ≤ q.1)) = true
        then q.2 else []).count c = 0
      have htgt : ∀ x ∈ q.2, x.target = q.1 :=
        fun x hx => (h6 (c.source, a) (alook_mem has) q hq x hx).2
      split
      · apply List.count_eq_zero.2
        intro hcmem
        exact hqne (htgt c hcmem).symm
      · rfl
    cases hat : alook a c.target with
    | none =>
      rw [sum_eq_zero_of_all _ (by
        intro q hq
        apply hzero_q q hq
        intro he
        have := mem_alook hnda hq
        rw [he, hat] at this
        cases this)]
      rw [hb, hat]
      split
      · rfl
      · rfl
    | some l =>
      rw [sum_eq_single_key _ hnda hat hzero_q]
      rw [hb, hat]
      show (if (g.directed || decide (c.source ≤ c.target)) = true
        then l else []).count c = _
      split
      · rfl
      · rfl

theorem iteredges_add_node (g : MultiGraph) (u : Nat) :
    (g.add_node u).iteredges = g.iteredges := by
  unfold MultiGraph.add_node
  split
  · rfl
  · show ({ g with adj := g.adj ++ [(u, [])] } : MultiGraph).iteredges = _
    rw [iteredges_eq_flat, iteredges_eq_flat]
    show (g.adj ++ [(u, [])]).flatMap (iterF g.directed) = _
    rw [List.flatMap_append]
    simp [iterF]

theorem mem_iteredges_add_edge {g : MultiGraph} (e1 : Edge) (hg : GInv g) {c : Edge}
    (hmem : c ∈ (g.add_edge e1).iteredges) :
    c ∈ g.iteredges ∨ c = e1 ∨ (g.directed = false ∧ c = e1.inv) := by
  have hwfo2 : WFo (g.add_edge e1) := WFo_add_edge e1 hg.1
  have hwfi2 : WFi (g.add_edge e1) := WFi_add_edge e1 hg.1 hg.2.1
  rw [mem_iteredges_iff hwfo2 hwfi2] at hmem
  obtain ⟨u, v, l, hb, hguard, hcl⟩ := hmem
  rw [add_edge_directed] at hguard
  have hmemold : ∀ l0, bucketAt g u v = some l0 → c ∈ l0 → c ∈ g.iteredges := by
    intro l0 hb0 hc0
    rw [mem_iteredges_iff hg.1 hg.2.1]
    exact ⟨u, v, l0, hb0, hguard, hc0⟩
  have hgetD : ∀ x y, c ∈ (bucketAt g x y).getD [] → u = x → v = y → c ∈ g.iteredges := by
    intro x y hc0 hux hvy
    cases hb0 : bucketAt g x y with
    | none => rw [hb0] at hc0; cases hc0
    | some l0 =>
      rw [hb0] at hc0
      subst hux
      subst hvy
      exact hmemold l0 hb0 hc0
  cases hd : g.directed with
  | true =>
    rw [bucketAt_add_edge_directed e1 hd] at hb
    by_cases hcond : u = e1.source ∧ v = e1.target
    · rw [if_pos hcond] at hb
      injection hb with hb
      subst hb
      rcases List.mem_append.1 hcl with hc0 | hc0
      · exact Or.inl (hgetD e1.source e1.target hc0 hcond.1 hcond.2)
      · exact Or.inr (Or.inl (List.mem_singleton.1 hc0))
    · rw [if_neg hcond] at hb
      exact Or.inl (hmemold l hb hcl)
  | false =>
    by_cases hloop : e1.source = e1.target
    · rw [bucketAt_add_edge_loop e1 hd hloop] at hb
      by_cases hcond : u = e1.source ∧ v = e1.source
      · rw [if_pos hcond] at hb
        injection hb with hb
        subst hb
        rcases List.mem_append.1 hcl with hc0 | hc0
        · exact Or.inl (hgetD e1.source e1.source hc0 hcond.1 hcond.2)
        · exact Or.inr (Or.inl (List.mem_singleton.1 hc0))
      · rw [if_neg hcond] at hb
        exact Or.inl (hmemold l hb hcl)
    · rw [bucketAt_add_edge_undir e1 hd hloop] at hb
      by_cases hcond : u = e1.source ∧ v = e1.target
      · rw [if_pos hcond] at hb
        injection hb with hb
        subst hb
        rcases List.mem_append.1 hcl with hc0 | hc0
        · exact Or.inl (hgetD e1.source e1.target hc0 hcond.1 hcond.2)
        · exact Or.inr (Or.inl (List.mem_singleton.1 hc0))
      · rw [if_neg hcond] at hb
        by_cases hcond2 : u = e1.target ∧ v = e1.source
        · rw [if_pos hcond2] at hb
          injection hb with hb
          subst hb
          rcases List.mem_append.1 hcl with hc0 | hc0
          · exact Or.inl (hgetD e1.target e1.source hc0 hcond2.1 hcond2.2)
          · exact Or.inr (Or.inr ⟨rfl, List.mem_singleton.1 hc0⟩)
        · rw [if_neg hcond2] at hb
          exact Or.inl (hmemold l hb hcl)

theorem reachable_foldl_add_node {β : Type} (f : β → Nat) (l : List β) :
    ∀ {g : MultiGraph}, Reachable g →
      Reachable (l.foldl (fun h x => h.add_node (f x)) g) := by
  induction l with
  | nil => intro g hr; exact hr
  | cons x rest ih => intro g hr; exact ih (Reachable.addN (f x) hr)

theorem reachable_foldl_add_edge {β : Type} (f : β → Edge) (l : List β) :
    ∀ {g : MultiGraph}, Reachable g →
      Reachable (l.foldl (fun h x => h.add_edge (f x)) g) := by
  induction l with
  | nil => intro g hr; exact hr
  | cons x rest ih => intro g hr; exact ih (Reachable.addE (f x) hr)

theorem reachable_transpose (g : MultiGraph) : Reachable g.transpose := by
  unfold MultiGraph.transpose
  exact reachable_foldl_add_edge Edge.inv g.iteredges
    (reachable_foldl_add_node (fun p : Nat × Adj => p.1) g.adj (Reachable.empty g.directed))

theorem mem_iteredges_foldl_add_edge {β : Type} (f : β → Edge) (l : List β) :
    ∀ (g : MultiGraph), Reachable g →
      ∀ c ∈ (l.foldl (fun h x => h.add_edge (f x)) g).iteredges,
      c ∈ g.iteredges ∨ ∃ x ∈ l, c = f x ∨ (g.directed = false ∧ c = (f x).inv) := by
  induction l with
  | nil => intro g hr c hc; exact Or.inl hc
  | cons x rest ih =>
    intro g hr c hc
    rcases ih (g.add_edge (f x)) (Reachable.addE (f x) hr) c hc with hc2 | ⟨y, hy, hcy⟩
    · rcases mem_iteredges_add_edge (f x) (reachable_GInv hr) hc2 with h0 | h0 | h0
      · exact Or.inl h0
      · exact Or.inr ⟨x, List.mem_cons_self x rest, Or.inl h0⟩
      · exact Or.inr ⟨x, List.mem_cons_self x rest, Or.inr h0⟩
    · rw [add_edge_directed] at hcy
      exact Or.inr ⟨y, List.mem_cons_of_mem x hy, hcy⟩

theorem foldl_add_node_adj : ∀ (ps : List (Nat × Adj)) (h : MultiGraph),
    (ps.map Prod.fst).Nodup →
    (∀ p ∈ ps, alook h.adj p.1 = none) →
    (ps.foldl (fun h2 p => h2.add_node p.1) h).adj =
      h.adj ++ ps.map (fun p => (p.1, ([] : List (Nat × List Edge)))) := by
  intro ps
  induction ps with
  | nil => intro h _ _; simp
  | cons p rest ih =>
    intro h hnd habs
    rw [List.map_cons, List.nodup_cons] at hnd
    have hstep : (h.add_node p.1).adj = h.adj ++ [(p.1, [])] :=
      add_node_of_not (habs p (List.mem_cons_self p rest))
    have habs2 : ∀ q ∈ rest, alook (h.add_node p.1).adj q.1 = none := by
      intro q hq
      rw [hstep, alook_append, habs q (List.mem_cons_of_mem p hq)]
      have hne : p.1 ≠ q.1 := by
        intro he
        exact hnd.1 (List.mem_map.2 ⟨q, hq, he.symm⟩)
      simp [alook, hne]
    show (rest.foldl (fun h2 p => h2.add_node p.1) (h.add_node p.1)).adj = _
    rw [ih (h.add_node p.1) hnd.2 habs2, hstep]
    simp

theorem mem_iteredges_endpoints {g : MultiGraph} (hg : GInv g) {c : Edge}
    (hc : c ∈ g.iteredges) :
    (alook g.adj c.source).isSome = true ∧ (alook g.adj c.target).isSome = true := by
  rw [mem_iteredges_iff hg.1 hg.2.1] at hc
  obtain ⟨u, v, l, hb, hguard, hcl⟩ := hc
  obtain ⟨hsu, htv⟩ := I6_bucket hg.2.2.2.2.1 hb c hcl
  obtain ⟨a2, ha2, hav⟩ := bucketAt_decompose hb
  constructor
  · rw [hsu, ha2]
    rfl
  · rw [htv]
    exact I1_bucket hg.2.2.1 hb

theorem add_edge_keys_of_present {g : MultiGraph} {ed : Edge}
    (hs : (alook g.adj ed.source).isSome = true)
    (ht : (alook g.adj ed.target).isSome = true) :
    (g.add_edge ed).adj.map Prod.fst = g.adj.map Prod.fst := by
  rw [add_edge_keys, add_node_of_has hs, add_node_of_has ht]

theorem foldl_add_edge_keys {β : Type} (f : β → Edge) (l : List β) :
    ∀ (g : MultiGraph),
    (∀ x ∈ l, (alook g.adj (f x).source).isSome = true ∧
      (alook g.adj (f x).target).isSome = true) →
    (l.foldl (fun h x => h.add_edge (f x)) g).adj.map Prod.fst =
      g.adj.map Prod.fst := by
  induction l with
  | nil => intro g _; rfl
  | cons x rest ih =>
    intro g hpres
    have hx := hpres x (List.mem_cons_self x rest)
    have hstep : (g.add_edge (f x)).adj.map Prod.fst = g.adj.map Prod.fst :=
      add_edge_keys_of_present hx.1 hx.2
    have hpres2 : ∀ y ∈ rest, (alook (g.add_edge (f x)).adj (f y).source).isSome = true ∧
        (alook (g.add_edge (f x)).adj (f y).target).isSome = true := by
      intro y hy
      have hy2 := hpres y (List.mem_cons_of_mem x hy)
      rw [isSome_of_keys_eq hstep, isSome_of_keys_eq hstep]
      exact hy2
    show (rest.foldl (fun h x => h.add_edge (f x)) (g.add_edge (f x))).adj.map
      Prod.fst = _
    rw [ih (g.add_edge (f x)) hpres2, hstep]

theorem iteredges_nodes_only {g : MultiGraph}
    (h : ∀ p ∈ g.adj, p.2 = ([] : List (Nat × List Edge))) : g.iteredges = [] := by
  rw [iteredges_eq_flat]
  apply List.flatMap_eq_nil_iff.mpr
  intro p hp
  unfold iterF
  rw [h p hp]
  rfl

theorem e_nodes_only {g : MultiGraph}
    (h : ∀ p ∈ g.adj, p.2 = ([] : List (Nat × List Edge))) : g.e = 0 := by
  have hTE0 : totalEntries g = 0 := by
    rw [totalEntries_eq]
    apply sum_eq_zero_of_all
    intro p hp
    show hTE p = 0
    unfold hTE
    rw [h p hp]
    rfl
  have hLE0 : loopEntries g = 0 := by
    rw [loopEntries_eq]
    apply sum_eq_zero_of_all
    intro p hp
    show hLE p = 0
    unfold hLE
    rw [h p hp]
    rfl
  unfold MultiGraph.e
  rw [hTE0, hLE0]
  split
  · rfl
  · rfl

theorem transpose_facts {g : MultiGraph} (hr : Reachable g) :
    g.transpose.directed = g.directed ∧
    g.transpose.adj.map Prod.fst = g.adj.map Prod.fst ∧
    g.transpose.e = g.e ∧
    (∀ c ∈ g.transpose.iteredges,
      ∃ x ∈ g.iteredges, c = x.inv ∨ (g.directed = false ∧ c = x)) := by
  have hg := reachable_GInv hr
  have hg1adj : (g.adj.foldl (fun (h : MultiGraph) (p : Nat × Adj) => h.add_node p.1)
      ({ directed := g.directed, adj := [] } : MultiGraph)).adj =
      g.adj.map (fun p => (p.1, ([] : List (Nat × List Edge)))) := by
    have := foldl_add_node_adj g.adj ({ directed := g.directed, adj := [] } : MultiGraph)
      hg.1 (fun p _ => rfl)
    simpa using this
  have hg1dir : (g.adj.foldl (fun (h : MultiGraph) (p : Nat × Adj) => h.add_node p.1)
      ({ directed := g.directed, adj := [] } : MultiGraph)).directed = g.directed :=
    (foldl_add_node_metrics (fun p : Nat × Adj => p.1) g.adj _).1
  have hg1keys : (g.adj.foldl (fun (h : MultiGraph) (p : Nat × Adj) => h.add_node p.1)
      ({ directed := g.directed, adj := [] } : MultiGraph)).adj.map Prod.fst =
      g.adj.map Prod.fst := by
    rw [hg1adj, List.map_map]
    rfl
  have hg1r : Reachable (g.adj.foldl (fun (h : MultiGraph) (p : Nat × Adj) => h.add_node p.1)
      ({ directed := g.directed, adj := [] } : MultiGraph)) :=
    reachable_foldl_add_node (fun p : Nat × Adj => p.1) g.adj
      (Reachable.empty g.directed)
  have hg1nodes : ∀ p ∈ (g.adj.foldl (fun (h : MultiGraph) (p : Nat × Adj) => h.add_node p.1)
      ({ directed := g.directed, adj := [] } : MultiGraph)).adj,
      p.2 = ([] : List (Nat × List Edge)) := by
    rw [hg1adj]
    intro p hp
    obtain ⟨q, hq, hqp⟩ := List.mem_map.1 hp
    rw [← hqp]
  have hg1e : (g.adj.foldl (fun (h : MultiGraph) (p : Nat × Adj) => h.add_node p.1)
      ({ directed := g.directed, adj := [] } : MultiGraph)).e = 0 := e_nodes_only hg1nodes
  have hg1it : (g.adj.foldl (fun (h : MultiGraph) (p : Nat × Adj) => h.add_node p.1)
      ({ directed := g.directed, adj := [] } : MultiGraph)).iteredges = [] :=
    iteredges_nodes_only hg1nodes
  have hpres : ∀ x ∈ g.iteredges,
      (alook (g.adj.foldl (fun (h : MultiGraph) (p : Nat × Adj) => h.add_node p.1)
        ({ directed := g.directed, adj := [] } : MultiGraph)).adj x.inv.source).isSome = true ∧
      (alook (g.adj.foldl (fun (h : MultiGraph) (p : Nat × Adj) => h.add_node p.1)
        ({ directed := g.directed, adj := [] } : MultiGraph)).adj x.inv.target).isSome = true := by
    intro x hx
    obtain ⟨hxs, hxt⟩ := mem_iteredges_endpoints hg hx
    rw [isSome_of_keys_eq hg1keys, isSome_of_keys_eq hg1keys]
    exact ⟨hxt, hxs⟩
  obtain ⟨f1, f2, f3, f4⟩ := foldl_add_edge_metrics Edge.inv g.iteredges
    (g.adj.foldl (fun (h : MultiGraph) (p : Nat × Adj) => h.add_node p.1) ({ directed := g.directed, adj := [] } : MultiGraph))
    (reachable_GInv hg1r)
  refine ⟨?_, ?_, ?_, ?_⟩
  · show (g.iteredges.foldl (fun (h : MultiGraph) (ed : Edge) => h.add_edge ed.inv) _).directed = _
    rw [f1, hg1dir]
  · show (g.iteredges.foldl (fun (h : MultiGraph) (ed : Edge) => h.add_edge ed.inv) _).adj.map Prod.fst = _
    rw [foldl_add_edge_keys Edge.inv g.iteredges _ hpres, hg1keys]
  · show (g.iteredges.foldl (fun (h : MultiGraph) (ed : Edge) => h.add_edge ed.inv) _).e = _
    rw [f2, hg1e, (reachable_metrics hr).1]
    omega
  · intro c hc
    have := mem_iteredges_foldl_add_edge Edge.inv g.iteredges _ hg1r c hc
    rcases this with h0 | ⟨x, hx, hcx⟩
    · rw [hg1it] at h0
      cases h0
    · rw [hg1dir] at hcx
      rcases hcx with hcx | hcx
      · exact ⟨x, hx, Or.inl hcx⟩
      · rw [Edge.inv_inv] at hcx
        exact ⟨x, hx, Or.inr ⟨hcx.1, hcx.2⟩⟩

theorem has_edge_of_bucket {g : MultiGraph} {x y : Nat} {l : List Edge}
    (hb : bucketAt g x y = some l) {c : Edge} (hcs : c.source = x)
    (hct : c.target = y) : g.has_edge c = true := by
  obtain ⟨a, ha, hav⟩ := bucketAt_decompose hb
  unfold MultiGraph.has_edge
  rw [hcs, hct]
  simp only [ha]
  rw [hav]
  rfl

theorem has_edge_of_mem_iteredges {g : MultiGraph} (hg : GInv g) {c : Edge}
    (hc : c ∈ g.iteredges) : g.has_edge c = true := by
  rw [mem_iteredges_iff hg.1 hg.2.1] at hc
  obtain ⟨u, v, l, hb, hguard, hcl⟩ := hc
  obtain ⟨hsu, htv⟩ := I6_bucket hg.2.2.2.2.1 hb c hcl
  exact has_edge_of_bucket hb hsu htv

theorem has_edge_inv_of_mem {g : MultiGraph} (hg : GInv g) (hd : g.directed = false)
    {c : Edge} (hc : c ∈ g.iteredges) : g.has_edge c.inv = true := by
  rw [mem_iteredges_iff hg.1 hg.2.1] at hc
  obtain ⟨u, v, l, hb, hguard, hcl⟩ := hc
  obtain ⟨hsu, htv⟩ := I6_bucket hg.2.2.2.2.1 hb c hcl
  by_cases huv : u = v
  · subst huv
    exact has_edge_of_bucket hb (show c.inv.source = u from htv) (show c.inv.target = u from hsu)
  · have hbm := I3_bucket hg.2.2.2.2.2 hd hb huv
    exact has_edge_of_bucket hbm (show c.inv.source = v from htv) (show c.inv.target = u from hsu)

theorem eq_of_parts {g1 g2 : MultiGraph} (h1 : g1.directed = g2.directed)
    (h2 : g1.v = g2.v) (h3 : ∀ p ∈ g1.adj, g2.has_node p.1 = true)
    (h4 : g1.e = g2.e) (h5 : ∀ c ∈ g1.iteredges, g2.has_edge c = true) :
    g1.eq g2 = true := by
  unfold MultiGraph.eq
  have c1 : (g1.is_directed != g2.is_directed) = false := by
    unfold MultiGraph.is_directed
    rw [h1]
    simp
  have c2 : (g1.v != g2.v) = false := by
    rw [h2]
    simp
  have c3 : (!(g1.adj.all (fun p => g2.has_node p.1))) = false := by
    rw [List.all_eq_true.2 (fun p hp => h3 p hp)]
    rfl
  have c4 : (g1.e != g2.e) = false := by
    rw [h4]
    simp
  rw [c1, c2, c3, c4]
  simp only [Bool.false_eq_true, if_false]
  exact List.all_eq_true.2 (fun c hc => h5 c hc)

theorem eq_iff {g1 g2 : MultiGraph} :
    g1.eq g2 = true ↔
      (g1.directed = g2.directed ∧ g1.v = g2.v ∧
       (∀ p ∈ g1.adj, g2.has_node p.1 = true) ∧ g1.e = g2.e ∧
       (∀ c ∈ g1.iteredges, g2.has_edge c = true)) := by
  constructor
  · intro h
    unfold MultiGraph.eq at h
    by_cases c1 : (g1.is_directed != g2.is_directed) = true
    · rw [if_pos c1] at h
      cases h
    · rw [if_neg c1] at h
      by_cases c2 : (g1.v != g2.v) = true
      · rw [if_pos c2] at h
        cases h
      · rw [if_neg c2] at h
        by_cases c3 : (!(g1.adj.all (fun p => g2.has_node p.1))) = true
        · rw [if_pos c3] at h
          cases h
        · rw [if_neg c3] at h
          by_cases c4 : (g1.e != g2.e) = true
          · rw [if_pos c4] at h
            cases h
          · rw [if_neg c4] at h
            simp only [bne_iff_ne, ne_eq, not_not] at c1 c2 c4
            have call : g1.adj.all (fun p => g2.has_node p.1) = true := by
              cases hall : g1.adj.all (fun p => g2.has_node p.1)
              · exact absurd (by rw [hall]; rfl) c3
              · rfl
            refine ⟨c1, c2, fun p hp => List.all_eq_true.1 call p hp, c4, ?_⟩
            exact fun c hc => List.all_eq_true.1 h c hc
  · rintro ⟨h1, h2, h3, h4, h5⟩
    exact eq_of_parts h1 h2 h3 h4 h5

theorem transpose_eq_undir {g : MultiGraph} (hr : Reachable g)
    (hd : g.directed = false) : g.transpose.eq g = true := by
  obtain ⟨t1, t2, t3, t4⟩ := transpose_facts hr
  have hg := reachable_GInv hr
  apply eq_of_parts
  · rw [t1]
  · show g.transpose.adj.length = g.adj.length
    have := congrArg List.length t2
    simpa using this
  · intro p hp
    have hmem : p.1 ∈ g.transpose.adj.map Prod.fst := List.mem_map.2 ⟨p, hp, rfl⟩
    rw [t2] at hmem
    unfold MultiGraph.has_node
    rw [alook_isSome_iff]
    exact hmem
  · exact t3
  · intro c hc
    obtain ⟨x, hx, hcase⟩ := t4 c hc
    rcases hcase with hcx | hcx
    · subst hcx
      exact has_edge_inv_of_mem hg hd hx
    · rw [hcx.2]
      exact has_edge_of_mem_iteredges hg hx

theorem transpose_eq_dir {g : MultiGraph} (hr : Reachable g)
    (hd : g.directed = true) : g.transpose.transpose.eq g = true := by
  obtain ⟨t1, t2, t3, t4⟩ := transpose_facts hr
  have hrt : Reachable g.transpose := reachable_transpose g
  obtain ⟨u1, u2, u3, u4⟩ := transpose_facts hrt
  have hg := reachable_GInv hr
  have htd : g.transpose.directed = true := by
    rw [t1]
    exact hd
  apply eq_of_parts
  · rw [u1, t1]
  · show g.transpose.transpose.adj.length = g.adj.length
    have := congrArg List.length (u2.trans t2)
    simpa using this
  · intro p hp
    have hmem : p.1 ∈ g.transpose.transpose.adj.map Prod.fst :=
      List.mem_map.2 ⟨p, hp, rfl⟩
    rw [u2, t2] at hmem
    unfold MultiGraph.has_node
    rw [alook_isSome_iff]
    exact hmem
  · rw [u3, t3]
  · intro c hc
    obtain ⟨y, hy, hcy⟩ := u4 c hc
    obtain ⟨x, hx, hcx⟩ := t4 y hy
    rcases hcy with hcy | hcy
    · rcases hcx with hcx | hcx
      · rw [hcy, hcx, Edge.inv_inv]
        exact has_edge_of_mem_iteredges hg hx
      · have : (false : Bool) = true := hcx.1 ▸ hd
        cases this
    · have : (false : Bool) = true := hcy.1 ▸ htd
      cases this

/-- The number of parallel copies of a specific edge value stored in the
bucket `g[u][v]` (zero when the bucket is absent). -/
def eCount (g : MultiGraph) (u v : Nat) (c : Edge) : Nat :=
  ((bucketAt g u v).getD []).count c

theorem count_map_inv (l : List Edge) (c : Edge) :
    (l.map Edge.inv).count c = l.count c.inv := by
  induction l with
  | nil => rfl
  | cons y ys ih =>
    rw [List.map_cons, List.count_cons, List.count_cons, ih]
    have : (y.inv = c) ↔ (y = c.inv) := by
      constructor
      · intro h
        rw [← h, Edge.inv_inv]
      · intro h
        rw [h, Edge.inv_inv]
    by_cases h : y.inv = c
    · have h2 : y = c.inv := this.1 h
      simp [h, h2, Edge.inv_inv]
    · have h2 : ¬(y = c.inv) := fun hc => h (this.2 hc)
      simp [h, h2]

theorem removeFirst_append_self (B0 : List Edge) (ed : Edge) :
    ∃ l2, removeFirst (B0 ++ [ed]) ed = some l2 ∧
      l2.length = B0.length ∧ (∀ c, l2.count c = B0.count c) := by
  have hmem : ed ∈ B0 ++ [ed] := List.mem_append.2 (Or.inr (List.mem_singleton.2 rfl))
  have hsome := removeFirst_isSome_of_mem hmem
  cases hr : removeFirst (B0 ++ [ed]) ed with
  | none => rw [hr] at hsome; cases hsome
  | some l2 =>
    refine ⟨l2, rfl, ?_, ?_⟩
    · have := removeFirst_length hr
      rw [List.length_append] at this
      simpa using this
    · intro c
      have hcnt := removeFirst_count hr c
      rw [List.count_append] at hcnt
      have hsing : ([ed] : List Edge).count c = (if c = ed then 1 else 0) := by
        by_cases hc : c = ed
        · rw [if_pos hc, hc]
          simp
        · rw [if_neg hc]
          simp [List.count_cons, hc]
      rw [hsing] at hcnt
      by_cases hc : c = ed
      · rw [if_pos hc] at hcnt
        omega
      · rw [if_neg hc] at hcnt
        omega

theorem I3_mirror_opt {g : MultiGraph} (h3 : I3 g) (hd : g.directed = false)
    {u x : Nat} (hne : u ≠ x) :
    bucketAt g x u = (bucketAt g u x).map (List.map Edge.inv) := by
  cases hb : bucketAt g u x with
  | none => rw [I3_bucket_none h3 hd hb hne]; rfl
  | some l => rw [I3_bucket h3 hd hb hne]; rfl

theorem getD_if_count (l2 : List Edge) (c : Edge) :
    (((if l2 = [] then none else some l2) : Option (List Edge)).getD []).count c =
      l2.count c := by
  by_cases h : l2 = []
  · rw [if_pos h, h]
    rfl
  · rw [if_neg h]
    rfl

theorem getD_if_count_inv (l2 : List Edge) (c : Edge) :
    (((if l2 = [] then none else some (l2.map Edge.inv)) :
      Option (List Edge)).getD []).count c = (l2.map Edge.inv).count c := by
  by_cases h : l2 = []
  · rw [if_pos h, h]
    rfl
  · rw [if_neg h]
    rfl

theorem isSome_if_of_len {g : MultiGraph} (h2 : I2 g) {u x : Nat} {l2 : List Edge}
    (hlen : l2.length = ((bucketAt g u x).getD []).length) :
    ((if l2 = [] then none else some l2) : Option (List Edge)).isSome =
      (bucketAt g u x).isSome := by
  cases hb : bucketAt g u x with
  | none =>
    rw [hb] at hlen
    simp only [Option.getD_none, List.length_nil] at hlen
    rw [if_pos (List.eq_nil_of_length_eq_zero hlen)]
  | some l0 =>
    have hne := I2_bucket h2 hb
    rw [hb] at hlen
    simp only [Option.getD_some] at hlen
    have hl2ne : l2 ≠ [] := by
      intro h0
      rw [h0] at hlen
      exact hne (List.eq_nil_of_length_eq_zero hlen.symm)
    rw [if_neg hl2ne]
    rfl

theorem isSome_if_inv_of_len {g : MultiGraph} (h2 : I2 g) {u x : Nat} {l2 : List Edge}
    (hlen : l2.length = ((bucketAt g u x).getD []).length) :
    ((if l2 = [] then none else some (l2.map Edge.inv)) :
      Option (List Edge)).isSome = (bucketAt g u x).isSome := by
  cases hb : bucketAt g u x with
  | none =>
    rw [hb] at hlen
    simp only [Option.getD_none, List.length_nil] at hlen
    rw [if_pos (List.eq_nil_of_length_eq_zero hlen)]
  | some l0 =>
    have hne := I2_bucket h2 hb
    rw [hb] at hlen
    simp only [Option.getD_some] at hlen
    have hl2ne : l2 ≠ [] := by
      intro h0
      rw [h0] at hlen
      exact hne (List.eq_nil_of_length_eq_zero hlen.symm)
    rw [if_neg hl2ne]
    rfl

theorem add_del_roundtrip {g : MultiGraph} {ed : Edge} (hg : GInv g)
    (hs : g.has_node ed.source = true) (ht : g.has_node ed.target = true) :
    ((g.add_edge ed).del_edge ed).1 = none ∧
    ((g.add_edge ed).del_edge ed).2.directed = g.directed ∧
    (∀ w, ((g.add_edge ed).del_edge ed).2.has_node w = g.has_node w) ∧
    (∀ w x, (bucketAt ((g.add_edge ed).del_edge ed).2 w x).isSome =
      (bucketAt g w x).isSome) ∧
    (∀ w x c, eCount ((g.add_edge ed).del_edge ed).2 w x c = eCount g w x c) := by
  have hg2 : GInv (g.add_edge ed) := GInv_add_edge ed hg
  have hkeys2 : (g.add_edge ed).adj.map Prod.fst = g.adj.map Prod.fst :=
    add_edge_keys_of_present hs ht
  obtain ⟨l2, hr2, hlen2, hcnt2⟩ :=
    removeFirst_append_self ((bucketAt g ed.source ed.target).getD []) ed
  have ha2 : alook (g.add_edge ed).adj ed.source =
      some (appendB (addB ((alook g.adj ed.source).getD []) ed.target) ed.target ed) := by
    cases hd : g.directed with
    | true => exact add_edge_alook_src_directed ed hd
    | false =>
      by_cases hloop : ed.source = ed.target
      · rw [add_edge_alook_loop ed hd hloop, hloop]
      · exact add_edge_alook_src_undir ed hd hloop
  have hl2 : alook (appendB (addB ((alook g.adj ed.source).getD []) ed.target)
      ed.target ed) ed.target =
      some ((bucketAt g ed.source ed.target).getD [] ++ [ed]) := by
    rw [appendB_alook_self, addB_alook_self, alook_getD_bucketAt]
    rfl
  obtain ⟨e1, e2, e3, ewfi, ebkt⟩ := del_edge_success hg2 ha2 hl2 hr2
  have hunch : ∀ w x, ¬(w = ed.source ∧ x = ed.target) →
      ¬((g.add_edge ed).directed = false ∧ ed.source ≠ ed.target ∧
        w = ed.target ∧ x = ed.source) →
      bucketAt (g.add_edge ed) w x = bucketAt g w x := by
    intro w x hc1 hc2
    cases hd : g.directed with
    | true => rw [bucketAt_add_edge_directed ed hd, if_neg hc1]
    | false =>
      by_cases hloop : ed.source = ed.target
      · rw [bucketAt_add_edge_loop ed hd hloop,
          if_neg (fun hc => hc1 ⟨hc.1, hc.2.trans hloop⟩)]
      · rw [bucketAt_add_edge_undir ed hd hloop, if_neg hc1,
          if_neg (fun hc => hc2 ⟨by rw [add_edge_directed]; exact hd, hloop,
            hc.1, hc.2⟩)]
  refine ⟨e1, e2.trans (add_edge_directed g ed), ?_, ?_, ?_⟩
  · intro w
    unfold MultiGraph.has_node
    exact isSome_of_keys_eq (e3.trans hkeys2) w
  · intro w x
    rw [ebkt w x]
    by_cases hc1 : w = ed.source ∧ x = ed.target
    · rw [if_pos hc1, hc1.1, hc1.2]
      exact isSome_if_of_len hg.2.2.2.1 hlen2
    · rw [if_neg hc1]
      by_cases hc2 : (g.add_edge ed).directed = false ∧ ed.source ≠ ed.target ∧
          w = ed.target ∧ x = ed.source
      · rw [if_pos hc2, hc2.2.2.1, hc2.2.2.2]
        have hdg : g.directed = false := by
          rw [← add_edge_directed g ed]
          exact hc2.1
        rw [I3_mirror_opt hg.2.2.2.2.2 hdg hc2.2.1]
        cases hb : bucketAt g ed.source ed.target with
        | none =>
          rw [hb] at hlen2
          simp only [Option.getD_none, List.length_nil] at hlen2
          rw [if_pos (List.eq_nil_of_length_eq_zero hlen2)]
          rfl
        | some l0 =>
          have hne := I2_bucket hg.2.2.2.1 hb
          rw [hb] at hlen2
          simp only [Option.getD_some] at hlen2
          have hl2ne : l2 ≠ [] := by
            intro h0
            rw [h0] at hlen2
            exact hne (List.eq_nil_of_length_eq_zero hlen2.symm)
          rw [if_neg hl2ne]
          rfl
      · rw [if_neg hc2, hunch w x hc1 hc2]
  · intro w x c
    unfold eCount
    rw [ebkt w x]
    by_cases hc1 : w = ed.source ∧ x = ed.target
    · rw [if_pos hc1, hc1.1, hc1.2, getD_if_count]
      exact hcnt2 c
    · rw [if_neg hc1]
      by_cases hc2 : (g.add_edge ed).directed = false ∧ ed.source ≠ ed.target ∧
          w = ed.target ∧ x = ed.source
      · rw [if_pos hc2, hc2.2.2.1, hc2.2.2.2]
        rw [getD_if_count_inv, count_map_inv]
        have hdg : g.directed = false := by
          rw [← add_edge_directed g ed]
          exact hc2.1
        rw [I3_mirror_opt hg.2.2.2.2.2 hdg hc2.2.1]
        cases hb : bucketAt g ed.source ed.target with
        | none =>
          rw [hcnt2 c.inv, hb]
          rfl
        | some l0 =>
          rw [hcnt2 c.inv, hb]
          show l0.count c.inv = (l0.map Edge.inv).count c
          rw [count_map_inv]
      · rw [if_neg hc2, hunch w x hc1 hc2]

theorem degree_add_loop {g : MultiGraph} {ed : Edge} (hg : GInv g)
    (hd : g.directed = false) (hloop : ed.source = ed.target)
    {a : Adj} (ha : alook g.adj ed.source = some a) :
    g.degree ed.source = Except.ok ((a.map (fun q => q.2.length)).sum +
      (match alook a ed.source with | some l => l.length | none => 0)) ∧
    (g.add_edge ed).degree ed.source = Except.ok ((a.map (fun q => q.2.length)).sum +
      (match alook a ed.source with | some l => l.length | none => 0) + 2) := by
  have hnda : (a.map Prod.fst).Nodup := hg.2.1 (ed.source, a) (alook_mem ha)
  constructor
  · unfold MultiGraph.degree
    rw [hd]
    simp only [Bool.false_eq_true, if_false, ha]
  · have hanew : alook (g.add_edge ed).adj ed.source =
        some (appendB (addB a ed.source) ed.source ed) := by
      rw [add_edge_alook_loop ed hd hloop, ha]
      rfl
    unfold MultiGraph.degree
    rw [add_edge_directed, hd]
    simp only [Bool.false_eq_true, if_false, hanew]
    have hedges : ((appendB (addB a ed.source) ed.source ed).map
        (fun q => q.2.length)).sum = (a.map (fun q => q.2.length)).sum + 1 :=
      hTE_appendB_addB ed.source ed.source ed hnda
    have hloops : (match alook (appendB (addB a ed.source) ed.source ed) ed.source with
        | some l => l.length
        | none => 0) =
        (match alook a ed.source with | some l => l.length | none => 0) + 1 :=
      hLE_appendB_addB_self ed.source ed
    rw [hedges, hloops]
    congr 1
    omega

theorem eCount_add_loop {g : MultiGraph} {ed : Edge}
    (hd : g.directed = false) (hloop : ed.source = ed.target) :
    eCount (g.add_edge ed) ed.source ed.source ed =
      eCount g ed.source ed.source ed + 1 := by
  unfold eCount
  rw [bucketAt_add_edge_loop ed hd hloop, if_pos ⟨rfl, rfl⟩]
  simp only [Option.getD_some]
  rw [List.count_append]
  simp

/-! The claims. -/

/-- C1 (amended): `add_edge(e)` followed by `del_edge(e)` restores the prior
state — directedness, node set, bucket existence and per-bucket parallel-edge
counts — provided the graph satisfies the structural invariants and both
endpoints of `e` were already nodes.  Without the endpoint proviso the claim
is false: `add_edge` creates missing endpoint nodes and `del_edge` never
removes nodes (see the counterexample). -/
theorem claim_C1_roundtrip {g : MultiGraph} {ed : Edge} (hg : GInv g)
    (hs : g.has_node ed.source = true) (ht : g.has_node ed.target = true) :
    ((g.add_edge ed).del_edge ed).1 = none ∧
    ((g.add_edge ed).del_edge ed).2.directed = g.directed ∧
    (∀ w, ((g.add_edge ed).del_edge ed).2.has_node w = g.has_node w) ∧
    (∀ w x, (bucketAt ((g.add_edge ed).del_edge ed).2 w x).isSome =
      (bucketAt g w x).isSome) ∧
    (∀ w x c, eCount ((g.add_edge ed).del_edge ed).2 w x c = eCount g w x c) :=
  add_del_roundtrip hg hs ht

/-- C1 witness: on the two-node edgeless undirected graph, adding and removing
the edge `0→1` succeeds and leaves nodes, buckets and counts unchanged. -/
theorem claim_C1_roundtrip_witness :
    (((((MultiGraph.mk false []).add_node 0).add_node 1).add_edge
        (Edge.mk 0 1 0)).del_edge (Edge.mk 0 1 0)).1 = none ∧
    (((((MultiGraph.mk false []).add_node 0).add_node 1).add_edge
        (Edge.mk 0 1 0)).del_edge (Edge.mk 0 1 0)).2.has_node 0 =
      (((MultiGraph.mk false []).add_node 0).add_node 1).has_node 0 ∧
    (bucketAt (((((MultiGraph.mk false []).add_node 0).add_node 1).add_edge
        (Edge.mk 0 1 0)).del_edge (Edge.mk 0 1 0)).2 0 1).isSome =
      (bucketAt (((MultiGraph.mk false []).add_node 0).add_node 1) 0 1).isSome ∧
    eCount (((((MultiGraph.mk false []).add_node 0).add_node 1).add_edge
        (Edge.mk 0 1 0)).del_edge (Edge.mk 0 1 0)).2 0 1 (Edge.mk 0 1 0) =
      eCount (((MultiGraph.mk false []).add_node 0).add_node 1) 0 1
        (Edge.mk 0 1 0) := by
  obtain ⟨h1, h2, h3, h4, h5⟩ :=
    @claim_C1_roundtrip (((MultiGraph.mk false []).add_node 0).add_node 1)
      (Edge.mk 0 1 0) (by decide) (by decide) (by decide)
  exact ⟨h1, h3 0, h4 0 1, h5 0 1 (Edge.mk 0 1 0)⟩

/-- C1 counterexample: on the empty undirected graph, `add_edge ⟨0,1,0⟩` then
`del_edge ⟨0,1,0⟩` raises no error, yet the final state is not the prior
state: node `0` exists afterwards although the graph had no nodes before,
because `add_edge` created the endpoints and `del_edge` does not remove
them. -/
theorem claim_C1_counterexample :
    ((((MultiGraph.mk false []).add_edge (Edge.mk 0 1 0)).del_edge
      (Edge.mk 0 1 0)).1 = none) ∧
    ((((MultiGraph.mk false []).add_edge (Edge.mk 0 1 0)).del_edge
      (Edge.mk 0 1 0)).2.has_node 0 = true) ∧
    ((MultiGraph.mk false []).has_node 0 = false) := by
  decide

/-- C2: `__eq__` returns `True` exactly when the five checks pass —
same directedness, same node count, every node of the left graph in the
right one, same edge count, and every edge yielded by the left graph's
`iteredges()` accepted by the right graph's `has_edge` (bucket existence
only). -/
theorem claim_C2_eq (g1 g2 : MultiGraph) :
    g1.eq g2 = true ↔
      (g1.is_directed = g2.is_directed ∧ g1.v = g2.v ∧
       (∀ p ∈ g1.adj, g2.has_node p.1 = true) ∧ g1.e = g2.e ∧
       (∀ c ∈ g1.iteredges, g2.has_edge c = true)) :=
  eq_iff

/-- C3: for every reachable multigraph, `e()` returns
`(total_bucket_entries + loop_entries) / 2` when undirected — and that
numerator is always even, so the Python 2 integer division is exact — and
the raw bucket-entry total when directed. -/
theorem claim_C3_size {g : MultiGraph} (hr : Reachable g) :
    (g.directed = false →
      (totalEntries g + loopEntries g) % 2 = 0 ∧
      g.e = (totalEntries g + loopEntries g) / 2) ∧
    (g.directed = true → g.e = totalEntries g) := by
  have hm := (reachable_metrics hr).2
  constructor
  · intro hd
    refine ⟨hm hd, ?_⟩
    unfold MultiGraph.e
    rw [hd]
    simp only [Bool.false_eq_true, if_false]
  · intro hd
    unfold MultiGraph.e
    rw [hd]
    rw [if_pos rfl]

/-- C3 witness: an undirected loop stores one bucket entry counted once as a
loop entry; `e()` is `(1 + 1) / 2 = 1` and the numerator is even. -/
theorem claim_C3_size_witness :
    (totalEntries ((MultiGraph.mk false []).add_edge (Edge.mk 0 0 1)) +
      loopEntries ((MultiGraph.mk false []).add_edge (Edge.mk 0 0 1))) % 2 = 0 ∧
    ((MultiGraph.mk false []).add_edge (Edge.mk 0 0 1)).e =
      (totalEntries ((MultiGraph.mk false []).add_edge (Edge.mk 0 0 1)) +
        loopEntries ((MultiGraph.mk false []).add_edge (Edge.mk 0 0 1))) / 2 :=
  (claim_C3_size (Reachable.addE (Edge.mk 0 0 1) (Reachable.empty false))).1 rfl

/-- C4: in every reachable undirected multigraph and for all nodes `u ≠ v`,
the bucket `g[v][u]` is exactly the elementwise inversion of `g[u][v]`:
either both exist, with equal length and the k-th edge of one the `~` of
the k-th edge of the other, or neither exists. -/
theorem claim_C4_mirror {g : MultiGraph} (hr : Reachable g)
    (hd : g.directed = false) {u v : Nat} (hne : u ≠ v) :
    bucketAt g v u = (bucketAt g u v).map (List.map Edge.inv) :=
  I3_mirror_opt (reachable_GInv hr).2.2.2.2.2 hd hne

/-- C4 witness: after adding the undirected edge `0→1`, the bucket `[1][0]`
is the inversion of the bucket `[0][1]`. -/
theorem claim_C4_mirror_witness :
    bucketAt ((MultiGraph.mk false []).add_edge (Edge.mk 0 1 7)) 1 0 =
      (bucketAt ((MultiGraph.mk false []).add_edge (Edge.mk 0 1 7)) 0 1).map
        (List.map Edge.inv) :=
  claim_C4_mirror (Reachable.addE (Edge.mk 0 1 7) (Reachable.empty false)) rfl
    (by decide)

/-- C5: `iteredges()` yields every stored edge exactly once: the number of
yielded values equals `e()`, and the multiplicity of any edge value among
the yielded values is its multiplicity in the single bucket of its
signature — kept for directed graphs and for undirected buckets with
`source ≤ target` (loops included), and zero for the skipped mirrored
side. -/
theorem claim_C5_iteredges {g : MultiGraph} (hr : Reachable g) :
    g.iteredges.length = g.e ∧
    (∀ c : Edge, g.iteredges.count c =
      if (g.directed || decide (c.source ≤ c.target)) = true
      then eCount g c.source c.target c else 0) :=
  ⟨(reachable_metrics hr).1, fun c => iteredges_count (reachable_GInv hr) c⟩

/-- C5 witness: with one undirected edge `0→1`, `iteredges()` yields exactly
one value (`e() = 1`), and the count of that edge equals its bucket count. -/
theorem claim_C5_iteredges_witness :
    ((MultiGraph.mk false []).add_edge (Edge.mk 0 1 1)).iteredges.length =
      ((MultiGraph.mk false []).add_edge (Edge.mk 0 1 1)).e ∧
    ((MultiGraph.mk false []).add_edge (Edge.mk 0 1 1)).iteredges.count
        (Edge.mk 0 1 1) =
      (if ((((MultiGraph.mk false []).add_edge (Edge.mk 0 1 1)).directed ||
          decide ((Edge.mk 0 1 1).source ≤ (Edge.mk 0 1 1).target)) = true)
       then eCount ((MultiGraph.mk false []).add_edge (Edge.mk 0 1 1)) 0 1
        (Edge.mk 0 1 1) else 0) :=
  ⟨(claim_C5_iteredges (Reachable.addE (Edge.mk 0 1 1) (Reachable.empty false))).1,
   (claim_C5_iteredges (Reachable.addE (Edge.mk 0 1 1) (Reachable.empty false))).2
    (Edge.mk 0 1 1)⟩

/-- C6: for every reachable directed multigraph `g`,
`transpose(transpose(g)) == g` under the class's equality; for every
reachable undirected multigraph, `transpose(g) == g`. -/
theorem claim_C6_transpose {g : MultiGraph} (hr : Reachable g) :
    (g.directed = true → g.transpose.transpose.eq g = true) ∧
    (g.directed = false → g.transpose.eq g = true) :=
  ⟨transpose_eq_dir hr, transpose_eq_undir hr⟩

/-- C6 witness: the double transpose of the directed graph with one edge
`0→1` is `==`-equal to the original. -/
theorem claim_C6_transpose_witness :
    ((MultiGraph.mk true []).add_edge
        (Edge.mk 0 1 2)).transpose.transpose.eq
      ((MultiGraph.mk true []).add_edge (Edge.mk 0 1 2)) = true :=
  (claim_C6_transpose (Reachable.addE (Edge.mk 0 1 2) (Reachable.empty true))).1 rfl

/-- C7: on a reachable undirected multigraph with `e.source` present, adding
a loop edge increases `size()` by exactly 1 and `degree(e.source)` by
exactly 2, and stores exactly one more copy of the loop in the single
bucket `g[u][u]`. -/
theorem claim_C7_loop {g : MultiGraph} {ed : Edge} (hr : Reachable g)
    (hd : g.directed = false) (hloop : ed.source = ed.target)
    (hnode : g.has_node ed.source = true) :
    (g.add_edge ed).e = g.e + 1 ∧
    (∃ d0, g.degree ed.source = Except.ok d0 ∧
      (g.add_edge ed).degree ed.source = Except.ok (d0 + 2)) ∧
    eCount (g.add_edge ed) ed.source ed.source ed =
      eCount g ed.source ed.source ed + 1 := by
  have hg := reachable_GInv hr
  refine ⟨e_add_edge ed hg.1 hg.2.1, ?_, eCount_add_loop hd hloop⟩
  cases ha : alook g.adj ed.source with
  | none =>
    unfold MultiGraph.has_node at hnode
    rw [ha] at hnode
    cases hnode
  | some a =>
    obtain ⟨h1, h2⟩ := degree_add_loop hg hd hloop ha
    exact ⟨_, h1, h2⟩

/-- C7 witness: adding the loop `0→0` to the one-node undirected graph takes
`size()` from 0 to 1, `degree(0)` from 0 to 2, and the bucket count of the
loop from 0 to 1. -/
theorem claim_C7_loop_witness :
    (((MultiGraph.mk false []).add_node 0).add_edge (Edge.mk 0 0 3)).e =
      ((MultiGraph.mk false []).add_node 0).e + 1 ∧
    (∃ d0, ((MultiGraph.mk false []).add_node 0).degree 0 = Except.ok d0 ∧
      (((MultiGraph.mk false []).add_node 0).add_edge (Edge.mk 0 0 3)).degree 0 =
        Except.ok (d0 + 2)) ∧
    eCount (((MultiGraph.mk false []).add_node 0).add_edge (Edge.mk 0 0 3)) 0 0
        (Edge.mk 0 0 3) =
      eCount ((MultiGraph.mk false []).add_node 0) 0 0 (Edge.mk 0 0 3) + 1 :=
  claim_C7_loop (Reachable.addN 0 (Reachable.empty false)) rfl rfl (by decide)

/-- C8: on a reachable multigraph, `del_node(u)` raises the missing-key
error and leaves the state untouched when `u` is not a node; when `u` is a
node it succeeds, removes every bucket `g[w][u]` and `g[u][x]` together
with `u` itself, and leaves every other node and every bucket `g[w][x]`
with `w ≠ u ≠ x` unchanged (self-loops on `u` included). -/
theorem claim_C8_del_node {g : MultiGraph} (u : Nat) (hr : Reachable g) :
    (g.has_node u = false → g.del_node u = (some GErr.keyError, g)) ∧
    (g.has_node u = true →
      (g.del_node u).1 = none ∧
      (g.del_node u).2.directed = g.directed ∧
      (g.del_node u).2.has_node u = false ∧
      (∀ w, w ≠ u → (g.del_node u).2.has_node w = g.has_node w) ∧
      (∀ w x, w ≠ u → x ≠ u → bucketAt (g.del_node u).2 w x = bucketAt g w x) ∧
      (∀ w, bucketAt (g.del_node u).2 w u = none) ∧
      (∀ x, bucketAt (g.del_node u).2 u x = none)) := by
  have hg := reachable_GInv hr
  constructor
  · intro habs
    cases ha : alook g.adj u with
    | some a =>
      unfold MultiGraph.has_node at habs
      rw [ha] at habs
      cases habs
    | none => exact del_node_absent hg ha
  · intro hpres
    cases ha : alook g.adj u with
    | none =>
      unfold MultiGraph.has_node at hpres
      rw [ha] at hpres
      cases hpres
    | some a0 =>
      obtain ⟨f1, _, f3, f4, f5, f6, f7, f8⟩ := del_node_present hg ha
      refine ⟨f1, f3, ?_, ?_, f6, f7, f8⟩
      · unfold MultiGraph.has_node
        rw [f4]
        rfl
      · intro w hw
        unfold MultiGraph.has_node
        exact f5 w hw

/-- C8 witness: a directed graph where node 0 has an in-edge, an out-edge
and a self-loop, plus an unrelated edge `1→2`; `del_node 0` succeeds,
removes node 0, and keeps node 1 and the bucket `[1][2]`; on an absent
node, `del_node` returns the key error and the unchanged graph. -/
theorem claim_C8_del_node_witness :
    ((((((MultiGraph.mk true []).add_edge (Edge.mk 1 0 0)).add_edge (Edge.mk 0 2 0)).add_edge (Edge.mk 0 0 0)).add_edge (Edge.mk 1 2 9)).del_node 0).1 = none ∧
    ((((((MultiGraph.mk true []).add_edge (Edge.mk 1 0 0)).add_edge (Edge.mk 0 2 0)).add_edge (Edge.mk 0 0 0)).add_edge (Edge.mk 1 2 9)).del_node 0).2.has_node 0 = false ∧
    bucketAt ((((((MultiGraph.mk true []).add_edge (Edge.mk 1 0 0)).add_edge (Edge.mk 0 2 0)).add_edge (Edge.mk 0 0 0)).add_edge (Edge.mk 1 2 9)).del_node 0).2 1 2 = bucketAt (((((MultiGraph.mk true []).add_edge (Edge.mk 1 0 0)).add_edge (Edge.mk 0 2 0)).add_edge (Edge.mk 0 0 0)).add_edge (Edge.mk 1 2 9)) 1 2 ∧
    (MultiGraph.mk true []).del_node 5 =
      (some GErr.keyError, MultiGraph.mk true []) := by
  have h := claim_C8_del_node 0
    (Reachable.addE (Edge.mk 1 2 9) (Reachable.addE (Edge.mk 0 0 0)
      (Reachable.addE (Edge.mk 0 2 0) (Reachable.addE (Edge.mk 1 0 0)
        (Reachable.empty true)))))
  obtain ⟨f1, _, f3, _, f5, _, _⟩ := h.2 (by decide)
  refine ⟨f1, f3, f5 1 2 (by decide) (by decide), ?_⟩
  exact (claim_C8_del_node 5 (Reachable.empty true)).1 (by decide)

/-- C9: from any reachable state every mutation is atomic — `add_node`,
`add_edge` and merge always complete with all structural invariants intact,
and `del_edge` and `del_node` either complete with the invariants intact or
raise with the state exactly as before the call. -/
theorem claim_C9_atomicity {g : MultiGraph} (hr : Reachable g) :
    (∀ u, GInv (g.add_node u)) ∧
    (∀ ed, GInv (g.add_edge ed)) ∧
    (∀ ed, ((g.del_edge ed).1 = none → GInv (g.del_edge ed).2) ∧
      ((g.del_edge ed).1 ≠ none → (g.del_edge ed).2 = g)) ∧
    (∀ u, ((g.del_node u).1 = none → GInv (g.del_node u).2) ∧
      ((g.del_node u).1 ≠ none → (g.del_node u).2 = g)) ∧
    (∀ other, GInv (g.add_multigraph other)) := by
  have hg := reachable_GInv hr
  refine ⟨fun u => GInv_add_node u hg, fun ed => GInv_add_edge ed hg,
    fun ed => del_edge_atomic ed hg, fun u => ⟨?_, ?_⟩,
    fun other => GInv_add_multigraph other hg⟩
  · intro hok
    cases ha : alook g.adj u with
    | none =>
      rw [del_node_absent hg ha] at hok
      cases hok
    | some a0 => exact (del_node_present hg ha).2.1
  · intro herr
    cases ha : alook g.adj u with
    | none =>
      rw [del_node_absent hg ha]
    | some a0 => exact absurd (del_node_present hg ha).1 herr

/-- C9 witness: on the empty undirected graph, `add_node` yields an
invariant-satisfying state, and a raising `del_edge` returns the unchanged
graph. -/
theorem claim_C9_atomicity_witness :
    GInv ((MultiGraph.mk false []).add_node 5) ∧
    ((MultiGraph.mk false []).del_edge (Edge.mk 0 1 0)).2 =
      MultiGraph.mk false [] :=
  ⟨(claim_C9_atomicity (Reachable.empty false)).1 5,
   ((claim_C9_atomicity (Reachable.empty false)).2.2.1 (Edge.mk 0 1 0)).2
     (by decide)⟩

/-- C10: `__eq__` is not symmetric: for the directed multigraph `g1` with two
parallel edges `0→1` and the directed multigraph `g2` with one edge `0→1`
and one edge `1→0`, `g1 == g2` returns `True` (every check in `__eq__`
passes left-to-right) while `g2 == g1` returns `False` (the edge `1→0` has
no bucket in `g1`). -/
theorem claim_C10_eq_asymmetric :
    MultiGraph.eq
      (((MultiGraph.mk true []).add_edge (Edge.mk 0 1 0)).add_edge
        (Edge.mk 0 1 1))
      (((MultiGraph.mk true []).add_edge (Edge.mk 0 1 0)).add_edge
        (Edge.mk 1 0 1)) = true ∧
    MultiGraph.eq
      (((MultiGraph.mk true []).add_edge (Edge.mk 0 1 0)).add_edge
        (Edge.mk 1 0 1))
      (((MultiGraph.mk true []).add_edge (Edge.mk 0 1 0)).add_edge
        (Edge.mk 0 1 1)) = false := by
  decide
